import Mathlib

/-!
Combinational circuit evaluator (`nysa.cc`).

A shallow embedding of the circuit evaluator: the gate kinds, the graph built
by the parser, the cycle detector, the discovery of primary inputs, the
memoised evaluator and the truth-table driver, followed by theorems about them.

Conventions of the embedding.

* `int32_t` signal identifiers are `Int`.
* `unordered_set<int32_t>` is a `List Int` used through `setInsert`,
  `setErase` and membership; `unordered_map` is an association list used
  through `List.lookup` and an insert that keeps an existing entry.  The
  iteration order of these containers is unspecified in the source; theorems
  are stated for every order (every list).
* Recursive procedures whose termination is not structural take a `fuel`
  argument and return `none` when it runs out; a C++ exception
  (`.at()` out of range) is `none` as well.
-/

namespace Nysa

/-! ## Data model -/

/-- Gate kinds, `enum Gate`. -/
inductive Gate where
  | NOT | XOR | AND | NAND | OR | NOR
  deriving DecidableEq, Repr

/-- Child to gate type and set of parents mapping. -/
abbrev graph := List (Int × (Gate × List Int))

/-- Insertion into an `unordered_set`: no effect when the element is present. -/
def setInsert (x : Int) (s : List Int) : List Int :=
  if x ∈ s then s else x :: s

/-- Removal from an `unordered_set`. -/
def setErase (x : Int) (s : List Int) : List Int :=
  s.filter (fun y => y != x)

/-- Keys of the graph (the gate-defined signals). -/
def graphKeys (g : graph) : List Int := g.map Prod.fst

/-- Test `g.contains(s)`. -/
def graphContains (g : graph) (s : Int) : Bool := (g.lookup s).isSome

/-! ## Cycle detector -/

/-- The loop over the parents of the current node in `dfsWithActiveNodes`;
`visit` is the recursive call. The result is the returned flag together with
the sets `activeNodes` and `visitedNodes` after the loop. -/
def dfsParentsLoop (visit : Int → List Int → List Int → Option (Bool × List Int × List Int)) :
    List Int → List Int → List Int → Option (Bool × List Int × List Int)
  | [], activeNodes, visitedNodes => some (false, activeNodes, visitedNodes)
  | parent :: rest, activeNodes, visitedNodes =>
    if parent ∈ visitedNodes then
      dfsParentsLoop visit rest activeNodes visitedNodes
    else
      match visit parent activeNodes visitedNodes with
      | none => none
      | some (true, a, v) => some (true, a, v)
      | some (false, a, v) => dfsParentsLoop visit rest a v

/-- Function `dfsWithActiveNodes`: depth-first search that tracks the nodes of
the current recursion stack. `fuel` bounds the recursion depth. -/
def dfsWithActiveNodes (g : graph) :
    Nat → Int → List Int → List Int → Option (Bool × List Int × List Int)
  | 0, _, _, _ => none
  | fuel + 1, currentNode, activeNodes, visitedNodes =>
    match g.lookup currentNode with
    | none => some (false, activeNodes, visitedNodes)
    | some entry =>
      if currentNode ∈ activeNodes then
        some (true, activeNodes, visitedNodes)
      else
        match dfsParentsLoop (dfsWithActiveNodes g fuel) entry.2
            (setInsert currentNode activeNodes) visitedNodes with
        | none => none
        | some (true, a, v) => some (true, a, v)
        | some (false, a, v) => some (false, setErase currentNode a, setInsert currentNode v)

/-- The loop of `hasCycle` over the nodes of the graph. -/
def hasCycleLoop (g : graph) (fuel : Nat) :
    List (Int × (Gate × List Int)) → List Int → List Int → Option Bool
  | [], _, _ => some false
  | node :: rest, activeNodes, visitedNodes =>
    match dfsWithActiveNodes g fuel node.1 activeNodes visitedNodes with
    | none => none
    | some (true, _, _) => some true
    | some (false, a, v) => hasCycleLoop g fuel rest a v

/-- Function `hasCycle`. -/
def hasCycle (g : graph) (fuel : Nat) : Option Bool :=
  hasCycleLoop g fuel g [] []

/-- Edge of the dependency graph: `p` is an input (parent) of the gate that
defines `s`. -/
def Edge (g : graph) (s p : Int) : Prop :=
  ∃ entry, g.lookup s = some entry ∧ p ∈ entry.2

/-- The graph has a dependency cycle: a signal reaches itself by one or more
parent edges. Every signal on such a path is a key of the graph. -/
def HasDependencyCycle (g : graph) : Prop :=
  ∃ s, Relation.TransGen (Edge g) s s

/-! ## Input discoverer -/

/-- Function `findInputSignals`: the parents that are not keys of the graph. -/
def findInputSignals (g : graph) : List Int :=
  let children := g.foldl (fun acc pair => setInsert pair.1 acc) []
  g.foldl (fun inputSignals pair =>
    pair.2.2.foldl (fun acc parent =>
      if parent ∈ children then acc else setInsert parent acc) inputSignals) []

/-- Function `getNonInputSignals`: the keys of the graph, as a set. -/
def getNonInputSignals (g : graph) : List Int :=
  g.foldl (fun signals pair => setInsert pair.1 signals) []

/-! ## Binary counter -/

/-- Decrement of a `size_t` (64 bits), wrapping at zero. -/
def sizeDec (i : Nat) : Nat := (i + 2 ^ 64 - 1) % 2 ^ 64

/-- The loop of `toBinary`. A write outside the vector is `none`. The loop
halves a 64-bit `n`, so it runs at most 64 times; `fuel` counts the
iterations left. -/
def toBinaryLoop : Nat → Nat → Nat → List Bool → Option (List Bool)
  | 0, n, _, bitset => if n = 0 then some bitset else none
  | fuel + 1, n, i, bitset =>
    if n = 0 then some bitset
    else if i < bitset.length then
      toBinaryLoop fuel (n / 2) (sizeDec i) (bitset.set i (n % 2 != 0))
    else none

/-- Function `toBinary`. -/
def toBinary (n size : Nat) (bitset : List Bool) : Option (List Bool) :=
  toBinaryLoop 64 n (sizeDec size) bitset

/-! ## Evaluator -/

/-- Function `gateXOR`; `.at()` outside the vector is `none`. -/
def gateXOR (signals : List Bool) : Option Bool :=
  if signals.length = 1 then some false
  else
    match signals[0]?, signals[1]? with
    | some a, some b => if (a && !b) || (!a && b) then some true else some false
    | _, _ => none

/-- Function `gateAND`. -/
def gateAND : List Bool → Bool
  | [] => true
  | signal :: rest => if !signal then false else gateAND rest

/-- Function `gateOR`. -/
def gateOR : List Bool → Bool
  | [] => false
  | signal :: rest => if signal then true else gateOR rest

/-- Function `valuateSignalBasedOnParentsAndGate`. -/
def valuateSignalBasedOnParentsAndGate (parentSignals : List Bool) (gateType : Gate) :
    Option Bool :=
  match gateType with
  | Gate.NOT => (parentSignals[0]?).map (fun a => !a)
  | Gate.XOR => gateXOR parentSignals
  | Gate.AND => some (gateAND parentSignals)
  | Gate.NAND => some (!gateAND parentSignals)
  | Gate.OR => some (gateOR parentSignals)
  | Gate.NOR => some (!gateOR parentSignals)

/-- Valuation map, `unordered_map<int32_t, bool>`. -/
abbrev Valuation := List (Int × Bool)

/-- Insertion into the valuation map: an existing entry is kept. -/
def mapInsert (k : Int) (v : Bool) (valuation : Valuation) : Valuation :=
  if (valuation.lookup k).isSome then valuation else (k, v) :: valuation

/-- The loop of `dfsWithValuation` over the parents: the values are pushed in
iteration order. `eval` is the recursive call. -/
def valuateParents (eval : Int → Valuation → Option (Bool × Valuation)) :
    List Int → Valuation → Option (List Bool × Valuation)
  | [], valuation => some ([], valuation)
  | parentSignal :: rest, valuation =>
    match eval parentSignal valuation with
    | none => none
    | some (b, valuation1) =>
      match valuateParents eval rest valuation1 with
      | none => none
      | some (bs, valuation2) => some (b :: bs, valuation2)

/-- Function `dfsWithValuation`: memoised recursive evaluation of a signal.
`none` stands for the exception of `g.at()` or of `.at(0)`, and for fuel
running out. -/
def dfsWithValuation (g : graph) : Nat → Int → Valuation → Option (Bool × Valuation)
  | 0, _, _ => none
  | fuel + 1, currentSignal, valuation =>
    match valuation.lookup currentSignal with
    | some b => some (b, valuation)
    | none =>
      match g.lookup currentSignal with
      | none => none
      | some entry =>
        match valuateParents (dfsWithValuation g fuel) entry.2 valuation with
        | none => none
        | some (parentSignals, valuation1) =>
          match valuateSignalBasedOnParentsAndGate parentSignals entry.1 with
          | none => none
          | some currentSignalValuation =>
            some (currentSignalValuation,
              mapInsert currentSignal currentSignalValuation valuation1)

/-- Function `populateValuation`. -/
def populateValuation (g : graph) (fuel : Nat) :
    List Int → Valuation → Option Valuation
  | [], valuation => some valuation
  | signal :: rest, valuation =>
    match dfsWithValuation g fuel signal valuation with
    | none => none
    | some (_, valuation1) => populateValuation g fuel rest valuation1

/-! ## Driver -/

/-- Character written for a `bool`. -/
def boolChar (b : Bool) : Char := if b then '1' else '0'

/-- The printing loop of `printValuation` over the sorted keys. -/
def printKeys (valuation : Valuation) : List Int → Option (List Char)
  | [] => some []
  | k :: rest =>
    match valuation.lookup k with
    | none => none
    | some b =>
      match printKeys valuation rest with
      | none => none
      | some row => some (boolChar b :: row)

/-- Function `printValuation`: the characters of the line written, without the
line terminator. -/
def printValuation (valuation : Valuation) : Option (List Char) :=
  printKeys valuation ((valuation.map Prod.fst).insertionSort (fun a b => a ≤ b))

/-- The loop of `printTruthTable` that binds the sorted input signals to the
bits of the bitset. -/
def bindInputs : List Int → List Bool → Valuation → Valuation
  | k :: keys, b :: bits, valuation => bindInputs keys bits (mapInsert k b valuation)
  | _, _, valuation => valuation

/-- The row loop of `printTruthTable`: `count` rows are still to be written,
starting with counter value `i`; the bitset is carried from row to row. -/
def printRows (g : graph) (fuel : Nat) (keys : List Int) (n : Nat) :
    Nat → Nat → List Bool → Option (List (List Char))
  | 0, _, _ => some []
  | count + 1, i, bitset =>
    match toBinary i n bitset with
    | none => none
    | some bitset1 =>
      match populateValuation g fuel (getNonInputSignals g) (bindInputs keys bitset1 []) with
      | none => none
      | some valuation =>
        match printValuation valuation with
        | none => none
        | some row =>
          match printRows g fuel keys n count (i + 1) bitset1 with
          | none => none
          | some rows => some (row :: rows)

/-- Function `printTruthTable`: the lines written to standard output. The
bitset is a buffer of `n` cells set to `false`; the number of rows,
`(size_t)pow(2, n)`, is `2 ^ n` (exact for `n < 64`). -/
def printTruthTable (g : graph) (fuel : Nat) : Option (List (List Char)) :=
  let inputSignals := findInputSignals g
  let n := inputSignals.length
  let keys := inputSignals.insertionSort (fun a b => a ≤ b)
  printRows g fuel keys n (2 ^ n) 0 (List.replicate n false)

/-! ## Line parser and circuit builder -/

/-- Function `createGate`. -/
def createGate (gateName : List Char) : Gate :=
  if gateName = "NOT".toList then Gate.NOT
  else if gateName = "XOR".toList then Gate.XOR
  else if gateName = "AND".toList then Gate.AND
  else if gateName = "NAND".toList then Gate.NAND
  else if gateName = "OR".toList then Gate.OR
  else Gate.NOR

/-- Function `correctNumberOfSignals`. -/
def correctNumberOfSignals (gateName : Gate) (n : Nat) : Bool :=
  match gateName with
  | Gate.NOT => n == 1
  | Gate.XOR => n == 2
  | _ => decide (n ≥ 2)

/-- Function `correctGateName`: the whole name matches the alternation
`NOT|XOR|AND|NAND|OR|NOR`. -/
def correctGateName (gateName : List Char) : Bool :=
  gateName == "NOT".toList || gateName == "XOR".toList || gateName == "AND".toList ||
  gateName == "NAND".toList || gateName == "OR".toList || gateName == "NOR".toList

/-- Value accumulated by the stream extraction of a digit string, left to
right. -/
def digitsValue (sig : List Char) : Nat :=
  sig.foldl (fun acc c => 10 * acc + (c.toNat - '0'.toNat)) 0

/-- Extraction `stringstream(sig) >> curSig` of a digit string into an
`int32_t`: a value out of range is stored as the largest `int32_t`. -/
def readInt32 (sig : List Char) : Int :=
  if digitsValue sig > 2147483647 then 2147483647 else (digitsValue sig : Int)

/-- Function `correctSignal`: `some v` when it returns `true` with `v` stored in
`curSig`, `none` when it returns `false`. The test is the whole-string match
of `[0-9]+`. -/
def correctSignal (sig : List Char) : Option Int :=
  if sig ≠ [] ∧ sig.all Char.isDigit = true then
    let curSig := readInt32 sig
    if curSig ≥ 1 ∧ curSig ≤ 999999999 then some curSig else none
  else none

/-- Whitespace of the stream extraction (`isspace` in the C locale). -/
def isspace (c : Char) : Bool :=
  c == ' ' || c == '\t' || c == '\n' || c == '\x0b' || c == '\x0c' || c == '\r'

/-- Splitting of a line into the tokens read by `str >> token`; `cur` is the
token being read. -/
def tokensAux : List Char → List Char → List (List Char)
  | [], cur => if cur = [] then [] else [cur]
  | c :: cs, cur =>
    if isspace c then
      if cur = [] then tokensAux cs [] else cur :: tokensAux cs []
    else tokensAux cs (cur ++ [c])

/-- The tokens of a line: the successive results of `str >> token`. -/
def tokens (line : List Char) : List (List Char) := tokensAux line []

/-- The loop `while (str >> inSig)` of `parseInput`: the result is
`correctLine`, the set of parents and the count of signals read. -/
def readParents (curGate : Gate) : List (List Char) → List Int → Nat → Bool × List Int × Nat
  | [], parents, count => (true, parents, count)
  | inSig :: rest, parents, count =>
    match correctSignal inSig with
    | none => (false, parents, count)
    | some curInSig =>
      if (curGate = Gate.NOT ∧ count + 1 > 1) ∨ (curGate = Gate.XOR ∧ count + 1 > 2) then
        (true, setInsert curInSig parents, count + 1)
      else readParents curGate rest (setInsert curInSig parents) (count + 1)

/-- Diagnostic written to the error channel. -/
inductive Diagnostic where
  /-- Line `Error in line N: <line>`. -/
  | errorInLine (lineCount : Nat) (line : List Char)
  /-- Line `Error in line N: signal <id> is assigned to multiple outputs.`. -/
  | multipleOutputs (lineCount : Nat) (sig : Int)
  deriving DecidableEq, Repr

/-- State of the loop of `parseInput`. -/
structure ParseState where
  /-- The graph built so far. -/
  g : graph
  /-- Number of lines read. -/
  lineCount : Nat
  /-- Flag `correctInput`. -/
  correctInput : Bool
  /-- Diagnostics written so far. -/
  cerr : List Diagnostic
  deriving DecidableEq, Repr

/-- The state after a rejected line. -/
def rejectLine (st : ParseState) (d : Diagnostic) : ParseState :=
  { g := st.g, lineCount := st.lineCount + 1, correctInput := false, cerr := st.cerr ++ [d] }

/-- One iteration of the loop of `parseInput`, for one line. -/
def parseLine (st : ParseState) (line : List Char) : ParseState :=
  let lineCount := st.lineCount + 1
  let str := tokens line
  let gateName := str.headD []
  if !correctGateName gateName then
    rejectLine st (Diagnostic.errorInLine lineCount line)
  else
    let curGate := createGate gateName
    let outSig := str.tail.headD []
    match correctSignal outSig with
    | none => rejectLine st (Diagnostic.errorInLine lineCount line)
    | some curOutSig =>
      match readParents curGate str.tail.tail [] 0 with
      | (false, _, _) => rejectLine st (Diagnostic.errorInLine lineCount line)
      | (true, parents, count) =>
        if !correctNumberOfSignals curGate count then
          rejectLine st (Diagnostic.errorInLine lineCount line)
        else if graphContains st.g curOutSig then
          rejectLine st (Diagnostic.multipleOutputs lineCount curOutSig)
        else
          { g := st.g ++ [(curOutSig, (curGate, parents))], lineCount := lineCount,
            correctInput := st.correctInput, cerr := st.cerr }

/-- The lines read by `getline` from the input text; `cur` is the line being
read. -/
def getlinesAux : List Char → List Char → List (List Char)
  | [], cur => if cur = [] then [] else [cur]
  | c :: cs, cur => if c = '\n' then cur :: getlinesAux cs [] else getlinesAux cs (cur ++ [c])

/-- The successive results of `getline(cin, line)`. -/
def getlines (text : List Char) : List (List Char) := getlinesAux text []

/-- Function `parseInput`, with the diagnostics it writes. -/
def parseInput (text : List Char) : ParseState :=
  (getlines text).foldl parseLine { g := [], lineCount := 0, correctInput := true, cerr := [] }

/-! ## Program -/

/-- What a run of the program leaves behind: the termination status, the lines
written to standard output, the diagnostics of the parser and whether the
fixed message about sequential logic was written to the error channel. -/
structure MainResult where
  /-- Value returned by `main`. -/
  status : Nat
  /-- Lines written to standard output. -/
  stdout : List (List Char)
  /-- Diagnostics written by `parseInput`. -/
  cerr : List Diagnostic
  /-- The message `Error: sequential logic analysis has not yet been implemented.`
  was written. -/
  cycleError : Bool
  deriving DecidableEq, Repr

/-- Function `main`. `none` stands for fuel running out in the cycle check or
in the evaluation, and for a failing access there. -/
def main (text : List Char) (fuel : Nat) : Option MainResult :=
  let p := parseInput text
  if !p.correctInput then
    some { status := 1, stdout := [], cerr := p.cerr, cycleError := false }
  else
    match hasCycle p.g fuel with
    | none => none
    | some true => some { status := 1, stdout := [], cerr := p.cerr, cycleError := true }
    | some false =>
      match printTruthTable p.g fuel with
      | none => none
      | some rows => some { status := 0, stdout := rows, cerr := p.cerr, cycleError := false }

/-! ## Predicates used by the theorems -/

/-- The `size`-bit big-endian binary representation of `n`: position `q` holds
bit `size - 1 - q` of `n`. -/
def bigEndianBits (size n : Nat) : List Bool :=
  (List.range size).map (fun q => n.testBit (size - 1 - q))

/-- The number a string of decimal digits denotes: digit `i` from the right
weighs `10 ^ i`. -/
def decimalValue (t : List Char) : Nat :=
  Nat.ofDigits 10 ((t.map (fun c => c.toNat - '0'.toNat)).reverse)

/-- Invariant of the set of visited nodes: no visited node lies on a cycle, and
every parent of a visited node that is a key of the graph is visited too. -/
def Safe (g : graph) (V : List Int) : Prop :=
  ∀ v ∈ V, ¬ Relation.TransGen (Edge g) v v ∧
    ∀ p, Edge g v p → graphContains g p = true → p ∈ V

/-- Number of keys of the graph outside the active set: the depth still
available to the search. -/
def slack (g : graph) (A : List Int) : Nat :=
  ((graphKeys g).filter (fun k => decide (k ∉ A))).length

/-- What a call of the search guarantees about its result, for the targets it
was asked to process. -/
def DfsPost (g : graph) (A V : List Int) (targets : List Int)
    (r : Bool × List Int × List Int) : Prop :=
  (r.1 = true → HasDependencyCycle g) ∧
  (r.1 = false → r.2.1 = A ∧ Safe g r.2.2 ∧ V ⊆ r.2.2 ∧
    ∀ p ∈ targets, graphContains g p = true → p ∈ r.2.2)

/-- The graph has no dependency cycle. -/
def Acyclic (g : graph) : Prop := ¬ HasDependencyCycle g

/-- The gate functions as the specification words them: NOT is the negation of
its single input, XOR is true iff the inputs differ, AND is true iff all inputs
are true, NAND is the negation of AND, OR is true iff at least one input is
true, NOR is the negation of OR. -/
def gateReference : Gate → List Bool → Bool
  | Gate.NOT, [a] => !a
  | Gate.NOT, _ => false
  | Gate.XOR, vals => vals.any (fun a => vals.any (fun b => a != b))
  | Gate.AND, vals => vals.all (fun a => a)
  | Gate.NAND, vals => !vals.all (fun a => a)
  | Gate.OR, vals => vals.any (fun a => a)
  | Gate.NOR, vals => !vals.any (fun a => a)

/-- The values a valuation gives to a list of signals, when all are bound. -/
def lookupAll (valuation : Valuation) : List Int → Option (List Bool)
  | [] => some []
  | p :: ps =>
    match valuation.lookup p, lookupAll valuation ps with
    | some b, some bs => some (b :: bs)
    | _, _ => none

/-- Number of inputs the stored input set of a gate may have: one for NOT, one
or two for XOR (one when both declared inputs are the same id), one or more
for the other kinds. -/
def arityOK : Gate → Nat → Prop
  | Gate.NOT, n => n = 1
  | Gate.XOR, n => n = 1 ∨ n = 2
  | _, n => 1 ≤ n

/-- Every gate of the graph has an input set of an admissible size. -/
def Arity (g : graph) : Prop :=
  ∀ s entry, g.lookup s = some entry → arityOK entry.1 entry.2.length

/-- The gate equation holds at `s`: all inputs of the gate of `s` are bound and
the value of `s` is the gate function of their values. -/
def Solved (g : graph) (valuation : Valuation) (s : Int) : Prop :=
  ∀ entry, g.lookup s = some entry →
    ∃ vals, lookupAll valuation entry.2 = some vals ∧
      valuation.lookup s = some (gateReference entry.1 vals)

/-- Invariant of the memo: the gate equation holds at every bound signal. -/
def MemoInv (g : graph) (valuation : Valuation) : Prop :=
  ∀ s, (valuation.lookup s).isSome = true → Solved g valuation s

/-- The second valuation extends the first: bound signals keep their value. -/
def Extends (v1 v2 : Valuation) : Prop :=
  ∀ s b, v1.lookup s = some b → v2.lookup s = some b

/-- Every input of every gate is a key of the graph or bound by the valuation. -/
def InputsBound (g : graph) (valuation : Valuation) : Prop :=
  ∀ s entry p, g.lookup s = some entry → p ∈ entry.2 →
    graphContains g p = true ∨ (valuation.lookup p).isSome = true

/-- A total valuation `w` solves the gate equations of the graph. -/
def IsSolution (g : graph) (w : Int → Bool) : Prop :=
  ∀ s entry, g.lookup s = some entry → w s = gateReference entry.1 (entry.2.map w)

/-- The valuation agrees with the total valuation `w` where it is bound. -/
def Agrees (w : Int → Bool) (valuation : Valuation) : Prop :=
  ∀ s b, valuation.lookup s = some b → w s = b

/-- What a call of the evaluator guarantees about the valuation it returns,
for the signals `targets` it was asked to evaluate. -/
def EvalPost (g : graph) (v1 v2 : Valuation) (targets : List Int) : Prop :=
  Extends v1 v2 ∧ MemoInv g v2 ∧
  (∀ x, (v2.lookup x).isSome = true →
    (v1.lookup x).isSome = true ∨ ∃ t ∈ targets, Relation.ReflTransGen (Edge g) t x) ∧
  (∀ w, IsSolution g w → Agrees w v1 → Agrees w v2)

/-- Every entry of the graph has an input set of an admissible size. -/
def EntryArity (g : graph) : Prop :=
  ∀ e ∈ g, arityOK e.2.1 e.2.2.length

/-- One row of the table for the given bits of the primary inputs: evaluation
of all gates, then printing. -/
def evalRow (g : graph) (fuel : Nat) (keys : List Int) (bits : List Bool) :
    Option (List Char) :=
  match populateValuation g fuel (getNonInputSignals g) (bindInputs keys bits []) with
  | none => none
  | some valuation => printValuation valuation

/-- The rows for the counter values `i, i + 1, ..., i + count - 1`, each from the
big-endian representation of its own counter value (no buffer carried over). -/
def rowsSpec (g : graph) (fuel : Nat) (keys : List Int) (n : Nat) :
    Nat → Nat → Option (List (List Char))
  | 0, _ => some []
  | count + 1, i =>
    match evalRow g fuel keys (bigEndianBits n i) with
    | none => none
    | some row =>
      match rowsSpec g fuel keys n count (i + 1) with
      | none => none
      | some rows => some (row :: rows)

/-- The primary inputs in ascending order, the vector `keys` of
`printTruthTable`. -/
def sortedInputs (g : graph) : List Int :=
  (findInputSignals g).insertionSort (fun a b => a ≤ b)

/-- The assignment that binds the sorted primary inputs to the given bits, as
the loop of `printTruthTable` builds it. -/
def bitsAssignment (g : graph) (bits : List Bool) : Valuation :=
  bindInputs (sortedInputs g) bits []

/-- The valuation after all gates are evaluated under the assignment of the
given bits (empty when the evaluation fails). -/
def bitsValuation (g : graph) (fuel : Nat) (bits : List Bool) : Valuation :=
  (populateValuation g fuel (getNonInputSignals g) (bitsAssignment g bits)).getD []

/-- The assignment of counter value `i`: the sorted primary inputs bound to the
big-endian bits of `i`. -/
def rowAssignment (g : graph) (i : Nat) : Valuation :=
  bitsAssignment g (bigEndianBits (findInputSignals g).length i)

/-- The valuation of counter value `i` after all gates are evaluated. -/
def rowValuation (g : graph) (fuel : Nat) (i : Nat) : Valuation :=
  bitsValuation g fuel (bigEndianBits (findInputSignals g).length i)

/-- The signals of the circuit, primary inputs and gate outputs, in ascending
order. -/
def rowSignals (g : graph) : List Int :=
  (findInputSignals g ++ graphKeys g).insertionSort (fun a b => a ≤ b)

/-- The value a valuation gives to a signal (`false` when unbound). -/
def valueOf (valuation : Valuation) (s : Int) : Bool :=
  (valuation.lookup s).getD false

/-- The keys of a valuation are pairwise distinct. -/
def NodupKeys (valuation : Valuation) : Prop := (valuation.map Prod.fst).Nodup

/-- The bitset the row loop of `printTruthTable` holds at counter value `i`:
`toBinary` is run for `0, 1, ..., i` in turn on one buffer that starts all
`false`. -/
def rowBitset (n : Nat) : Nat → Option (List Bool)
  | 0 => toBinary 0 n (List.replicate n false)
  | i + 1 =>
    match rowBitset n i with
    | none => none
    | some bitset => toBinary (i + 1) n bitset

/-- The arity rule of a gate kind for the number of input tokens of a line:
exactly 1 for NOT, exactly 2 for XOR, at least 2 for the other kinds. -/
def arityRule : Gate → Nat → Prop
  | Gate.NOT, n => n = 1
  | Gate.XOR, n => n = 2
  | _, n => 2 ≤ n

/-- The line number a diagnostic carries. -/
def diagnosticLine : Diagnostic → Nat
  | Diagnostic.errorInLine lineCount _ => lineCount
  | Diagnostic.multipleOutputs lineCount _ => lineCount

/-- A line is accepted from a state when it adds its gate to the graph, and
rejected when it leaves the graph as it is. -/
def lineAccepted (st : ParseState) (line : List Char) : Bool :=
  decide ((parseLine st line).g.length = st.g.length + 1)

/-- The indices of the rejected lines, in the order of the input; `idx` is the
index of the first line of the list and `st` the state in which it is read. -/
def rejectedIndices : Nat → ParseState → List (List Char) → List Nat
  | _, _, [] => []
  | idx, st, line :: rest =>
    if lineAccepted st line then rejectedIndices (idx + 1) (parseLine st line) rest
    else idx :: rejectedIndices (idx + 1) (parseLine st line) rest

/-- The state in which `parseInput` starts. -/
def initialState : ParseState :=
  { g := [], lineCount := 0, correctInput := true, cerr := [] }

/-- The output ids of the accepted lines, in the order of the input; `st` is
the state in which the first line of the list is read. -/
def acceptedOutputs : ParseState → List (List Char) → List Int
  | _, [] => []
  | st, line :: rest =>
    (if lineAccepted st line then (correctSignal ((tokens line).tail.headD [])).toList else []) ++
      acceptedOutputs (parseLine st line) rest

/-- The identifier lies in the range of signal identifiers. -/
def InRange (x : Int) : Prop := 1 ≤ x ∧ x ≤ 999999999

/-- Number of keys of the graph outside the active set and the visited set. -/
def slack2 (g : graph) (A V : List Int) : Nat :=
  ((graphKeys g).filter (fun k => decide (k ∉ A ∧ k ∉ V))).length

/-- Outcome of a call of the evaluator, with the two ways of not returning a
result kept apart: a failing access (the exception of `.at()`), and the
recursion going deeper than the fuel. -/
inductive Outcome (α : Type) where
  /-- The call returns a result. -/
  | done (a : α)
  /-- The call raises the exception of a failing access. -/
  | throws
  /-- The recursion is deeper than the fuel. -/
  | outOfFuel
  deriving DecidableEq, Repr

/-- The result of an outcome, when there is one. -/
def outcomeResult {α : Type} : Outcome α → Option α
  | Outcome.done a => some a
  | Outcome.throws => none
  | Outcome.outOfFuel => none

/-- The loop of `dfsWithValuation` over the parents, with the outcome of each
recursive call. -/
def valuateParentsT (eval : Int → Valuation → Outcome (Bool × Valuation)) :
    List Int → Valuation → Outcome (List Bool × Valuation)
  | [], valuation => Outcome.done ([], valuation)
  | parentSignal :: rest, valuation =>
    match eval parentSignal valuation with
    | Outcome.throws => Outcome.throws
    | Outcome.outOfFuel => Outcome.outOfFuel
    | Outcome.done (b, valuation1) =>
      match valuateParentsT eval rest valuation1 with
      | Outcome.throws => Outcome.throws
      | Outcome.outOfFuel => Outcome.outOfFuel
      | Outcome.done (bs, valuation2) => Outcome.done (b :: bs, valuation2)

/-- Function `dfsWithValuation` with its outcome: the same computation as
`dfsWithValuation`, telling a failing access (`g.at()` on a signal that is not
a key, `.at()` outside the vector of values) from fuel running out. -/
def dfsWithValuationT (g : graph) : Nat → Int → Valuation → Outcome (Bool × Valuation)
  | 0, _, _ => Outcome.outOfFuel
  | fuel + 1, currentSignal, valuation =>
    match valuation.lookup currentSignal with
    | some b => Outcome.done (b, valuation)
    | none =>
      match g.lookup currentSignal with
      | none => Outcome.throws
      | some entry =>
        match valuateParentsT (dfsWithValuationT g fuel) entry.2 valuation with
        | Outcome.throws => Outcome.throws
        | Outcome.outOfFuel => Outcome.outOfFuel
        | Outcome.done (parentSignals, valuation1) =>
          match valuateSignalBasedOnParentsAndGate parentSignals entry.1 with
          | none => Outcome.throws
          | some currentSignalValuation =>
            Outcome.done (currentSignalValuation,
              mapInsert currentSignal currentSignalValuation valuation1)

/-! ## Theorems -/

/-! ### Cycle detector -/

theorem graphContains_iff_mem_keys (g : graph) (s : Int) :
    graphContains g s = true ↔ s ∈ graphKeys g := by
  induction g with
  | nil => simp [graphContains, graphKeys, List.lookup]
  | cons e rest ih =>
    obtain ⟨k, x⟩ := e
    by_cases hk : s = k
    · subst hk
      simp [graphContains, graphKeys, List.lookup]
    · have hb : (s == k) = false := by simpa using hk
      simp only [graphContains, graphKeys, List.lookup, hb, List.map_cons, List.mem_cons] at ih ⊢
      simp [hk, ih]

theorem edge_isKey {g : graph} {s p : Int} (h : Edge g s p) : graphContains g s = true := by
  obtain ⟨e, he, _⟩ := h
  simp [graphContains, he]

theorem transGen_isKey {g : graph} {s t : Int} (h : Relation.TransGen (Edge g) s t) :
    graphContains g s = true := by
  induction h with
  | single h => exact edge_isKey h
  | tail _ _ ih => exact ih

theorem safe_reach {g : graph} {V : List Int} (hV : Safe g V) {v w : Int} (hv : v ∈ V)
    (h : Relation.ReflTransGen (Edge g) v w) : graphContains g w = true → w ∈ V := by
  induction h with
  | refl => exact fun _ => hv
  | tail _ hbc ih =>
    intro hw
    exact (hV _ (ih (edge_isKey hbc))).2 _ hbc hw

theorem filter_length_lt {l : List Int} {p q : Int → Bool} {x : Int} (hx : x ∈ l)
    (hpx : p x = true) (hqx : q x = false) (hqp : ∀ y, q y = true → p y = true) :
    (l.filter q).length < (l.filter p).length := by
  have hle : ∀ l : List Int, (l.filter q).length ≤ (l.filter p).length := by
    intro l
    induction l with
    | nil => simp
    | cons a t ih =>
      by_cases hq : q a = true
      · simp [List.filter_cons, hq, hqp a hq, ih]
      · by_cases hp : p a = true
        · simp [List.filter_cons, hq, hp]; omega
        · simp [List.filter_cons, hq, hp, ih]
  induction l with
  | nil => cases hx
  | cons a t ih =>
    rcases List.mem_cons.mp hx with h | h
    · subst h
      have := hle t
      simp [List.filter_cons, hpx, hqx]; omega
    · have := ih h
      by_cases hq : q a = true
      · simp [List.filter_cons, hq, hqp a hq]; omega
      · by_cases hp : p a = true
        · simp [List.filter_cons, hq, hp]; omega
        · simp [List.filter_cons, hq, hp]; omega

theorem slack_insert_lt {g : graph} {A : List Int} {cur : Int}
    (hk : graphContains g cur = true) (hA : cur ∉ A) :
    slack g (setInsert cur A) < slack g A := by
  unfold slack
  apply filter_length_lt ((graphContains_iff_mem_keys g cur).mp hk)
  · simpa using hA
  · simp [setInsert, hA]
  · intro y hy
    simp only [setInsert, hA, if_false, decide_eq_true_eq, List.mem_cons, not_or] at hy ⊢
    exact hy.2

theorem mem_setInsert {x c : Int} {s : List Int} : x ∈ setInsert c s ↔ x = c ∨ x ∈ s := by
  unfold setInsert
  split
  · constructor
    · exact Or.inr
    · rintro (rfl | h)
      · assumption
      · exact h
  · exact List.mem_cons

theorem setErase_insert {A : List Int} {cur : Int} (hA : cur ∉ A) :
    setErase cur (setInsert cur A) = A := by
  simp only [setErase, setInsert, hA, if_false]
  rw [List.filter_cons]
  simp only [bne_self_eq_false, Bool.false_eq_true, if_false]
  rw [List.filter_eq_self]
  intro a ha
  simp only [bne_iff_ne, ne_eq]
  rintro rfl
  exact hA ha

theorem dfsParentsLoop_spec (g : graph)
    (visit : Int → List Int → List Int → Option (Bool × List Int × List Int)) (A : List Int)
    (hvisit : ∀ p V, (∀ a ∈ A, Relation.TransGen (Edge g) a p) → Safe g V →
      ∃ r, visit p A V = some r ∧ DfsPost g A V [p] r) :
    ∀ ps V, (∀ p ∈ ps, ∀ a ∈ A, Relation.TransGen (Edge g) a p) → Safe g V →
      ∃ r, dfsParentsLoop visit ps A V = some r ∧ DfsPost g A V ps r := by
  intro ps
  induction ps with
  | nil =>
    intro V _ hV
    exact ⟨_, rfl, by simp [DfsPost, hV]⟩
  | cons p rest ih =>
    intro V hreach hV
    have hrest : ∀ q ∈ rest, ∀ a ∈ A, Relation.TransGen (Edge g) a q :=
      fun q hq => hreach q (List.mem_cons_of_mem _ hq)
    by_cases hp : p ∈ V
    · obtain ⟨r, hr, hpost⟩ := ih V hrest hV
      refine ⟨r, by simp [dfsParentsLoop, hp, hr], hpost.1, ?_⟩
      intro hf
      obtain ⟨h1, h2, h3, h4⟩ := hpost.2 hf
      refine ⟨h1, h2, h3, ?_⟩
      intro q hq hkey
      rcases List.mem_cons.mp hq with rfl | hq
      · exact h3 hp
      · exact h4 q hq hkey
    · obtain ⟨⟨b, A1, V1⟩, hr1, hpost1⟩ := hvisit p V (hreach p (List.mem_cons_self _ _)) hV
      cases b with
      | true =>
        refine ⟨(true, A1, V1), by simp [dfsParentsLoop, hp, hr1], fun _ => hpost1.1 rfl, ?_⟩
        intro hf
        cases hf
      | false =>
        obtain ⟨h1, h2, h3, h4⟩ := hpost1.2 rfl
        simp only at h1 h2 h3 h4
        subst h1
        obtain ⟨r, hr, hpost⟩ := ih V1 hrest h2
        refine ⟨r, by simp [dfsParentsLoop, hp, hr1, hr], hpost.1, ?_⟩
        intro hf
        obtain ⟨k1, k2, k3, k4⟩ := hpost.2 hf
        refine ⟨k1, k2, fun x hx => k3 (h3 hx), ?_⟩
        intro q hq hkey
        rcases List.mem_cons.mp hq with rfl | hq
        · exact k3 (h4 q (List.mem_singleton_self _) hkey)
        · exact k4 q hq hkey

theorem safe_insert {g : graph} {V : List Int} {cur : Int} (hV : Safe g V)
    (hpar : ∀ p, Edge g cur p → graphContains g p = true → p ∈ V) :
    Safe g (setInsert cur V) := by
  unfold setInsert
  by_cases hc : cur ∈ V
  · simpa [hc] using hV
  · simp only [hc, if_false]
    intro v hv
    rcases List.mem_cons.mp hv with rfl | hv
    · refine ⟨?_, fun p hp hk => List.mem_cons_of_mem _ (hpar p hp hk)⟩
      intro hcyc
      obtain ⟨p, hvp, hpv⟩ := Relation.TransGen.head'_iff.mp hcyc
      have hpk : graphContains g p = true := by
        rcases Relation.reflTransGen_iff_eq_or_transGen.mp hpv with h | h
        · rw [← h]; exact transGen_isKey hcyc
        · exact transGen_isKey h
      exact hc (safe_reach hV (hpar p hvp hpk) hpv (transGen_isKey hcyc))
    · exact ⟨(hV v hv).1, fun p hp hk => List.mem_cons_of_mem _ ((hV v hv).2 p hp hk)⟩

theorem dfsWithActiveNodes_spec (g : graph) :
    ∀ fuel cur A V, slack g A < fuel → (∀ a ∈ A, Relation.TransGen (Edge g) a cur) →
      Safe g V → ∃ r, dfsWithActiveNodes g fuel cur A V = some r ∧ DfsPost g A V [cur] r := by
  intro fuel
  induction fuel with
  | zero => intro _ _ _ h; omega
  | succ fuel ih =>
    intro cur A V hfuel hreach hV
    unfold dfsWithActiveNodes
    cases hl : g.lookup cur with
    | none =>
      refine ⟨_, rfl, by simp, ?_⟩
      intro _
      refine ⟨rfl, hV, fun x hx => hx, ?_⟩
      intro p hp hk
      rw [List.mem_singleton.mp hp] at hk
      simp [graphContains, hl] at hk
    | some entry =>
      have hkey : graphContains g cur = true := by simp [graphContains, hl]
      by_cases hact : cur ∈ A
      · refine ⟨(true, A, V), by simp [hact], fun _ => ⟨cur, hreach cur hact⟩, ?_⟩
        intro hf
        cases hf
      · simp only [hact, if_false]
        have hlt := slack_insert_lt hkey hact
        have hreach1 : ∀ p ∈ entry.2, ∀ a ∈ setInsert cur A, Relation.TransGen (Edge g) a p := by
          intro p hp a ha
          have hedge : Edge g cur p := ⟨entry, hl, hp⟩
          simp only [setInsert, hact, if_false, List.mem_cons] at ha
          rcases ha with rfl | ha
          · exact Relation.TransGen.single hedge
          · exact Relation.TransGen.tail (hreach a ha) hedge
        obtain ⟨⟨b, A1, V1⟩, hr, hpost⟩ := dfsParentsLoop_spec g (dfsWithActiveNodes g fuel)
          (setInsert cur A)
          (fun p V2 h1 h2 => ih p (setInsert cur A) V2 (by omega) h1 h2) entry.2 V hreach1 hV
        cases b with
        | true =>
          refine ⟨(true, A1, V1), by simp [hr], fun _ => hpost.1 rfl, ?_⟩
          intro hf
          cases hf
        | false =>
          obtain ⟨h1, h2, h3, h4⟩ := hpost.2 rfl
          simp only at h1 h2 h3 h4
          subst h1
          refine ⟨(false, setErase cur (setInsert cur A), setInsert cur V1), by simp [hr],
            by simp, ?_⟩
          intro _
          have hsub : V1 ⊆ setInsert cur V1 := fun x hx => mem_setInsert.mpr (Or.inr hx)
          refine ⟨setErase_insert hact, ?_, fun x hx => hsub (h3 hx), ?_⟩
          · apply safe_insert h2
            intro p hp hk
            obtain ⟨e, he, hpe⟩ := hp
            rw [hl] at he
            cases he
            exact h4 p hpe hk
          · intro p hp _
            exact mem_setInsert.mpr (Or.inl (List.mem_singleton.mp hp))

theorem hasCycleLoop_spec (g : graph) (fuel : Nat) (hfuel : g.length < fuel) :
    ∀ nodes, (∀ n ∈ nodes, n ∈ g) → ∀ V, Safe g V →
      ∃ b, hasCycleLoop g fuel nodes [] V = some b ∧
        (b = true → HasDependencyCycle g) ∧
        (b = false → ∃ V1, Safe g V1 ∧ V ⊆ V1 ∧ ∀ n ∈ nodes, n.1 ∈ V1) := by
  have hslack : slack g [] < fuel := by simpa [slack, graphKeys] using hfuel
  intro nodes
  induction nodes with
  | nil =>
    intro _ V hV
    exact ⟨false, rfl, by simp, fun _ => ⟨V, hV, fun x hx => hx, by simp⟩⟩
  | cons n rest ih =>
    intro hmem V hV
    have hn : n ∈ g := hmem n (List.mem_cons_self _ _)
    obtain ⟨⟨b, A1, V1⟩, hr, hpost⟩ := dfsWithActiveNodes_spec g fuel n.1 [] V hslack
      (by simp) hV
    cases b with
    | true => exact ⟨true, by simp [hasCycleLoop, hr], fun _ => hpost.1 rfl, by simp⟩
    | false =>
      obtain ⟨h1, h2, h3, h4⟩ := hpost.2 rfl
      simp only at h1 h2 h3 h4
      subst h1
      obtain ⟨b, hb, hpost2⟩ := ih (fun m hm => hmem m (List.mem_cons_of_mem _ hm)) V1 h2
      refine ⟨b, by simp [hasCycleLoop, hr, hb], hpost2.1, ?_⟩
      intro hf
      obtain ⟨V2, hs, hsub, hall⟩ := hpost2.2 hf
      refine ⟨V2, hs, fun x hx => hsub (h3 hx), ?_⟩
      intro m hm
      rcases List.mem_cons.mp hm with rfl | hm
      · exact hsub (h4 _ (List.mem_singleton_self _)
          ((graphContains_iff_mem_keys g _).mpr (List.mem_map_of_mem _ hn)))
      · exact hall m hm


/-- C1. With fuel above the number of gates, `hasCycle` returns a result, and
the result is `true` exactly when the graph has a dependency cycle: some
signal reaches itself through one or more parent edges. In particular a gate
listing its own output among its inputs makes `hasCycle` return `true`. -/
theorem hasCycle_iff_dependency_cycle (g : graph) (fuel : Nat) (hfuel : g.length < fuel) :
    (hasCycle g fuel = some true ↔ HasDependencyCycle g) ∧
    (hasCycle g fuel = some false ↔ ¬ HasDependencyCycle g) ∧
    (∀ s entry, g.lookup s = some entry → s ∈ entry.2 → hasCycle g fuel = some true) := by
  obtain ⟨b, hb, htrue, hfalse⟩ := hasCycleLoop_spec g fuel hfuel g (fun _ h => h) []
    (fun v hv => by cases hv)
  have hno : b = false → ¬ HasDependencyCycle g := by
    intro hf
    obtain ⟨V, hs, _, hall⟩ := hfalse hf
    rintro ⟨s, hcyc⟩
    have hk := (graphContains_iff_mem_keys g s).mp (transGen_isKey hcyc)
    obtain ⟨n, hn, rfl⟩ := List.mem_map.mp hk
    exact (hs _ (hall n hn)).1 hcyc
  have h1 : hasCycle g fuel = some true ↔ HasDependencyCycle g := by
    unfold hasCycle
    rw [hb]
    cases b with
    | true => simpa using htrue rfl
    | false => simpa using hno rfl
  have h2 : hasCycle g fuel = some false ↔ ¬ HasDependencyCycle g := by
    unfold hasCycle
    rw [hb]
    cases b with
    | true => simpa using htrue rfl
    | false => simpa using hno rfl
  refine ⟨h1, h2, ?_⟩
  intro s entry hl hs
  exact h1.mpr ⟨s, Relation.TransGen.single ⟨entry, hl, hs⟩⟩

/-- Witness for C1: a feedback loop through three gates, with fuel 4. -/
theorem hasCycle_iff_dependency_cycle_witness :
    [((3 : Int), (Gate.AND, [(1 : Int), 4])), (4, (Gate.NOT, [5])),
        (5, (Gate.NOT, [3]))].length < 4 ∧
    hasCycle [(3, (Gate.AND, [1, 4])), (4, (Gate.NOT, [5])), (5, (Gate.NOT, [3]))] 4 =
      some true ∧
    HasDependencyCycle [(3, (Gate.AND, [1, 4])), (4, (Gate.NOT, [5])), (5, (Gate.NOT, [3]))] :=
  ⟨by decide, by decide,
    (hasCycle_iff_dependency_cycle
      [(3, (Gate.AND, [1, 4])), (4, (Gate.NOT, [5])), (5, (Gate.NOT, [3]))] 4
      (by decide)).1.mp (by decide)⟩

/-! ### Input discoverer -/

theorem mem_foldl_setInsert_fst (x : Int) (l : graph) :
    ∀ acc : List Int, x ∈ l.foldl (fun acc pair => setInsert pair.1 acc) acc ↔
      x ∈ acc ∨ x ∈ graphKeys l := by
  induction l with
  | nil => intro acc; simp [graphKeys]
  | cons e rest ih =>
    intro acc
    rw [List.foldl_cons, ih, mem_setInsert]
    simp only [graphKeys, List.map_cons, List.mem_cons]
    tauto

theorem mem_foldl_parents (x : Int) (C : List Int) (ps : List Int) :
    ∀ acc : List Int,
      x ∈ ps.foldl (fun acc parent => if parent ∈ C then acc else setInsert parent acc) acc ↔
        x ∈ acc ∨ (x ∈ ps ∧ x ∉ C) := by
  induction ps with
  | nil => intro acc; simp
  | cons p rest ih =>
    intro acc
    rw [List.foldl_cons, ih]
    by_cases hp : p ∈ C
    · simp only [hp, if_true, List.mem_cons]
      constructor
      · rintro (h | ⟨h1, h2⟩)
        · exact Or.inl h
        · exact Or.inr ⟨Or.inr h1, h2⟩
      · rintro (h | ⟨h1 | h1, h2⟩)
        · exact Or.inl h
        · subst h1; exact absurd hp h2
        · exact Or.inr ⟨h1, h2⟩
    · simp only [hp, if_false, List.mem_cons, mem_setInsert]
      constructor
      · rintro ((h | h) | ⟨h1, h2⟩)
        · subst h; exact Or.inr ⟨Or.inl rfl, hp⟩
        · exact Or.inl h
        · exact Or.inr ⟨Or.inr h1, h2⟩
      · rintro (h | ⟨h1 | h1, h2⟩)
        · exact Or.inl (Or.inr h)
        · exact Or.inl (Or.inl h1)
        · exact Or.inr ⟨h1, h2⟩

theorem mem_foldl_inputs (x : Int) (C : List Int) (l : graph) :
    ∀ acc : List Int,
      x ∈ l.foldl (fun inputSignals pair =>
        pair.2.2.foldl (fun acc parent =>
          if parent ∈ C then acc else setInsert parent acc) inputSignals) acc ↔
        x ∈ acc ∨ ((∃ e ∈ l, x ∈ e.2.2) ∧ x ∉ C) := by
  induction l with
  | nil => intro acc; simp
  | cons e rest ih =>
    intro acc
    rw [List.foldl_cons, ih, mem_foldl_parents]
    simp only [List.mem_cons, exists_eq_or_imp]
    tauto

theorem nodup_setInsert {x : Int} {s : List Int} (h : s.Nodup) : (setInsert x s).Nodup := by
  unfold setInsert
  split
  · exact h
  · exact List.nodup_cons.mpr ⟨by assumption, h⟩

theorem nodup_foldl_parents (C : List Int) (ps : List Int) :
    ∀ acc : List Int, acc.Nodup →
      (ps.foldl (fun acc parent => if parent ∈ C then acc else setInsert parent acc) acc).Nodup := by
  induction ps with
  | nil => intro acc h; exact h
  | cons p rest ih =>
    intro acc h
    rw [List.foldl_cons]
    apply ih
    split
    · exact h
    · exact nodup_setInsert h

theorem nodup_foldl_inputs (C : List Int) (l : graph) :
    ∀ acc : List Int, acc.Nodup →
      (l.foldl (fun inputSignals pair =>
        pair.2.2.foldl (fun acc parent =>
          if parent ∈ C then acc else setInsert parent acc) inputSignals) acc).Nodup := by
  induction l with
  | nil => intro acc h; exact h
  | cons e rest ih =>
    intro acc h
    rw [List.foldl_cons]
    exact ih _ (nodup_foldl_parents C e.2.2 acc h)

theorem mem_findInputSignals (g : graph) (x : Int) :
    x ∈ findInputSignals g ↔ (∃ e ∈ g, x ∈ e.2.2) ∧ x ∉ graphKeys g := by
  unfold findInputSignals
  simp only
  rw [mem_foldl_inputs, mem_foldl_setInsert_fst]
  simp

theorem nodup_findInputSignals (g : graph) : (findInputSignals g).Nodup :=
  nodup_foldl_inputs _ g [] List.nodup_nil

/-- C8. `findInputSignals g` is the set difference of the union of the input
sets of all gates and the keys of the graph: an id is returned iff it occurs as
an input of some gate and is the output of no gate. The result is a set (it has
no repeated element). -/
theorem findInputSignals_eq_inputs_diff_keys (g : graph) :
    (∀ x, x ∈ findInputSignals g ↔ (∃ e ∈ g, x ∈ e.2.2) ∧ x ∉ graphKeys g) ∧
    (findInputSignals g).Nodup :=
  ⟨mem_findInputSignals g, nodup_findInputSignals g⟩

/-! ### Line parser: gate name and signal tokens -/

theorem correctGateName_iff (t : List Char) :
    correctGateName t = true ↔
      t ∈ ["NOT".toList, "XOR".toList, "AND".toList, "NAND".toList, "OR".toList,
        "NOR".toList] := by
  simp [correctGateName, or_assoc]

theorem parseLine_bad_name (st : ParseState) (line : List Char)
    (h : correctGateName ((tokens line).headD []) = false) :
    parseLine st line = rejectLine st (Diagnostic.errorInLine (st.lineCount + 1) line) := by
  simp only [parseLine, h, Bool.not_false, if_true]

/-- C9. The parser accepts the first token of a line iff it is exactly one of
`NOT`, `XOR`, `AND`, `NAND`, `OR`, `NOR`; `createGate` maps each of the six
names to the gate kind of the same name; a line whose first token is anything
else, the empty line included, is rejected with the line diagnostic and leaves
the graph unchanged. -/
theorem gate_name_accepted_iff_six_names :
    (∀ t, correctGateName t = true ↔
      t ∈ ["NOT".toList, "XOR".toList, "AND".toList, "NAND".toList, "OR".toList,
        "NOR".toList]) ∧
    (createGate "NOT".toList = Gate.NOT ∧ createGate "XOR".toList = Gate.XOR ∧
      createGate "AND".toList = Gate.AND ∧ createGate "NAND".toList = Gate.NAND ∧
      createGate "OR".toList = Gate.OR ∧ createGate "NOR".toList = Gate.NOR) ∧
    (∀ st line,
      (tokens line).headD [] ∉ ["NOT".toList, "XOR".toList, "AND".toList, "NAND".toList,
        "OR".toList, "NOR".toList] →
      parseLine st line = rejectLine st (Diagnostic.errorInLine (st.lineCount + 1) line)) ∧
    (∀ st, parseLine st [] = rejectLine st (Diagnostic.errorInLine (st.lineCount + 1) [])) ∧
    correctGateName "not".toList = false ∧ correctGateName "NOTX".toList = false := by
  refine ⟨correctGateName_iff, by decide, ?_, ?_, by decide, by decide⟩
  · intro st line h
    apply parseLine_bad_name
    rw [← correctGateName_iff] at h
    simpa using h
  · intro st
    exact parseLine_bad_name st [] (by decide)

theorem digitsValue_eq_decimalValue (t : List Char) : digitsValue t = decimalValue t := by
  unfold digitsValue decimalValue
  induction t using List.reverseRecOn with
  | nil => simp
  | append_singleton l c ih =>
    rw [List.foldl_append, List.map_append, List.reverse_append]
    simp only [List.foldl_cons, List.foldl_nil, List.map_cons, List.map_nil,
      List.reverse_cons, List.reverse_nil, List.nil_append, List.singleton_append,
      Nat.ofDigits_cons]
    rw [ih]
    push_cast
    ring

theorem isDigit_iff (c : Char) : c.isDigit = true ↔ c ∈ "0123456789".toList := by
  constructor
  · intro h
    have h1 : 48 ≤ c.toNat ∧ c.toNat ≤ 57 := by
      simp only [Char.isDigit, Bool.and_eq_true, decide_eq_true_eq] at h
      exact ⟨h.1, h.2⟩
    have h2 : c = Char.ofNat c.toNat := (Char.ofNat_toNat c).symm
    obtain ⟨h3, h4⟩ := h1
    generalize c.toNat = n at h2 h3 h4
    subst h2
    interval_cases n <;> decide
  · intro h
    simp only [String.toList, List.mem_cons, List.mem_singleton] at h
    rcases h with h | h | h | h | h | h | h | h | h | h | h
    all_goals first | (subst h; decide) | cases h

/-- C10. `correctSignal t` returns `true` with value `v` stored iff `t` is a
non-empty string of decimal digits whose numeric value lies in
`[1, 999999999]` and `v` is that value. Digit strings whose value is above the
32-bit range (read as the saturated maximum) and strings of value 0 are
rejected. -/
theorem correctSignal_iff_digits_in_range (t : List Char) :
    (∀ v : Int, correctSignal t = some v ↔
      t ≠ [] ∧ (∀ c ∈ t, c ∈ "0123456789".toList) ∧
        1 ≤ decimalValue t ∧ decimalValue t ≤ 999999999 ∧ v = (decimalValue t : Int)) ∧
    (decimalValue t > 2147483647 → correctSignal t = none) ∧
    (decimalValue t = 0 → correctSignal t = none) := by
  have hall : (t.all Char.isDigit = true) ↔ ∀ c ∈ t, c ∈ "0123456789".toList := by
    rw [List.all_eq_true]
    exact forall_congr' fun c => imp_congr Iff.rfl (isDigit_iff c)
  have key : ∀ v : Int, correctSignal t = some v ↔
      t ≠ [] ∧ (∀ c ∈ t, c ∈ "0123456789".toList) ∧
        1 ≤ decimalValue t ∧ decimalValue t ≤ 999999999 ∧ v = (decimalValue t : Int) := by
    intro v
    unfold correctSignal readInt32
    rw [digitsValue_eq_decimalValue]
    by_cases h0 : t ≠ [] ∧ t.all Char.isDigit = true
    · have h1 : t ≠ [] ∧ ∀ c ∈ t, c ∈ "0123456789".toList := ⟨h0.1, hall.mp h0.2⟩
      rw [if_pos h0]
      by_cases hbig : decimalValue t > 2147483647
      · simp only [hbig, if_true]
        constructor
        · intro h; simp at h
        · rintro ⟨_, _, _, h, _⟩; omega
      · simp only [hbig, if_false]
        by_cases hr : ((decimalValue t : Int) ≥ 1 ∧ (decimalValue t : Int) ≤ 999999999)
        · rw [if_pos hr]
          constructor
          · intro h
            refine ⟨h1.1, h1.2, by omega, by omega, ?_⟩
            exact (Option.some.inj h).symm
          · rintro ⟨_, _, _, _, h⟩
            rw [h]
        · rw [if_neg hr]
          constructor
          · intro h; cases h
          · rintro ⟨_, _, h2, h3, _⟩
            exact absurd ⟨by omega, by omega⟩ hr
    · rw [if_neg h0]
      constructor
      · intro h; cases h
      · rintro ⟨h2, h3, _⟩
        exact absurd ⟨h2, hall.mpr h3⟩ h0
  refine ⟨key, ?_, ?_⟩
  · intro h
    cases hc : correctSignal t with
    | none => rfl
    | some v =>
      have := (key v).mp hc
      omega
  · intro h
    cases hc : correctSignal t with
    | none => rfl
    | some v =>
      have := (key v).mp hc
      omega

/-! ### Binary counter -/

theorem sizeDec_pos {i : Nat} (h1 : 0 < i) (h2 : i < 2 ^ 64) : sizeDec i = i - 1 := by
  unfold sizeDec
  norm_num at h2 ⊢
  omega

theorem toBinaryLoop_spec : ∀ (fuel m i : Nat) (b : List Bool), m < 2 ^ fuel →
    (m ≠ 0 → m < 2 ^ (i + 1) ∧ i < b.length ∧ i < 2 ^ 64) →
    ∃ r, toBinaryLoop fuel m i b = some r ∧ r.length = b.length ∧
      ∀ q, r[q]? = if q ≤ i ∧ 2 ^ (i - q) ≤ m then some (m.testBit (i - q)) else b[q]? := by
  intro fuel
  induction fuel with
  | zero =>
    intro m i b hm _
    have h0 : m = 0 := by simpa using hm
    subst h0
    refine ⟨b, by simp [toBinaryLoop], rfl, ?_⟩
    intro q
    simp
  | succ fuel ih =>
    intro m i b hm hpre
    by_cases h0 : m = 0
    · subst h0
      refine ⟨b, by simp [toBinaryLoop], rfl, ?_⟩
      intro q
      simp
    · obtain ⟨hmi, hib, hi64⟩ := hpre h0
      have hm2 : m / 2 < 2 ^ fuel := by
        rw [Nat.div_lt_iff_lt_mul (by norm_num)]
        rw [pow_succ] at hm
        exact hm
      have hstep : toBinaryLoop (fuel + 1) m i b =
          toBinaryLoop fuel (m / 2) (sizeDec i) (b.set i (m % 2 != 0)) := by
        simp [toBinaryLoop, h0, hib]
      have hbit : (m % 2 != 0) = m.testBit 0 := by
        rw [Nat.testBit_zero]
        rcases Nat.mod_two_eq_zero_or_one m with h | h <;> simp [h]
      by_cases h2 : m / 2 = 0
      · obtain ⟨r, hr, hlen, hget⟩ := ih (m / 2) (sizeDec i) (b.set i (m % 2 != 0)) hm2
          (fun h => absurd h2 h)
        refine ⟨r, by rw [hstep, hr], by rw [hlen, List.length_set], ?_⟩
        intro q
        rw [hget q, h2]
        have hm1 : m = 1 := by omega
        have hneg : ¬ (q ≤ sizeDec i ∧ 2 ^ (sizeDec i - q) ≤ 0) := by
          rintro ⟨_, h⟩
          have := Nat.two_pow_pos (sizeDec i - q)
          omega
        rw [if_neg hneg, List.getElem?_set]
        by_cases hq : i = q
        · subst hq
          simp [hib, hbit, hm1]
        · rw [if_neg hq]
          by_cases hqi : q ≤ i
          · have hlt : 1 ≤ i - q := by omega
            have : ¬ (q ≤ i ∧ 2 ^ (i - q) ≤ m) := by
              rintro ⟨_, h⟩
              have h2le : 2 ^ 1 ≤ 2 ^ (i - q) := Nat.pow_le_pow_right (by norm_num) hlt
              omega
            rw [if_neg this]
          · rw [if_neg (fun h => hqi h.1)]
      · have hipos : 0 < i := by
          rcases Nat.eq_zero_or_pos i with h | h
          · subst h
            simp at hmi
            omega
          · exact h
        have hdec : sizeDec i = i - 1 := sizeDec_pos hipos hi64
        obtain ⟨r, hr, hlen, hget⟩ := ih (m / 2) (sizeDec i) (b.set i (m % 2 != 0)) hm2
          (fun _ => by
            rw [hdec, List.length_set]
            refine ⟨?_, by omega, by omega⟩
            rw [Nat.div_lt_iff_lt_mul (by norm_num)]
            have : i - 1 + 1 + 1 = i + 1 := by omega
            rw [← pow_succ, this]
            exact hmi)
        refine ⟨r, by rw [hstep, hr], by rw [hlen, List.length_set], ?_⟩
        intro q
        rw [hget q, hdec, List.getElem?_set]
        by_cases hq : i = q
        · subst hq
          have h1 : ¬ (i ≤ i - 1 ∧ 2 ^ (i - 1 - i) ≤ m / 2) := by omega
          have h3 : (i ≤ i ∧ 2 ^ (i - i) ≤ m) := by
            refine ⟨le_refl _, ?_⟩
            simp
            omega
          rw [if_neg h1, if_pos h3, if_pos rfl, if_pos hib, hbit]
          simp
        · rw [if_neg hq]
          by_cases hqi : q ≤ i
          · have hq1 : q ≤ i - 1 := by omega
            have hpow : 2 ^ (i - q) = 2 ^ (i - 1 - q) * 2 := by
              have e : i - q = i - 1 - q + 1 := by omega
              rw [e, pow_succ]
            have hiff : 2 ^ (i - 1 - q) ≤ m / 2 ↔ 2 ^ (i - q) ≤ m := by
              rw [Nat.le_div_iff_mul_le (by norm_num), hpow]
            have htb : (m / 2).testBit (i - 1 - q) = m.testBit (i - q) := by
              have e : i - 1 - q + 1 = i - q := by omega
              rw [Nat.testBit_div_two, e]
            by_cases hc : 2 ^ (i - q) ≤ m
            · rw [if_pos ⟨hq1, hiff.mpr hc⟩, if_pos ⟨hqi, hc⟩, htb]
            · rw [if_neg (fun h => hc (hiff.mp h.2)), if_neg (fun h => hc h.2)]
          · rw [if_neg (fun h => hqi (by omega)), if_neg (fun h => hqi h.1)]

theorem getElem?_bigEndianBits (size n q : Nat) :
    (bigEndianBits size n)[q]? = if q < size then some (n.testBit (size - 1 - q)) else none := by
  unfold bigEndianBits
  rw [List.getElem?_map]
  by_cases h : q < size
  · rw [List.getElem?_range h, if_pos h]
    rfl
  · rw [List.getElem?_eq_none (by simpa using h), if_neg h]
    rfl

theorem length_bigEndianBits (size n : Nat) : (bigEndianBits size n).length = size := by
  simp [bigEndianBits]

theorem bigEndianBits_zero (size : Nat) : bigEndianBits size 0 = List.replicate size false := by
  apply List.ext_getElem?
  intro q
  rw [getElem?_bigEndianBits, List.getElem?_replicate]
  simp

/-- Running `toBinary n` on a bitset that holds the representation of some
`j ≤ n` leaves the representation of `n`. -/
theorem toBinary_bigEndianBits_word {size n j : Nat} (h64 : size < 2 ^ 64)
    (hn64 : n < 2 ^ 64) (hn : n < 2 ^ size) (hj : j ≤ n) :
    toBinary n size (bigEndianBits size j) = some (bigEndianBits size n) := by
  have hpre : n ≠ 0 → n < 2 ^ (sizeDec size + 1) ∧
      sizeDec size < (bigEndianBits size j).length ∧ sizeDec size < 2 ^ 64 := by
    intro h0
    have hpos : 0 < size := by
      rcases Nat.eq_zero_or_pos size with h | h
      · subst h
        simp at hn
        omega
      · exact h
    rw [sizeDec_pos hpos h64, length_bigEndianBits]
    have : size - 1 + 1 = size := by omega
    rw [this]
    exact ⟨hn, by omega, by omega⟩
  obtain ⟨r, hr, hlen, hget⟩ := toBinaryLoop_spec 64 n (sizeDec size) (bigEndianBits size j)
    hn64 hpre
  unfold toBinary
  rw [hr]
  congr 1
  apply List.ext_getElem?
  intro q
  rw [hget q]
  simp only [getElem?_bigEndianBits]
  by_cases hq : q < size
  · have hpos : 0 < size := by omega
    rw [sizeDec_pos hpos h64]
    simp only [hq, if_true]
    by_cases hc : 2 ^ (size - 1 - q) ≤ n
    · rw [if_pos ⟨by omega, hc⟩]
    · rw [if_neg (fun h => hc h.2)]
      have hlt : n < 2 ^ (size - 1 - q) := by omega
      rw [Nat.testBit_lt_two_pow hlt, Nat.testBit_lt_two_pow (lt_of_le_of_lt hj hlt)]
  · simp only [hq, if_false]
    by_cases h0 : n = 0
    · subst h0
      have : ¬ (q ≤ sizeDec size ∧ 2 ^ (sizeDec size - q) ≤ 0) := by
        rintro ⟨_, h⟩
        have := Nat.two_pow_pos (sizeDec size - q)
        omega
      rw [if_neg this]
    · obtain ⟨_, h2, _⟩ := hpre h0
      rw [length_bigEndianBits] at h2
      rw [if_neg (fun h => by omega)]

theorem toBinary_bigEndianBits {size n j : Nat} (hsize : size < 64) (hn : n < 2 ^ size)
    (hj : j ≤ n) : toBinary n size (bigEndianBits size j) = some (bigEndianBits size n) :=
  toBinary_bigEndianBits_word (by norm_num; omega)
    (lt_of_lt_of_le hn (Nat.pow_le_pow_right (by norm_num) (by omega))) hn hj

/-! ### Evaluator -/

theorem gateAND_eq_all (vals : List Bool) : gateAND vals = vals.all (fun a => a) := by
  induction vals with
  | nil => rfl
  | cons a t ih => cases a <;> simp [gateAND, ih]

theorem gateOR_eq_any (vals : List Bool) : gateOR vals = vals.any (fun a => a) := by
  induction vals with
  | nil => rfl
  | cons a t ih => cases a <;> simp [gateOR, ih]

theorem valuate_eq_gateReference (kind : Gate) (vals : List Bool)
    (h : arityOK kind vals.length) :
    valuateSignalBasedOnParentsAndGate vals kind = some (gateReference kind vals) := by
  cases kind with
  | NOT =>
    match vals, h with
    | [a], _ => rfl
  | XOR =>
    match vals, h with
    | [a], _ => cases a <;> rfl
    | [a, b], _ => cases a <;> cases b <;> rfl
  | AND => simp [valuateSignalBasedOnParentsAndGate, gateReference, gateAND_eq_all]
  | NAND => simp [valuateSignalBasedOnParentsAndGate, gateReference, gateAND_eq_all]
  | OR => simp [valuateSignalBasedOnParentsAndGate, gateReference, gateOR_eq_any]
  | NOR => simp [valuateSignalBasedOnParentsAndGate, gateReference, gateOR_eq_any]

theorem lookup_mapInsert_self {k : Int} {v : Bool} {m : Valuation} (h : m.lookup k = none) :
    (mapInsert k v m).lookup k = some v := by
  simp [mapInsert, h, List.lookup]

theorem lookup_mapInsert_ne {k x : Int} {v : Bool} {m : Valuation} (h : x ≠ k) :
    (mapInsert k v m).lookup x = m.lookup x := by
  unfold mapInsert
  split
  · rfl
  · have hb : (x == k) = false := by simpa using h
    simp [List.lookup, hb]

theorem lookupAll_length {m : Valuation} :
    ∀ {ps : List Int} {bs : List Bool}, lookupAll m ps = some bs → bs.length = ps.length := by
  intro ps
  induction ps with
  | nil =>
    intro bs h
    simp [lookupAll] at h
    subst h
    rfl
  | cons p rest ih =>
    intro bs h
    unfold lookupAll at h
    cases hp : m.lookup p with
    | none => simp [hp] at h
    | some b =>
      cases hr : lookupAll m rest with
      | none => simp [hp, hr] at h
      | some bs1 =>
        simp [hp, hr] at h
        subst h
        simp [ih hr]

theorem lookupAll_extends {m1 m2 : Valuation} (hext : Extends m1 m2) :
    ∀ {ps : List Int} {bs : List Bool}, lookupAll m1 ps = some bs → lookupAll m2 ps = some bs := by
  intro ps
  induction ps with
  | nil => intro bs h; simpa [lookupAll] using h
  | cons p rest ih =>
    intro bs h
    unfold lookupAll at h ⊢
    cases hp : m1.lookup p with
    | none => simp [hp] at h
    | some b =>
      cases hr : lookupAll m1 rest with
      | none => simp [hp, hr] at h
      | some bs1 =>
        simp [hp, hr] at h
        subst h
        simp [hext p b hp, ih hr]

theorem lookupAll_agrees {w : Int → Bool} {m : Valuation} (hag : Agrees w m) :
    ∀ {ps : List Int} {bs : List Bool}, lookupAll m ps = some bs → bs = ps.map w := by
  intro ps
  induction ps with
  | nil => intro bs h; simp [lookupAll] at h; simp [h]
  | cons p rest ih =>
    intro bs h
    unfold lookupAll at h
    cases hp : m.lookup p with
    | none => simp [hp] at h
    | some b =>
      cases hr : lookupAll m rest with
      | none => simp [hp, hr] at h
      | some bs1 =>
        simp [hp, hr] at h
        subst h
        simp [hag p b hp, ih hr]

theorem solved_extends {g : graph} {m1 m2 : Valuation} (hext : Extends m1 m2) {s : Int}
    (h : Solved g m1 s) : Solved g m2 s := by
  intro entry he
  obtain ⟨vals, h1, h2⟩ := h entry he
  exact ⟨vals, lookupAll_extends hext h1, hext _ _ h2⟩

theorem extends_refl (m : Valuation) : Extends m m := fun _ _ h => h

theorem extends_trans {m1 m2 m3 : Valuation} (h1 : Extends m1 m2) (h2 : Extends m2 m3) :
    Extends m1 m3 := fun s b h => h2 s b (h1 s b h)

theorem inputsBound_extends {g : graph} {m1 m2 : Valuation} (hext : Extends m1 m2)
    (h : InputsBound g m1) : InputsBound g m2 := by
  intro s entry p he hp
  rcases h s entry p he hp with h1 | h1
  · exact Or.inl h1
  · right
    obtain ⟨b, hb⟩ := Option.isSome_iff_exists.mp h1
    rw [hext p b hb]
    rfl

theorem evalPost_refl {g : graph} {m : Valuation} (hinv : MemoInv g m) (targets : List Int) :
    EvalPost g m m targets :=
  ⟨extends_refl m, hinv, fun _ h => Or.inl h, fun _ _ h => h⟩

theorem valuateParents_spec (g : graph)
    (eval : Int → Valuation → Option (Bool × Valuation)) :
    ∀ (ps : List Int) (m : Valuation),
      (∀ p ∈ ps, ∀ m1, MemoInv g m1 → InputsBound g m1 →
        ∃ b m2, eval p m1 = some (b, m2) ∧ m2.lookup p = some b ∧ EvalPost g m1 m2 [p]) →
      MemoInv g m → InputsBound g m →
      ∃ bs m2, valuateParents eval ps m = some (bs, m2) ∧ lookupAll m2 ps = some bs ∧
        EvalPost g m m2 ps := by
  intro ps
  induction ps with
  | nil =>
    intro m _ hinv _
    exact ⟨[], m, rfl, rfl, evalPost_refl hinv []⟩
  | cons p rest ih =>
    intro m hev hinv hib
    obtain ⟨b, m1, he1, hl1, hx1, hi1, hd1, ha1⟩ := hev p (List.mem_cons_self _ _) m hinv hib
    obtain ⟨bs, m2, he2, hl2, hx2, hi2, hd2, ha2⟩ := ih m1
      (fun q hq => hev q (List.mem_cons_of_mem _ hq)) hi1 (inputsBound_extends hx1 hib)
    refine ⟨b :: bs, m2, by simp [valuateParents, he1, he2], ?_, extends_trans hx1 hx2, hi2,
      ?_, fun w hw hag => ha2 w hw (ha1 w hw hag)⟩
    · simp [lookupAll, hx2 p b hl1, hl2]
    · intro x hx
      rcases hd2 x hx with h | ⟨t, ht, hr⟩
      · rcases hd1 x h with h' | ⟨t, ht, hr⟩
        · exact Or.inl h'
        · rw [List.mem_singleton.mp ht] at hr
          exact Or.inr ⟨p, List.mem_cons_self _ _, hr⟩
      · exact Or.inr ⟨t, List.mem_cons_of_mem _ ht, hr⟩

theorem dfsWithValuation_spec (g : graph) (hac : Acyclic g) (har : Arity g) :
    ∀ (fuel : Nat) (cur : Int) (m : Valuation) (P : List Int), slack g P < fuel →
      (∀ a ∈ P, Relation.TransGen (Edge g) a cur) → MemoInv g m → InputsBound g m →
      (graphContains g cur = true ∨ (m.lookup cur).isSome = true) →
      ∃ b m2, dfsWithValuation g fuel cur m = some (b, m2) ∧ m2.lookup cur = some b ∧
        EvalPost g m m2 [cur] := by
  intro fuel
  induction fuel with
  | zero => intro _ _ _ h; omega
  | succ fuel ih =>
    intro cur m P hfuel hreach hinv hib hcur
    unfold dfsWithValuation
    cases hm : m.lookup cur with
    | some b => exact ⟨b, m, rfl, hm, evalPost_refl hinv [cur]⟩
    | none =>
      have hkey : graphContains g cur = true := by
        rcases hcur with h | h
        · exact h
        · simp [hm] at h
      obtain ⟨entry, hl⟩ := Option.isSome_iff_exists.mp hkey
      have hP : cur ∉ P := fun h => hac ⟨cur, hreach cur h⟩
      have hlt := slack_insert_lt hkey hP
      have hedge : ∀ p ∈ entry.2, Edge g cur p := fun p hp => ⟨entry, hl, hp⟩
      obtain ⟨bs, m1, he1, hl1, hx1, hi1, hd1, ha1⟩ :=
        valuateParents_spec g (dfsWithValuation g fuel) entry.2 m
          (fun p hp m1 hinv1 hib1 => ih p m1 (setInsert cur P) (by omega)
            (fun a ha => by
              rcases mem_setInsert.mp ha with rfl | ha
              · exact Relation.TransGen.single (hedge p hp)
              · exact Relation.TransGen.tail (hreach a ha) (hedge p hp))
            hinv1 hib1 (hib1 cur entry p hl hp))
          hinv hib
      have hval := valuate_eq_gateReference entry.1 bs (by
        rw [lookupAll_length hl1]
        exact har cur entry hl)
      have hnone : m1.lookup cur = none := by
        cases h1 : m1.lookup cur with
        | none => rfl
        | some b1 =>
          exfalso
          rcases hd1 cur (by simp [h1]) with h | ⟨t, ht, hr⟩
          · simp [hm] at h
          · exact hac ⟨cur, Relation.TransGen.head' (hedge t ht) hr⟩
      have hx2 : Extends m1 (mapInsert cur (gateReference entry.1 bs) m1) := by
        intro s b hs
        have hne : s ≠ cur := by
          rintro rfl
          rw [hnone] at hs
          cases hs
        rw [lookup_mapInsert_ne hne]
        exact hs
      refine ⟨gateReference entry.1 bs, mapInsert cur (gateReference entry.1 bs) m1,
        by simp [hl, he1, hval], lookup_mapInsert_self hnone, extends_trans hx1 hx2, ?_, ?_, ?_⟩
      · intro s hs
        by_cases hsc : s = cur
        · subst hsc
          intro entry1 he
          rw [hl] at he
          cases he
          exact ⟨bs, lookupAll_extends hx2 hl1, lookup_mapInsert_self hnone⟩
        · rw [lookup_mapInsert_ne hsc] at hs
          exact solved_extends hx2 (hi1 s hs)
      · intro x hx
        by_cases hxc : x = cur
        · subst hxc
          exact Or.inr ⟨x, List.mem_singleton_self _, Relation.ReflTransGen.refl⟩
        · rw [lookup_mapInsert_ne hxc] at hx
          rcases hd1 x hx with h | ⟨t, ht, hr⟩
          · exact Or.inl h
          · exact Or.inr ⟨cur, List.mem_singleton_self _,
              Relation.ReflTransGen.head (hedge t ht) hr⟩
      · intro w hw hag s b hs
        by_cases hsc : s = cur
        · subst hsc
          rw [lookup_mapInsert_self hnone] at hs
          cases hs
          rw [hw s entry hl, lookupAll_agrees (ha1 w hw hag) hl1]
        · rw [lookup_mapInsert_ne hsc] at hs
          exact ha1 w hw hag s b hs

theorem populateValuation_spec (g : graph) (hac : Acyclic g) (har : Arity g) (fuel : Nat)
    (hfuel : g.length < fuel) :
    ∀ (signals : List Int) (m : Valuation), (∀ s ∈ signals, graphContains g s = true) →
      MemoInv g m → InputsBound g m →
      ∃ m2, populateValuation g fuel signals m = some m2 ∧ EvalPost g m m2 signals ∧
        ∀ s ∈ signals, (m2.lookup s).isSome = true := by
  have hslack : slack g [] < fuel := by simpa [slack, graphKeys] using hfuel
  intro signals
  induction signals with
  | nil =>
    intro m _ hinv _
    exact ⟨m, rfl, evalPost_refl hinv [], by simp⟩
  | cons s rest ih =>
    intro m hkeys hinv hib
    obtain ⟨b, m1, he1, hl1, hx1, hi1, hd1, ha1⟩ := dfsWithValuation_spec g hac har fuel s m []
      hslack (by simp) hinv hib (Or.inl (hkeys s (List.mem_cons_self _ _)))
    obtain ⟨m2, he2, ⟨hx2, hi2, hd2, ha2⟩, hall⟩ := ih m1
      (fun q hq => hkeys q (List.mem_cons_of_mem _ hq)) hi1 (inputsBound_extends hx1 hib)
    refine ⟨m2, by simp [populateValuation, he1, he2],
      ⟨extends_trans hx1 hx2, hi2, ?_, fun w hw hag => ha2 w hw (ha1 w hw hag)⟩, ?_⟩
    · intro x hx
      rcases hd2 x hx with h | ⟨t, ht, hr⟩
      · rcases hd1 x h with h' | ⟨t, ht, hr⟩
        · exact Or.inl h'
        · rw [List.mem_singleton.mp ht] at hr
          exact Or.inr ⟨s, List.mem_cons_self _ _, hr⟩
      · exact Or.inr ⟨t, List.mem_cons_of_mem _ ht, hr⟩
    · intro q hq
      rcases List.mem_cons.mp hq with rfl | hq
      · rw [hx2 q b hl1]
        rfl
      · exact hall q hq

/-! ### Invariants of the graph built by the parser -/

theorem lookup_some_mem {g : graph} {s : Int} {entry : Gate × List Int}
    (h : g.lookup s = some entry) : (s, entry) ∈ g := by
  induction g with
  | nil => simp [List.lookup] at h
  | cons e rest ih =>
    obtain ⟨k, x⟩ := e
    by_cases hk : s = k
    · subst hk
      simp [List.lookup] at h
      subst h
      exact List.mem_cons_self _ _
    · have hb : (s == k) = false := by simpa using hk
      simp only [List.lookup, hb] at h
      exact List.mem_cons_of_mem _ (ih h)

theorem arity_of_entryArity {g : graph} (h : EntryArity g) : Arity g :=
  fun s entry hl => h (s, entry) (lookup_some_mem hl)

theorem length_setInsert_le (x : Int) (s : List Int) :
    (setInsert x s).length ≤ s.length + 1 ∧ 1 ≤ (setInsert x s).length := by
  unfold setInsert
  split
  · rename_i h
    exact ⟨Nat.le_succ _, List.length_pos_of_mem h⟩
  · simp

theorem readParents_length (curGate : Gate) :
    ∀ (toks : List (List Char)) (parents : List Int) (count : Nat),
      parents.length ≤ count → (1 ≤ count → 1 ≤ parents.length) →
      (readParents curGate toks parents count).2.1.length ≤
          (readParents curGate toks parents count).2.2 ∧
        (1 ≤ (readParents curGate toks parents count).2.2 →
          1 ≤ (readParents curGate toks parents count).2.1.length) := by
  intro toks
  induction toks with
  | nil => intro parents count h1 h2; exact ⟨h1, h2⟩
  | cons tok rest ih =>
    intro parents count h1 h2
    unfold readParents
    cases hc : correctSignal tok with
    | none => exact ⟨h1, h2⟩
    | some v =>
      have hlen := length_setInsert_le v parents
      simp only
      split
      · exact ⟨by simp only; omega, fun _ => hlen.2⟩
      · exact ih _ _ (by omega) (fun _ => hlen.2)

theorem arityOK_of_count {curGate : Gate} {count len : Nat}
    (hc : correctNumberOfSignals curGate count = true) (h1 : len ≤ count)
    (h2 : 1 ≤ count → 1 ≤ len) : arityOK curGate len := by
  cases curGate <;> simp [correctNumberOfSignals] at hc <;> simp only [arityOK] <;> omega

/-- A line either leaves the graph unchanged or appends one entry that has
passed all the checks of the loop body. -/
theorem parseLine_graph (st : ParseState) (line : List Char) :
    (parseLine st line).g = st.g ∨
    ∃ curOutSig parents count,
      (parseLine st line).g =
        st.g ++ [(curOutSig, (createGate ((tokens line).headD []), parents))] ∧
      correctSignal ((tokens line).tail.headD []) = some curOutSig ∧
      readParents (createGate ((tokens line).headD [])) (tokens line).tail.tail [] 0 =
        (true, parents, count) ∧
      correctNumberOfSignals (createGate ((tokens line).headD [])) count = true ∧
      graphContains st.g curOutSig = false := by
  unfold parseLine
  simp only
  split
  · exact Or.inl rfl
  · split
    · exact Or.inl rfl
    · rename_i curOutSig hout
      split
      · exact Or.inl rfl
      · rename_i parents count hread
        split
        · exact Or.inl rfl
        · rename_i hnum
          split
          · exact Or.inl rfl
          · rename_i hdup
            right
            refine ⟨curOutSig, parents, count, rfl, hout, hread, ?_, ?_⟩
            · simpa using hnum
            · simpa using hdup

theorem parseLine_entryArity {st : ParseState} (line : List Char) (h : EntryArity st.g) :
    EntryArity (parseLine st line).g := by
  rcases parseLine_graph st line with hg | ⟨curOutSig, parents, count, hg, _, hread, hnum, _⟩
  · rw [hg]; exact h
  · rw [hg]
    intro e he
    rcases List.mem_append.mp he with he | he
    · exact h e he
    · rw [List.mem_singleton.mp he]
      have hlen := readParents_length (createGate ((tokens line).headD []))
        (tokens line).tail.tail [] 0 (le_refl _) (fun h => h)
      rw [hread] at hlen
      exact arityOK_of_count hnum hlen.1 hlen.2

theorem foldl_parseLine_inv (P : ParseState → Prop)
    (hstep : ∀ st line, P st → P (parseLine st line)) :
    ∀ (lines : List (List Char)) (st : ParseState), P st → P (lines.foldl parseLine st) := by
  intro lines
  induction lines with
  | nil => intro st h; exact h
  | cons l rest ih => intro st h; exact ih _ (hstep st l h)

theorem parseInput_entryArity (text : List Char) : EntryArity (parseInput text).g :=
  foldl_parseLine_inv (fun st => EntryArity st.g) (fun _ line h => parseLine_entryArity line h)
    _ _ (fun e he => by cases he)

theorem inputsBound_of_assignment {g : graph} {assignment : Valuation}
    (h : ∀ x, x ∈ findInputSignals g → (assignment.lookup x).isSome = true) :
    InputsBound g assignment := by
  intro s entry p hl hp
  by_cases hk : graphContains g p = true
  · exact Or.inl hk
  · right
    apply h
    rw [mem_findInputSignals]
    exact ⟨⟨(s, entry), lookup_some_mem hl, hp⟩,
      fun hmem => hk ((graphContains_iff_mem_keys g p).mpr hmem)⟩

theorem acyclic_of_hasCycle (g : graph) (fuel : Nat) (hfuel : g.length < fuel)
    (h : hasCycle g fuel = some false) : Acyclic g := by
  obtain ⟨b, hb, _, hfalse⟩ := hasCycleLoop_spec g fuel hfuel g (fun _ h => h) []
    (fun v hv => by cases hv)
  unfold hasCycle at h
  rw [hb] at h
  cases h
  obtain ⟨V, hs, _, hall⟩ := hfalse rfl
  rintro ⟨s, hcyc⟩
  have hk := (graphContains_iff_mem_keys g s).mp (transGen_isKey hcyc)
  obtain ⟨n, hn, rfl⟩ := List.mem_map.mp hk
  exact (hs _ (hall n hn)).1 hcyc

/-- On an acyclic graph with admissible arities, populating an assignment of the
primary inputs returns a valuation that extends the assignment, binds exactly
the primary inputs and the keys, solves every gate equation, and agrees with
every total solution. -/
theorem populateValuation_solves (g : graph) (hac : Acyclic g) (har : Arity g) (fuel : Nat)
    (hfuel : g.length < fuel) (signals : List Int) (assignment : Valuation)
    (hsig : ∀ s, s ∈ signals ↔ s ∈ graphKeys g)
    (hassign : ∀ x, (assignment.lookup x).isSome = true ↔ x ∈ findInputSignals g) :
    ∃ valuation, populateValuation g fuel signals assignment = some valuation ∧
      Extends assignment valuation ∧
      (∀ x, (valuation.lookup x).isSome = true ↔ x ∈ findInputSignals g ∨ x ∈ graphKeys g) ∧
      (∀ s, graphContains g s = true → Solved g valuation s) ∧
      (∀ w, IsSolution g w → Agrees w assignment → Agrees w valuation) := by
  have hinv0 : MemoInv g assignment := by
    intro s hs entry he
    have h1 := ((mem_findInputSignals g s).mp ((hassign s).mp hs)).2
    have h2 : graphContains g s = true := by simp [graphContains, he]
    exact absurd ((graphContains_iff_mem_keys g s).mp h2) h1
  obtain ⟨m2, he, ⟨hx, hi, hd, ha⟩, hall⟩ := populateValuation_spec g hac har fuel hfuel signals
    assignment (fun s hs => (graphContains_iff_mem_keys g s).mpr ((hsig s).mp hs)) hinv0
    (inputsBound_of_assignment (fun x hx => (hassign x).mpr hx))
  refine ⟨m2, he, hx, ?_, ?_, ha⟩
  · intro x
    constructor
    · intro hb
      rcases hd x hb with h | ⟨t, ht, hr⟩
      · exact Or.inl ((hassign x).mp h)
      · by_cases hk : x ∈ graphKeys g
        · exact Or.inr hk
        · left
          rcases Relation.reflTransGen_iff_eq_or_transGen.mp hr with h | h
          · rw [h] at hk
            exact absurd ((hsig t).mp ht) hk
          · obtain ⟨y, _, ⟨entry, hl, hp⟩⟩ := Relation.TransGen.tail'_iff.mp h
            exact (mem_findInputSignals g x).mpr ⟨⟨(y, entry), lookup_some_mem hl, hp⟩, hk⟩
    · rintro (h | h)
      · obtain ⟨b, hb⟩ := Option.isSome_iff_exists.mp ((hassign x).mpr h)
        rw [hx x b hb]
        rfl
      · exact hall x ((hsig x).mpr h)
  · intro s hs
    exact hi s (hall s ((hsig s).mpr ((graphContains_iff_mem_keys g s).mp hs)))

/-- C2. For every acyclic graph produced by the parser and every assignment
that binds exactly the primary inputs, `populateValuation` (run over the keys
in any order, with fuel above the number of gates) returns a valuation that
keeps the assignment and in which every gate-defined signal holds the value of
its gate function (NOT: negation; XOR: inputs differ; AND: all true; NAND: not
AND; OR: some true; NOR: not OR) applied to the values of its inputs; every
total solution of the gate equations that agrees with the assignment agrees
with this valuation, so it is the unique solution. -/
theorem populateValuation_unique_solution (text : List Char) (fuel : Nat)
    (signals : List Int) (assignment : Valuation)
    (hac : Acyclic (parseInput text).g)
    (hfuel : (parseInput text).g.length < fuel)
    (hsig : ∀ s, s ∈ signals ↔ s ∈ graphKeys (parseInput text).g)
    (hassign : ∀ x, (assignment.lookup x).isSome = true ↔
      x ∈ findInputSignals (parseInput text).g) :
    ∃ valuation, populateValuation (parseInput text).g fuel signals assignment = some valuation ∧
      (∀ x b, assignment.lookup x = some b → valuation.lookup x = some b) ∧
      (∀ s entry, (parseInput text).g.lookup s = some entry →
        ∃ vals, lookupAll valuation entry.2 = some vals ∧
          valuation.lookup s = some (gateReference entry.1 vals)) ∧
      (∀ w : Int → Bool,
        (∀ s entry, (parseInput text).g.lookup s = some entry →
          w s = gateReference entry.1 (entry.2.map w)) →
        (∀ x b, assignment.lookup x = some b → w x = b) →
        ∀ s b, valuation.lookup s = some b → w s = b) := by
  obtain ⟨valuation, he, hx, _, hsolved, hag⟩ := populateValuation_solves (parseInput text).g hac
    (arity_of_entryArity (parseInput_entryArity text)) fuel hfuel signals assignment hsig hassign
  refine ⟨valuation, he, hx, ?_, hag⟩
  intro s entry hl
  exact hsolved s (by simp [graphContains, hl]) entry hl

/-- Witness for C2: the circuit `AND 3 1 2`, `NOT 4 3` under the assignment
`1 ↦ true`, `2 ↦ false`. -/
theorem populateValuation_unique_solution_witness :
    ∃ valuation,
      populateValuation (parseInput "AND 3 1 2\nNOT 4 3".toList).g 3 [4, 3]
        [(1, true), (2, false)] = some valuation ∧
      (∀ x b, List.lookup x [((1 : Int), true), (2, false)] = some b →
        valuation.lookup x = some b) ∧
      (∀ s entry, (parseInput "AND 3 1 2\nNOT 4 3".toList).g.lookup s = some entry →
        ∃ vals, lookupAll valuation entry.2 = some vals ∧
          valuation.lookup s = some (gateReference entry.1 vals)) ∧
      (∀ w : Int → Bool,
        (∀ s entry, (parseInput "AND 3 1 2\nNOT 4 3".toList).g.lookup s = some entry →
          w s = gateReference entry.1 (entry.2.map w)) →
        (∀ x b, List.lookup x [((1 : Int), true), (2, false)] = some b → w x = b) →
        ∀ s b, valuation.lookup s = some b → w s = b) :=
  populateValuation_unique_solution "AND 3 1 2\nNOT 4 3".toList 3 [4, 3] [(1, true), (2, false)]
    (acyclic_of_hasCycle _ 3 (by decide) (by decide))
    (by decide)
    (fun s => by
      rw [show graphKeys (parseInput "AND 3 1 2\nNOT 4 3".toList).g = [3, 4] from by decide]
      simp only [List.mem_cons, List.mem_singleton, List.not_mem_nil, or_false]
      exact or_comm)
    (fun x => by
      rw [show findInputSignals (parseInput "AND 3 1 2\nNOT 4 3".toList).g = [1, 2] from by decide]
      by_cases h1 : x = 1
      · subst h1; decide
      · by_cases h2 : x = 2
        · subst h2; decide
        · have e1 : (x == 1) = false := by simpa using h1
          have e2 : (x == 2) = false := by simpa using h2
          simp [List.lookup, e1, e2, h1, h2])

/-! ### Driver -/

theorem printRows_eq_rowsSpec (g : graph) (fuel : Nat) (keys : List Int) {n : Nat}
    (hn : n < 64) :
    ∀ (count i j : Nat), i + count ≤ 2 ^ n → j ≤ i →
      printRows g fuel keys n count i (bigEndianBits n j) = rowsSpec g fuel keys n count i := by
  intro count
  induction count with
  | zero => intro i j _ _; rfl
  | succ count ih =>
    intro i j hi hj
    unfold printRows rowsSpec evalRow
    rw [toBinary_bigEndianBits hn (by omega) hj]
    simp only
    rw [ih (i + 1) i (by omega) (Nat.le_succ i)]
    cases populateValuation g fuel (getNonInputSignals g)
      (bindInputs keys (bigEndianBits n i) []) with
    | none => rfl
    | some valuation => rfl

theorem rowsSpec_eq_map (g : graph) (fuel : Nat) (keys : List Int) (n : Nat)
    (f : Nat → List Char) :
    ∀ (count i : Nat),
      (∀ d, d < count → evalRow g fuel keys (bigEndianBits n (i + d)) = some (f (i + d))) →
      rowsSpec g fuel keys n count i = some ((List.range count).map (fun d => f (i + d))) := by
  intro count
  induction count with
  | zero => intro i _; rfl
  | succ count ih =>
    intro i h
    unfold rowsSpec
    have h0 := h 0 (Nat.succ_pos _)
    rw [Nat.add_zero] at h0
    rw [h0]
    simp only
    rw [ih (i + 1) (fun d hd => by
      have := h (d + 1) (by omega)
      rw [show i + 1 + d = i + (d + 1) by omega]
      exact this)]
    simp only [List.range_succ_eq_map, List.map_cons, List.map_map, Nat.add_zero]
    congr 2
    apply List.map_congr_left
    intro d _
    simp only [Function.comp, Nat.succ_eq_add_one]
    congr 1
    omega

theorem printKeys_eq_map (m : Valuation) :
    ∀ ks : List Int, (∀ k ∈ ks, (m.lookup k).isSome = true) →
      printKeys m ks = some (ks.map (fun s => boolChar (valueOf m s))) := by
  intro ks
  induction ks with
  | nil => intro _; rfl
  | cons k rest ih =>
    intro h
    obtain ⟨b, hb⟩ := Option.isSome_iff_exists.mp (h k (List.mem_cons_self _ _))
    unfold printKeys
    rw [hb, ih (fun q hq => h q (List.mem_cons_of_mem _ hq))]
    simp [valueOf, hb]

theorem lookup_isSome_iff_mem_keys (m : Valuation) (x : Int) :
    (m.lookup x).isSome = true ↔ x ∈ m.map Prod.fst := by
  induction m with
  | nil => simp [List.lookup]
  | cons e rest ih =>
    obtain ⟨k, v⟩ := e
    by_cases hk : x = k
    · subst hk
      simp [List.lookup]
    · have hb : (x == k) = false := by simpa using hk
      simp only [List.lookup, hb, List.map_cons, List.mem_cons]
      simp [hk, ih]

theorem printValuation_eq_map (m : Valuation) :
    printValuation m = some (((m.map Prod.fst).insertionSort (fun a b => a ≤ b)).map
      (fun s => boolChar (valueOf m s))) := by
  unfold printValuation
  apply printKeys_eq_map
  intro k hk
  rw [lookup_isSome_iff_mem_keys]
  exact (List.perm_insertionSort _ _).mem_iff.mp hk

theorem nodupKeys_mapInsert {k : Int} {v : Bool} {m : Valuation} (h : NodupKeys m) :
    NodupKeys (mapInsert k v m) := by
  unfold mapInsert
  split
  · exact h
  · rename_i hk
    unfold NodupKeys
    rw [List.map_cons, List.nodup_cons]
    refine ⟨fun hmem => hk ?_, h⟩
    exact (lookup_isSome_iff_mem_keys m k).mpr hmem

theorem valuateParents_nodupKeys (eval : Int → Valuation → Option (Bool × Valuation))
    (hev : ∀ p m r, eval p m = some r → NodupKeys m → NodupKeys r.2) :
    ∀ (ps : List Int) (m : Valuation) (r : List Bool × Valuation),
      valuateParents eval ps m = some r → NodupKeys m → NodupKeys r.2 := by
  intro ps
  induction ps with
  | nil =>
    intro m r h hm
    simp [valuateParents] at h
    subst h
    exact hm
  | cons p rest ih =>
    intro m r h hm
    unfold valuateParents at h
    cases h1 : eval p m with
    | none => simp [h1] at h
    | some r1 =>
      obtain ⟨b, m1⟩ := r1
      simp only [h1] at h
      cases h2 : valuateParents eval rest m1 with
      | none => simp [h2] at h
      | some r2 =>
        obtain ⟨bs, m2⟩ := r2
        simp only [h2, Option.some.injEq] at h
        subst h
        exact ih m1 (bs, m2) h2 (hev p m (b, m1) h1 hm)

theorem dfsWithValuation_nodupKeys (g : graph) :
    ∀ (fuel : Nat) (cur : Int) (m : Valuation) (r : Bool × Valuation),
      dfsWithValuation g fuel cur m = some r → NodupKeys m → NodupKeys r.2 := by
  intro fuel
  induction fuel with
  | zero => intro cur m r h; simp [dfsWithValuation] at h
  | succ fuel ih =>
    intro cur m r h hm
    unfold dfsWithValuation at h
    cases h0 : m.lookup cur with
    | some b =>
      simp only [h0, Option.some.injEq] at h
      subst h
      exact hm
    | none =>
      simp only [h0] at h
      cases h1 : g.lookup cur with
      | none => simp [h1] at h
      | some entry =>
        simp only [h1] at h
        cases h2 : valuateParents (dfsWithValuation g fuel) entry.2 m with
        | none => simp [h2] at h
        | some r2 =>
          obtain ⟨bs, m1⟩ := r2
          simp only [h2] at h
          cases h3 : valuateSignalBasedOnParentsAndGate bs entry.1 with
          | none => simp [h3] at h
          | some v =>
            simp only [h3, Option.some.injEq] at h
            subst h
            exact nodupKeys_mapInsert
              (valuateParents_nodupKeys _ (fun p m r => ih p m r) entry.2 m (bs, m1) h2 hm)

theorem populateValuation_nodupKeys (g : graph) (fuel : Nat) :
    ∀ (signals : List Int) (m m2 : Valuation),
      populateValuation g fuel signals m = some m2 → NodupKeys m → NodupKeys m2 := by
  intro signals
  induction signals with
  | nil =>
    intro m m2 h hm
    simp [populateValuation] at h
    subst h
    exact hm
  | cons s rest ih =>
    intro m m2 h hm
    unfold populateValuation at h
    cases h1 : dfsWithValuation g fuel s m with
    | none => simp [h1] at h
    | some r =>
      obtain ⟨b, m1⟩ := r
      simp only [h1] at h
      exact ih m1 m2 h (dfsWithValuation_nodupKeys g fuel s m (b, m1) h1 hm)

theorem extends_mapInsert (k : Int) (v : Bool) (m : Valuation) :
    Extends m (mapInsert k v m) := by
  intro s b hs
  unfold mapInsert
  split
  · exact hs
  · rename_i hk
    have hne : s ≠ k := by
      rintro rfl
      simp [hs] at hk
    have hb : (s == k) = false := by simpa using hne
    simp [List.lookup, hb, hs]

theorem isSome_lookup_mapInsert (k x : Int) (v : Bool) (m : Valuation) :
    ((mapInsert k v m).lookup x).isSome = true ↔ x = k ∨ (m.lookup x).isSome = true := by
  by_cases hx : x = k
  · subst hx
    unfold mapInsert
    split
    · rename_i h; simp [h]
    · simp [List.lookup]
  · rw [lookup_mapInsert_ne hx]
    simp [hx]

theorem bindInputs_extends :
    ∀ (keys : List Int) (bits : List Bool) (m : Valuation), Extends m (bindInputs keys bits m) := by
  intro keys
  induction keys with
  | nil => intro bits m; simp [bindInputs]; exact extends_refl m
  | cons k rest ih =>
    intro bits m
    cases bits with
    | nil => simp [bindInputs]; exact extends_refl m
    | cons b bs =>
      simp only [bindInputs]
      exact extends_trans (extends_mapInsert k b m) (ih bs _)

theorem bindInputs_nodupKeys :
    ∀ (keys : List Int) (bits : List Bool) (m : Valuation), NodupKeys m →
      NodupKeys (bindInputs keys bits m) := by
  intro keys
  induction keys with
  | nil => intro bits m h; simpa [bindInputs] using h
  | cons k rest ih =>
    intro bits m h
    cases bits with
    | nil => simpa [bindInputs] using h
    | cons b bs =>
      simp only [bindInputs]
      exact ih bs _ (nodupKeys_mapInsert h)

theorem bindInputs_isSome (x : Int) :
    ∀ (keys : List Int) (bits : List Bool) (m : Valuation), keys.length = bits.length →
      (((bindInputs keys bits m).lookup x).isSome = true ↔
        (m.lookup x).isSome = true ∨ x ∈ keys) := by
  intro keys
  induction keys with
  | nil => intro bits m _; simp [bindInputs]
  | cons k rest ih =>
    intro bits m hlen
    cases bits with
    | nil => simp at hlen
    | cons b bs =>
      simp only [bindInputs]
      rw [ih bs _ (by simpa using hlen), isSome_lookup_mapInsert, List.mem_cons]
      tauto

theorem bindInputs_lookup_not_mem (x : Int) :
    ∀ (keys : List Int) (bits : List Bool) (m : Valuation), x ∉ keys →
      (bindInputs keys bits m).lookup x = m.lookup x := by
  intro keys
  induction keys with
  | nil => intro bits m _; simp [bindInputs]
  | cons k rest ih =>
    intro bits m hx
    cases bits with
    | nil => simp [bindInputs]
    | cons b bs =>
      simp only [bindInputs]
      rw [ih bs _ (fun h => hx (List.mem_cons_of_mem _ h)),
        lookup_mapInsert_ne (fun h => hx (by rw [h]; exact List.mem_cons_self _ _))]

theorem bindInputs_getElem :
    ∀ (keys : List Int) (bits : List Bool) (m : Valuation), keys.Nodup →
      keys.length = bits.length → (∀ k ∈ keys, m.lookup k = none) →
      ∀ j (hj : j < keys.length), (bindInputs keys bits m).lookup keys[j] = bits[j]? := by
  intro keys
  induction keys with
  | nil => intro bits m _ _ _ j hj; simp at hj
  | cons k rest ih =>
    intro bits m hnd hlen hnone j hj
    cases bits with
    | nil => simp at hlen
    | cons b bs =>
      simp only [bindInputs]
      obtain ⟨hk, hrest⟩ := List.nodup_cons.mp hnd
      cases j with
      | zero =>
        simp only [List.getElem_cons_zero, List.getElem?_cons_zero]
        rw [bindInputs_lookup_not_mem k rest bs _ hk]
        exact lookup_mapInsert_self (hnone k (List.mem_cons_self _ _))
      | succ j =>
        simp only [List.getElem_cons_succ, List.getElem?_cons_succ]
        apply ih bs _ hrest (by simpa using hlen)
        intro q hq
        rw [lookup_mapInsert_ne (fun h => hk (by rw [← h]; exact hq))]
        exact hnone q (List.mem_cons_of_mem _ hq)

theorem mem_sortedInputs (g : graph) (x : Int) : x ∈ sortedInputs g ↔ x ∈ findInputSignals g :=
  (List.perm_insertionSort _ _).mem_iff

theorem length_sortedInputs (g : graph) :
    (sortedInputs g).length = (findInputSignals g).length :=
  List.length_insertionSort _ _

theorem mem_getNonInputSignals (g : graph) (x : Int) :
    x ∈ getNonInputSignals g ↔ x ∈ graphKeys g := by
  unfold getNonInputSignals
  rw [mem_foldl_setInsert_fst]
  simp

theorem bitsAssignment_isSome (g : graph) (bits : List Bool)
    (hlen : bits.length = (findInputSignals g).length) (x : Int) :
    ((bitsAssignment g bits).lookup x).isSome = true ↔ x ∈ findInputSignals g := by
  unfold bitsAssignment
  rw [bindInputs_isSome x _ _ _ (by rw [length_sortedInputs, hlen]), mem_sortedInputs]
  simp [List.lookup]

theorem rowAssignment_isSome (g : graph) (i : Nat) (x : Int) :
    ((rowAssignment g i).lookup x).isSome = true ↔ x ∈ findInputSignals g :=
  bitsAssignment_isSome g _ (length_bigEndianBits _ _) x

theorem sorted_keys_eq_rowSignals (g : graph) (hnd : (graphKeys g).Nodup) (m : Valuation)
    (hm : NodupKeys m)
    (hmem : ∀ x, (m.lookup x).isSome = true ↔ x ∈ findInputSignals g ∨ x ∈ graphKeys g) :
    (m.map Prod.fst).insertionSort (fun a b => a ≤ b) = rowSignals g := by
  have hnd2 : (findInputSignals g ++ graphKeys g).Nodup := by
    rw [List.nodup_append]
    refine ⟨nodup_findInputSignals g, hnd, ?_⟩
    intro x hx hk
    exact ((mem_findInputSignals g x).mp hx).2 hk
  have hperm : (m.map Prod.fst).Perm (findInputSignals g ++ graphKeys g) := by
    rw [List.perm_ext_iff_of_nodup hm hnd2]
    intro x
    rw [← lookup_isSome_iff_mem_keys, hmem, List.mem_append]
  unfold rowSignals
  exact List.eq_of_perm_of_sorted
    (((List.perm_insertionSort _ _).trans hperm).trans (List.perm_insertionSort _ _).symm)
    (List.sorted_insertionSort _ _) (List.sorted_insertionSort _ _)

/-- On an acyclic graph with admissible arities and distinct keys, the row of
an assignment given by its bits is evaluated and lists the value of every
signal in ascending order of the ids. -/
theorem evalRow_spec (g : graph) (hac : Acyclic g) (har : Arity g)
    (hnd : (graphKeys g).Nodup) (fuel : Nat) (hfuel : g.length < fuel) (bits : List Bool)
    (hlen : bits.length = (findInputSignals g).length) :
    populateValuation g fuel (getNonInputSignals g) (bitsAssignment g bits) =
        some (bitsValuation g fuel bits) ∧
      Extends (bitsAssignment g bits) (bitsValuation g fuel bits) ∧
      (∀ x, ((bitsValuation g fuel bits).lookup x).isSome = true ↔
        x ∈ findInputSignals g ∨ x ∈ graphKeys g) ∧
      (∀ s, graphContains g s = true → Solved g (bitsValuation g fuel bits) s) ∧
      (∀ w, IsSolution g w → Agrees w (bitsAssignment g bits) →
        Agrees w (bitsValuation g fuel bits)) ∧
      evalRow g fuel (sortedInputs g) bits = some ((rowSignals g).map
        (fun s => boolChar (valueOf (bitsValuation g fuel bits) s))) := by
  obtain ⟨m, he, h1, h2, h3, h4⟩ := populateValuation_solves g hac har fuel hfuel
    (getNonInputSignals g) (bitsAssignment g bits) (mem_getNonInputSignals g)
    (bitsAssignment_isSome g bits hlen)
  have hv : bitsValuation g fuel bits = m := by simp [bitsValuation, he]
  rw [hv]
  refine ⟨he, h1, h2, h3, h4, ?_⟩
  have he2 : populateValuation g fuel (getNonInputSignals g)
      (bindInputs (sortedInputs g) bits []) = some m := he
  unfold evalRow
  rw [he2]
  simp only
  rw [printValuation_eq_map, sorted_keys_eq_rowSignals g hnd _ ?_ h2]
  exact populateValuation_nodupKeys g fuel _ _ _ he
    (bindInputs_nodupKeys _ _ _ List.nodup_nil)

/-- On an acyclic graph with admissible arities, distinct keys and fewer than
64 primary inputs, the table is written: row `i` is the row of the big-endian
bits of `i`. -/
theorem printTruthTable_spec (g : graph) (hac : Acyclic g) (har : Arity g)
    (hnd : (graphKeys g).Nodup) (fuel : Nat) (hfuel : g.length < fuel)
    (hk : (findInputSignals g).length < 64) :
    printTruthTable g fuel = some ((List.range (2 ^ (findInputSignals g).length)).map
      (fun i => (rowSignals g).map (fun s => boolChar (valueOf (rowValuation g fuel i) s)))) := by
  unfold printTruthTable
  simp only
  rw [← bigEndianBits_zero, printRows_eq_rowsSpec g fuel _ hk _ 0 0 (by omega) (le_refl _),
    rowsSpec_eq_map g fuel _ _
      (fun i => (rowSignals g).map (fun s => boolChar (valueOf (rowValuation g fuel i) s)))]
  · simp
  · intro d _
    exact (evalRow_spec g hac har hnd fuel hfuel _ (length_bigEndianBits _ _)).2.2.2.2.2

theorem rowsSpec_getElem (g : graph) (fuel : Nat) (keys : List Int) (n : Nat) :
    ∀ (count i : Nat) (rows : List (List Char)), rowsSpec g fuel keys n count i = some rows →
      rows.length = count ∧
        ∀ d, d < count → rows[d]? = evalRow g fuel keys (bigEndianBits n (i + d)) := by
  intro count
  induction count with
  | zero =>
    intro i rows h
    simp [rowsSpec] at h
    subst h
    exact ⟨rfl, fun d hd => by omega⟩
  | succ count ih =>
    intro i rows h
    unfold rowsSpec at h
    cases h1 : evalRow g fuel keys (bigEndianBits n i) with
    | none => simp [h1] at h
    | some row =>
      simp only [h1] at h
      cases h2 : rowsSpec g fuel keys n count (i + 1) with
      | none => simp [h2] at h
      | some rest =>
        simp only [h2, Option.some.injEq] at h
        subst h
        obtain ⟨hlen, hget⟩ := ih (i + 1) rest h2
        refine ⟨by simp [hlen], ?_⟩
        intro d hd
        cases d with
        | zero => simpa using h1.symm
        | succ d =>
          rw [List.getElem?_cons_succ, hget d (by omega)]
          congr 2
          omega

theorem rowBitset_eq (n : Nat) (hn : n < 2 ^ 64) :
    ∀ i, i < 2 ^ n → i < 2 ^ 64 → rowBitset n i = some (bigEndianBits n i) := by
  intro i
  induction i with
  | zero =>
    intro h h64
    unfold rowBitset
    rw [← bigEndianBits_zero]
    exact toBinary_bigEndianBits_word hn h64 h (le_refl _)
  | succ i ih =>
    intro h h64
    unfold rowBitset
    rw [ih (by omega) (by omega)]
    exact toBinary_bigEndianBits_word hn h64 h (Nat.le_succ i)

theorem sortedInputs_sorted (g : graph) : List.Sorted (fun a b => a < b) (sortedInputs g) := by
  apply List.Sorted.lt_of_le (List.sorted_insertionSort _ _)
  exact (List.perm_insertionSort _ _).nodup_iff.mpr (nodup_findInputSignals g)

theorem sortedInputs_nodup (g : graph) : (sortedInputs g).Nodup :=
  (List.perm_insertionSort _ _).nodup_iff.mpr (nodup_findInputSignals g)

theorem rowAssignment_getElem (g : graph) (i j : Nat) (hj : j < (sortedInputs g).length) :
    (rowAssignment g i).lookup (sortedInputs g)[j] =
      some (i.testBit ((findInputSignals g).length - 1 - j)) := by
  unfold rowAssignment bitsAssignment
  have hlen : (sortedInputs g).length = (bigEndianBits (findInputSignals g).length i).length := by
    rw [length_sortedInputs, length_bigEndianBits]
  have hj2 : j < (findInputSignals g).length := by
    rw [← length_sortedInputs]; exact hj
  rw [bindInputs_getElem (sortedInputs g) (bigEndianBits (findInputSignals g).length i) []
    (sortedInputs_nodup g) hlen (fun _ _ => by simp [List.lookup]) j hj,
    getElem?_bigEndianBits, if_pos hj2]

theorem parseLine_nodupKeys {st : ParseState} (line : List Char)
    (h : (graphKeys st.g).Nodup) : (graphKeys (parseLine st line).g).Nodup := by
  rcases parseLine_graph st line with hg | ⟨curOutSig, parents, count, hg, _, _, _, hdup⟩
  · rw [hg]; exact h
  · rw [hg]
    unfold graphKeys at h ⊢
    rw [List.map_append, List.nodup_append]
    refine ⟨h, by simp, ?_⟩
    intro x hx hx2
    simp only [List.map_cons, List.map_nil, List.mem_singleton] at hx2
    subst hx2
    have := (graphContains_iff_mem_keys st.g x).mpr hx
    rw [hdup] at this
    cases this

theorem parseInput_nodupKeys (text : List Char) : (graphKeys (parseInput text).g).Nodup :=
  foldl_parseLine_inv (fun st => (graphKeys st.g).Nodup)
    (fun _ line h => parseLine_nodupKeys line h) _ _ List.nodup_nil

theorem mem_rowSignals (g : graph) (x : Int) :
    x ∈ rowSignals g ↔ x ∈ findInputSignals g ∨ x ∈ graphKeys g := by
  unfold rowSignals
  rw [(List.perm_insertionSort _ _).mem_iff, List.mem_append]

theorem length_rowSignals (g : graph) :
    (rowSignals g).length = (findInputSignals g).length + (graphKeys g).length := by
  unfold rowSignals
  rw [List.length_insertionSort, List.length_append]

theorem rowSignals_sorted (g : graph) (hnd : (graphKeys g).Nodup) :
    List.Sorted (fun a b => a < b) (rowSignals g) := by
  apply List.Sorted.lt_of_le (List.sorted_insertionSort _ _)
  apply (List.perm_insertionSort _ _).nodup_iff.mpr
  rw [List.nodup_append]
  exact ⟨nodup_findInputSignals g, hnd, fun x hx hk => ((mem_findInputSignals g x).mp hx).2 hk⟩

theorem boolChar_cases (b : Bool) : boolChar b = '0' ∨ boolChar b = '1' := by
  cases b
  · exact Or.inl rfl
  · exact Or.inr rfl

theorem printTruthTable_eq_rowsSpec (g : graph) (fuel : Nat)
    (hk : (findInputSignals g).length < 64) :
    printTruthTable g fuel = rowsSpec g fuel (sortedInputs g) (findInputSignals g).length
      (2 ^ (findInputSignals g).length) 0 := by
  unfold printTruthTable
  simp only
  rw [← bigEndianBits_zero]
  exact printRows_eq_rowsSpec g fuel _ hk _ 0 0 (by omega) (le_refl _)

theorem getElem?_range_map {α : Type} (f : Nat → α) {n i : Nat} (hi : i < n) :
    ((List.range n).map f)[i]? = some (f i) := by
  rw [List.getElem?_map, List.getElem?_range hi]
  rfl

/-- C3 (amended). For every acyclic circuit built by the parser, the row
written for an assignment of the primary inputs has exactly one `0`/`1`
character per signal of the circuit: its length is the number of primary inputs
plus the number of keys of the graph, so primary inputs do get a column. With
fewer than 64 primary inputs the table is written and all its rows are so. -/
theorem printed_row_length_inputs_plus_gates (text : List Char) (fuel : Nat)
    (hac : Acyclic (parseInput text).g)
    (hfuel : (parseInput text).g.length < fuel) :
    (∀ bits : List Bool, bits.length = (findInputSignals (parseInput text).g).length →
      ∃ row, evalRow (parseInput text).g fuel (sortedInputs (parseInput text).g) bits =
          some row ∧
        row.length = (findInputSignals (parseInput text).g).length +
          (graphKeys (parseInput text).g).length ∧
        ∀ c ∈ row, c = '0' ∨ c = '1') ∧
    ((findInputSignals (parseInput text).g).length < 64 →
      ∃ rows, printTruthTable (parseInput text).g fuel = some rows ∧
        ∀ row ∈ rows,
          row.length = (findInputSignals (parseInput text).g).length +
            (graphKeys (parseInput text).g).length ∧
          ∀ c ∈ row, c = '0' ∨ c = '1') := by
  have hchars : ∀ (f : Int → Bool) (c : Char),
      c ∈ (rowSignals (parseInput text).g).map (fun s => boolChar (f s)) →
        c = '0' ∨ c = '1' := by
    intro f c hc
    obtain ⟨s, _, rfl⟩ := List.mem_map.mp hc
    exact boolChar_cases _
  constructor
  · intro bits hlen
    obtain ⟨_, _, _, _, _, h⟩ := evalRow_spec (parseInput text).g hac
      (arity_of_entryArity (parseInput_entryArity text)) (parseInput_nodupKeys text) fuel hfuel
      bits hlen
    exact ⟨_, h, by rw [List.length_map, length_rowSignals], hchars _⟩
  · intro hk
    refine ⟨_, printTruthTable_spec (parseInput text).g hac
      (arity_of_entryArity (parseInput_entryArity text)) (parseInput_nodupKeys text) fuel hfuel
      hk, ?_⟩
    intro row hrow
    obtain ⟨i, _, rfl⟩ := List.mem_map.mp hrow
    exact ⟨by rw [List.length_map, length_rowSignals], hchars _⟩

/-- Witness for C3 (amended): the circuit `AND 3 1 2`, `NOT 4 3`, whose rows
have four characters. -/
theorem printed_row_length_inputs_plus_gates_witness :
    ∃ rows, printTruthTable (parseInput "AND 3 1 2\nNOT 4 3".toList).g 3 = some rows ∧
      ∀ row ∈ rows,
        row.length = (findInputSignals (parseInput "AND 3 1 2\nNOT 4 3".toList).g).length +
          (graphKeys (parseInput "AND 3 1 2\nNOT 4 3".toList).g).length ∧
        ∀ c ∈ row, c = '0' ∨ c = '1' :=
  (printed_row_length_inputs_plus_gates "AND 3 1 2\nNOT 4 3".toList 3
    (acyclic_of_hasCycle _ 3 (by decide) (by decide)) (by decide)).2 (by decide)

/-- Counterexample to C3 as stated: for the input `AND 3 1 2` the graph has one
key, and the rows written have three characters. -/
theorem printed_row_length_not_gate_count :
    printTruthTable (parseInput "AND 3 1 2".toList).g 2 =
      some ["000".toList, "010".toList, "100".toList, "111".toList] ∧
    (graphKeys (parseInput "AND 3 1 2".toList).g).length = 1 ∧
    ∃ rows, printTruthTable (parseInput "AND 3 1 2".toList).g 2 = some rows ∧
      ∃ row ∈ rows, row.length ≠ (graphKeys (parseInput "AND 3 1 2".toList).g).length :=
  ⟨by decide, by decide,
    ["000".toList, "010".toList, "100".toList, "111".toList], by decide, "000".toList,
    by decide, by decide⟩

/-- C4. For every acyclic circuit built by the parser and every assignment of
the primary inputs, the row written lists the value of every signal of the
circuit, primary inputs as well as gate outputs: one character for each id
that is a primary input or a key of the graph, in ascending order of the ids,
taken from the valuation computed for that assignment, which keeps the values
of the assignment. With fewer than 64 primary inputs, row `i` of the table is
the row of the assignment of counter value `i`. -/
theorem printed_row_has_every_signal (text : List Char) (fuel : Nat)
    (hac : Acyclic (parseInput text).g)
    (hfuel : (parseInput text).g.length < fuel) :
    (∀ x, x ∈ rowSignals (parseInput text).g ↔
      x ∈ findInputSignals (parseInput text).g ∨ x ∈ graphKeys (parseInput text).g) ∧
    (rowSignals (parseInput text).g).Nodup ∧
    (∀ bits : List Bool, bits.length = (findInputSignals (parseInput text).g).length →
      populateValuation (parseInput text).g fuel (getNonInputSignals (parseInput text).g)
          (bitsAssignment (parseInput text).g bits) =
        some (bitsValuation (parseInput text).g fuel bits) ∧
      evalRow (parseInput text).g fuel (sortedInputs (parseInput text).g) bits =
        some ((rowSignals (parseInput text).g).map
          (fun s => boolChar (valueOf (bitsValuation (parseInput text).g fuel bits) s))) ∧
      (∀ s ∈ rowSignals (parseInput text).g,
        ((bitsValuation (parseInput text).g fuel bits).lookup s).isSome = true) ∧
      (∀ s b, (bitsAssignment (parseInput text).g bits).lookup s = some b →
        (bitsValuation (parseInput text).g fuel bits).lookup s = some b)) ∧
    ((findInputSignals (parseInput text).g).length < 64 →
      ∃ rows, printTruthTable (parseInput text).g fuel = some rows ∧
        ∀ i, i < 2 ^ (findInputSignals (parseInput text).g).length →
          rows[i]? = evalRow (parseInput text).g fuel (sortedInputs (parseInput text).g)
            (bigEndianBits (findInputSignals (parseInput text).g).length i)) := by
  refine ⟨mem_rowSignals _, (rowSignals_sorted _ (parseInput_nodupKeys text)).nodup, ?_, ?_⟩
  · intro bits hlen
    obtain ⟨he, hext, hb, _, _, hrow⟩ := evalRow_spec (parseInput text).g hac
      (arity_of_entryArity (parseInput_entryArity text)) (parseInput_nodupKeys text) fuel hfuel
      bits hlen
    exact ⟨he, hrow, fun s hs => (hb s).mpr ((mem_rowSignals _ s).mp hs), hext⟩
  · intro hk
    refine ⟨_, printTruthTable_spec (parseInput text).g hac
      (arity_of_entryArity (parseInput_entryArity text)) (parseInput_nodupKeys text) fuel hfuel
      hk, ?_⟩
    intro i hi
    rw [getElem?_range_map _ hi]
    exact (evalRow_spec (parseInput text).g hac
      (arity_of_entryArity (parseInput_entryArity text)) (parseInput_nodupKeys text) fuel hfuel
      _ (length_bigEndianBits _ _)).2.2.2.2.2.symm

/-- Witness for C4: the circuit `AND 3 1 2`, `NOT 4 3` under the assignment
`1 ↦ true`, `2 ↦ false` gives the row `1001`. -/
theorem printed_row_has_every_signal_witness :
    evalRow (parseInput "AND 3 1 2\nNOT 4 3".toList).g 3
        (sortedInputs (parseInput "AND 3 1 2\nNOT 4 3".toList).g) [true, false] =
      some ((rowSignals (parseInput "AND 3 1 2\nNOT 4 3".toList).g).map
        (fun s => boolChar
          (valueOf (bitsValuation (parseInput "AND 3 1 2\nNOT 4 3".toList).g 3 [true, false])
            s))) ∧
    evalRow (parseInput "AND 3 1 2\nNOT 4 3".toList).g 3
        (sortedInputs (parseInput "AND 3 1 2\nNOT 4 3".toList).g) [true, false] =
      some "1001".toList :=
  ⟨((printed_row_has_every_signal "AND 3 1 2\nNOT 4 3".toList 3
      (acyclic_of_hasCycle _ 3 (by decide) (by decide)) (by decide)).2.2.1
        [true, false] (by decide)).2.1,
    by decide⟩

/-- C5. For every acyclic circuit built by the parser with `k < 64` primary
inputs, `printTruthTable` writes exactly `2 ^ k` rows, and the row at index `i`
is the row evaluated for the counter value `i`: the rows come one per counter
value `0 .. 2 ^ k - 1`, in ascending order. -/
theorem printTruthTable_emits_two_pow_rows (text : List Char) (fuel : Nat)
    (hac : Acyclic (parseInput text).g)
    (hfuel : (parseInput text).g.length < fuel)
    (hk : (findInputSignals (parseInput text).g).length < 64) :
    ∃ rows, printTruthTable (parseInput text).g fuel = some rows ∧
      rows.length = 2 ^ (findInputSignals (parseInput text).g).length ∧
      ∀ i, i < 2 ^ (findInputSignals (parseInput text).g).length →
        ∃ row, rows[i]? = some row ∧
          evalRow (parseInput text).g fuel (sortedInputs (parseInput text).g)
            (bigEndianBits (findInputSignals (parseInput text).g).length i) = some row := by
  have h1 := printTruthTable_spec (parseInput text).g hac
    (arity_of_entryArity (parseInput_entryArity text)) (parseInput_nodupKeys text) fuel hfuel hk
  have h2 := printTruthTable_eq_rowsSpec (parseInput text).g fuel hk
  rw [h1] at h2
  obtain ⟨hlen, hget⟩ := rowsSpec_getElem _ _ _ _ _ _ _ h2.symm
  refine ⟨_, h1, hlen, ?_⟩
  intro i hi
  refine ⟨_, getElem?_range_map _ hi, ?_⟩
  have := hget i hi
  rw [getElem?_range_map _ hi, Nat.zero_add] at this
  exact this.symm

/-- Witness for C5: the circuit `AND 3 1 2`, `NOT 4 3` has four rows. -/
theorem printTruthTable_emits_two_pow_rows_witness :
    ∃ rows, printTruthTable (parseInput "AND 3 1 2\nNOT 4 3".toList).g 3 = some rows ∧
      rows.length = 2 ^ (findInputSignals (parseInput "AND 3 1 2\nNOT 4 3".toList).g).length ∧
      ∀ i, i < 2 ^ (findInputSignals (parseInput "AND 3 1 2\nNOT 4 3".toList).g).length →
        ∃ row, rows[i]? = some row ∧
          evalRow (parseInput "AND 3 1 2\nNOT 4 3".toList).g 3
            (sortedInputs (parseInput "AND 3 1 2\nNOT 4 3".toList).g)
            (bigEndianBits (findInputSignals (parseInput "AND 3 1 2\nNOT 4 3".toList).g).length i)
              = some row :=
  printTruthTable_emits_two_pow_rows "AND 3 1 2\nNOT 4 3".toList 3
    (acyclic_of_hasCycle _ 3 (by decide) (by decide)) (by decide) (by decide)

/-- C6. For every graph with `k` primary inputs and every row index
`i < 2 ^ k` (with `k` and `i` values of the 64-bit `size_t`): the bitset that
the loop of `printTruthTable` reuses from row to row, starting from all zeros,
holds at row `i` the `k`-bit big-endian representation of `i`, and the
assignment built from it binds the `j`-th smallest primary input to bit
`k - 1 - j` of `i`. When `2 ^ k` fits the counter, the rows written are those
evaluated from these representations. -/
theorem row_assignment_is_big_endian (g : graph) (fuel : Nat) (i : Nat)
    (hk : (findInputSignals g).length < 2 ^ 64) (hi : i < 2 ^ (findInputSignals g).length)
    (hi64 : i < 2 ^ 64) :
    rowBitset (findInputSignals g).length i =
      some (bigEndianBits (findInputSignals g).length i) ∧
    List.Sorted (fun a b => a < b) (sortedInputs g) ∧
    (sortedInputs g).Perm (findInputSignals g) ∧
    (∀ j (hj : j < (sortedInputs g).length),
      (bindInputs (sortedInputs g) (bigEndianBits (findInputSignals g).length i) []).lookup
        ((sortedInputs g).get ⟨j, hj⟩) =
          some (i.testBit ((findInputSignals g).length - 1 - j))) ∧
    ((findInputSignals g).length < 64 →
      printTruthTable g fuel = rowsSpec g fuel (sortedInputs g) (findInputSignals g).length
        (2 ^ (findInputSignals g).length) 0) :=
  ⟨rowBitset_eq _ hk i hi hi64, sortedInputs_sorted g, List.perm_insertionSort _ _,
    fun j hj => rowAssignment_getElem g i j hj,
    fun h => printTruthTable_eq_rowsSpec g fuel h⟩

/-- Witness for C6: row 2 of the graph of `AND 3 1 2` binds input 1 to `true`
and input 2 to `false`. -/
theorem row_assignment_is_big_endian_witness :
    rowBitset (findInputSignals [(3, (Gate.AND, [2, 1]))]).length 2 =
      some (bigEndianBits (findInputSignals [(3, (Gate.AND, [2, 1]))]).length 2) ∧
    bigEndianBits (findInputSignals [(3, (Gate.AND, [2, 1]))]).length 2 = [true, false] ∧
    sortedInputs [(3, (Gate.AND, [2, 1]))] = [1, 2] :=
  ⟨(row_assignment_is_big_endian [(3, (Gate.AND, [2, 1]))] 2 2 (by decide) (by decide)
      (by decide)).1,
    by decide, by decide⟩

/-! ### Circuits of a single gate -/

theorem lookup_single {out s : Int} {e entry : Gate × List Int}
    (h : List.lookup s [(out, e)] = some entry) : s = out ∧ entry = e := by
  by_cases hs : s = out
  · subst hs
    simp [List.lookup] at h
    exact ⟨rfl, h.symm⟩
  · have hb : (s == out) = false := by simpa using hs
    simp [List.lookup, hb] at h

theorem acyclic_single {out : Int} {kind : Gate} {ps : List Int} (hout : out ∉ ps) :
    Acyclic [(out, (kind, ps))] := by
  rintro ⟨s, hcyc⟩
  obtain ⟨p, ⟨e, he, hp⟩, hrest⟩ := Relation.TransGen.head'_iff.mp hcyc
  obtain ⟨rfl, rfl⟩ := lookup_single he
  rcases Relation.reflTransGen_iff_eq_or_transGen.mp hrest with h | h
  · rw [← h] at hp
    exact hout hp
  · have hkey := transGen_isKey h
    obtain ⟨e2, he2⟩ := Option.isSome_iff_exists.mp hkey
    obtain ⟨rfl, _⟩ := lookup_single he2
    exact hout hp

theorem mem_findInputSignals_single {out : Int} {kind : Gate} {ps : List Int}
    (hout : out ∉ ps) (x : Int) : x ∈ findInputSignals [(out, (kind, ps))] ↔ x ∈ ps := by
  rw [mem_findInputSignals]
  simp only [List.mem_singleton, exists_eq_left, graphKeys, List.map_cons, List.map_nil]
  constructor
  · exact fun h => h.1
  · intro h
    exact ⟨h, fun hx => hout (hx ▸ h)⟩

theorem length_findInputSignals_single {out : Int} (kind : Gate) {ps : List Int}
    (hout : out ∉ ps) (hnd : ps.Nodup) :
    (findInputSignals [(out, (kind, ps))]).length = ps.length :=
  ((List.perm_ext_iff_of_nodup (nodup_findInputSignals _) hnd).mpr
    (mem_findInputSignals_single hout)).length_eq

theorem lookupAll_eq_map_valueOf {m : Valuation} {ps : List Int} {bs : List Bool}
    (h : lookupAll m ps = some bs) : bs = ps.map (valueOf m) :=
  lookupAll_agrees (w := valueOf m) (fun s b hs => by simp [valueOf, hs]) h

theorem single_gate_row (out : Int) (kind : Gate) (ps : List Int) (fuel : Nat)
    (hout : out ∉ ps) (hnd : ps.Nodup) (har : arityOK kind ps.length) (hfuel : 1 < fuel)
    (bits : List Bool) (hlen : bits.length = ps.length) :
    evalRow [(out, (kind, ps))] fuel (sortedInputs [(out, (kind, ps))]) bits =
      some ((rowSignals [(out, (kind, ps))]).map (fun s => boolChar
        (if s = out then
          gateReference kind (ps.map (valueOf (bitsAssignment [(out, (kind, ps))] bits)))
        else valueOf (bitsAssignment [(out, (kind, ps))] bits) s))) := by
  have hk := length_findInputSignals_single kind hout hnd
  have harity : Arity [(out, (kind, ps))] := by
    intro s entry he
    obtain ⟨_, rfl⟩ := lookup_single he
    exact har
  obtain ⟨_, hext, _, hsolved, _, hrow⟩ := evalRow_spec [(out, (kind, ps))]
    (acyclic_single hout) harity (by simp [graphKeys]) fuel (by simpa using hfuel) bits
    (by rw [hk]; exact hlen)
  rw [hrow]
  congr 1
  have hin : ∀ p ∈ ps, valueOf (bitsValuation [(out, (kind, ps))] fuel bits) p =
      valueOf (bitsAssignment [(out, (kind, ps))] bits) p := by
    intro p hp
    obtain ⟨b, hb⟩ := Option.isSome_iff_exists.mp
      ((bitsAssignment_isSome [(out, (kind, ps))] bits (by rw [hk]; exact hlen) p).mpr
        ((mem_findInputSignals_single hout p).mpr hp))
    simp [valueOf, hb, hext p b hb]
  apply List.map_congr_left
  intro s hs
  congr 1
  by_cases hso : s = out
  · subst hso
    rw [if_pos rfl]
    obtain ⟨vals, hv1, hv2⟩ := hsolved s (by simp [graphContains, List.lookup])
      (kind, ps) (by simp [List.lookup])
    simp only [valueOf, hv2, Option.getD_some]
    rw [lookupAll_eq_map_valueOf hv1]
    congr 1
    exact List.map_congr_left hin
  · rw [if_neg hso]
    rcases (mem_rowSignals _ s).mp hs with h | h
    · exact hin s ((mem_findInputSignals_single hout s).mp h)
    · simp [graphKeys] at h
      exact absurd h hso

/-- C7 (amended). For every circuit of a single gate whose inputs are all
primary inputs (the output id is not among them) and every assignment, the row
has one character per signal, the inputs and the gate output, in ascending
order of the ids: the character of the gate output is the gate function
applied to the values the assignment gives to the inputs, the characters of
the inputs are the assignment itself. With fewer than 64 inputs the table is
the list of these rows for the counter values `0 .. 2 ^ k - 1`. -/
theorem single_gate_rows (out : Int) (kind : Gate) (ps : List Int) (fuel : Nat)
    (hout : out ∉ ps) (hnd : ps.Nodup) (har : arityOK kind ps.length) (hfuel : 1 < fuel) :
    (rowSignals [(out, (kind, ps))]).length = ps.length + 1 ∧
    (∀ x, x ∈ rowSignals [(out, (kind, ps))] ↔ x = out ∨ x ∈ ps) ∧
    (∀ bits : List Bool, bits.length = ps.length →
      evalRow [(out, (kind, ps))] fuel (sortedInputs [(out, (kind, ps))]) bits =
        some ((rowSignals [(out, (kind, ps))]).map (fun s => boolChar
          (if s = out then
            gateReference kind (ps.map (valueOf (bitsAssignment [(out, (kind, ps))] bits)))
          else valueOf (bitsAssignment [(out, (kind, ps))] bits) s)))) ∧
    (ps.length < 64 →
      printTruthTable [(out, (kind, ps))] fuel =
        some ((List.range (2 ^ ps.length)).map (fun i =>
          (rowSignals [(out, (kind, ps))]).map (fun s => boolChar
            (if s = out then
              gateReference kind (ps.map (valueOf (rowAssignment [(out, (kind, ps))] i)))
            else valueOf (rowAssignment [(out, (kind, ps))] i) s))))) := by
  have hlen := length_findInputSignals_single kind hout hnd
  have hmem : ∀ x, x ∈ rowSignals [(out, (kind, ps))] ↔ x = out ∨ x ∈ ps := by
    intro x
    rw [mem_rowSignals, mem_findInputSignals_single hout]
    simp [graphKeys, or_comm]
  refine ⟨by rw [length_rowSignals, hlen]; simp [graphKeys], hmem,
    fun bits hb => single_gate_row out kind ps fuel hout hnd har hfuel bits hb, ?_⟩
  intro hk
  have h2 := printTruthTable_eq_rowsSpec [(out, (kind, ps))] fuel (by rw [hlen]; exact hk)
  rw [h2, rowsSpec_eq_map _ _ _ _ (fun i =>
    (rowSignals [(out, (kind, ps))]).map (fun s => boolChar
      (if s = out then
        gateReference kind (ps.map (valueOf (rowAssignment [(out, (kind, ps))] i)))
      else valueOf (rowAssignment [(out, (kind, ps))] i) s)))]
  · simp [hlen]
  · intro d _
    exact single_gate_row out kind ps fuel hout hnd har hfuel _
      (by rw [length_bigEndianBits, hlen])

/-- Witness for C7 (amended): the input `AND 3 1 2` yields the rows `000`,
`010`, `100`, `111` and the input `NOT 2 1` yields the rows `01`, `10`. -/
theorem single_gate_rows_witness :
    printTruthTable (parseInput "AND 3 1 2".toList).g 2 =
      some ["000".toList, "010".toList, "100".toList, "111".toList] ∧
    printTruthTable (parseInput "NOT 2 1".toList).g 2 = some ["01".toList, "10".toList] :=
  ⟨((single_gate_rows 3 Gate.AND [2, 1] 2 (by decide) (by decide) (by simp [arityOK])
      (by decide)).2.2.2 (by decide)).trans (by decide),
    ((single_gate_rows 2 Gate.NOT [1] 2 (by decide) (by decide) (by simp [arityOK])
      (by decide)).2.2.2 (by decide)).trans (by decide)⟩

/-- Counterexample to C7 as stated: for the input `AND 3 1 2` the rows are not
the single characters `0`, `0`, `0`, `1`, and for `NOT 2 1` they are not `1`,
`0`: each row also carries the characters of the primary inputs. -/
theorem single_gate_rows_not_one_character :
    printTruthTable (parseInput "AND 3 1 2".toList).g 2 ≠
      some ["0".toList, "0".toList, "0".toList, "1".toList] ∧
    printTruthTable (parseInput "NOT 2 1".toList).g 2 ≠ some ["1".toList, "0".toList] ∧
    (∃ rows, printTruthTable (parseInput "AND 3 1 2".toList).g 2 = some rows ∧
      ∃ row ∈ rows, row.length ≠ 1) :=
  ⟨by decide, by decide,
    ["000".toList, "010".toList, "100".toList, "111".toList], by decide, "000".toList,
    by decide, by decide⟩

/-! ### Line parser: input tokens and arity -/

theorem correctNumberOfSignals_iff (kind : Gate) (n : Nat) :
    correctNumberOfSignals kind n = true ↔ arityRule kind n := by
  cases kind <;> simp [correctNumberOfSignals, arityRule]

theorem readParents_passes (curGate : Gate) :
    ∀ (toks : List (List Char)) (parents : List Int) (count : Nat),
      ((readParents curGate toks parents count).1 = true ∧
          correctNumberOfSignals curGate (readParents curGate toks parents count).2.2 = true) ↔
        ((∀ t ∈ toks, (correctSignal t).isSome = true) ∧
          correctNumberOfSignals curGate (count + toks.length) = true) := by
  intro toks
  induction toks with
  | nil => intro parents count; simp [readParents]
  | cons tok rest ih =>
    intro parents count
    unfold readParents
    cases hc : correctSignal tok with
    | none => simp [hc]
    | some v =>
      simp only [List.mem_cons, forall_eq_or_imp, hc, Option.isSome_some, true_and,
        List.length_cons]
      split
      · rename_i hbreak
        simp only [true_and]
        rcases hbreak with ⟨hg, hcount⟩ | ⟨hg, hcount⟩
        · subst hg
          simp only [correctNumberOfSignals, beq_iff_eq]
          constructor
          · intro h; omega
          · rintro ⟨_, h⟩; omega
        · subst hg
          simp only [correctNumberOfSignals, beq_iff_eq]
          constructor
          · intro h; omega
          · rintro ⟨_, h⟩; omega
      · rw [ih]
        have e : count + 1 + rest.length = count + (rest.length + 1) := by omega
        rw [e]

/-- The three outcomes of a line whose gate name and output id are valid. -/
theorem parseLine_valid_head (st : ParseState) (line : List Char) (curOutSig : Int)
    (hname : correctGateName ((tokens line).headD []) = true)
    (hout : correctSignal ((tokens line).tail.headD []) = some curOutSig) :
    (¬ ((∀ t ∈ (tokens line).tail.tail, (correctSignal t).isSome = true) ∧
          arityRule (createGate ((tokens line).headD [])) (tokens line).tail.tail.length) ∧
        parseLine st line =
          rejectLine st (Diagnostic.errorInLine (st.lineCount + 1) line)) ∨
    (((∀ t ∈ (tokens line).tail.tail, (correctSignal t).isSome = true) ∧
          arityRule (createGate ((tokens line).headD [])) (tokens line).tail.tail.length) ∧
        graphContains st.g curOutSig = true ∧
        parseLine st line =
          rejectLine st (Diagnostic.multipleOutputs (st.lineCount + 1) curOutSig)) ∨
    (((∀ t ∈ (tokens line).tail.tail, (correctSignal t).isSome = true) ∧
          arityRule (createGate ((tokens line).headD [])) (tokens line).tail.tail.length) ∧
        graphContains st.g curOutSig = false ∧
        ∃ parents count,
          readParents (createGate ((tokens line).headD [])) (tokens line).tail.tail [] 0 =
            (true, parents, count) ∧
          parseLine st line =
            { g := st.g ++ [(curOutSig, (createGate ((tokens line).headD []), parents))],
              lineCount := st.lineCount + 1, correctInput := st.correctInput,
              cerr := st.cerr }) := by
  have hpass0 := readParents_passes (createGate ((tokens line).headD []))
    (tokens line).tail.tail [] 0
  rw [Nat.zero_add] at hpass0
  have hpass := hpass0.trans (and_congr Iff.rfl (correctNumberOfSignals_iff _ _))
  unfold parseLine
  simp only [hname, Bool.not_true, Bool.false_eq_true, if_false, hout]
  rcases hr : readParents (createGate ((tokens line).headD [])) (tokens line).tail.tail [] 0
    with ⟨ok, parents, count⟩
  rw [hr] at hpass
  cases ok with
  | false =>
    left
    refine ⟨fun h => ?_, rfl⟩
    have := (hpass.mpr h).1
    simp at this
  | true =>
    simp only
    by_cases hnum : correctNumberOfSignals (createGate ((tokens line).headD [])) count = true
    · have hrule := hpass.mp ⟨rfl, hnum⟩
      right
      simp only [hnum, Bool.not_true, Bool.false_eq_true, if_false]
      by_cases hdup : graphContains st.g curOutSig = true
      · left
        exact ⟨hrule, hdup, by simp [hdup]⟩
      · right
        have hdup2 : graphContains st.g curOutSig = false := by simpa using hdup
        exact ⟨hrule, hdup2, parents, count, rfl, by simp [hdup2]⟩
    · left
      refine ⟨fun h => hnum (hpass.mpr h).2, ?_⟩
      have hnum2 : correctNumberOfSignals (createGate ((tokens line).headD [])) count = false := by
        simpa using hnum
      simp only [hnum2, Bool.not_false, if_true]

theorem rejectLine_ne_of_ne (st : ParseState) {d1 d2 : Diagnostic} (h : d1 ≠ d2) :
    rejectLine st d1 ≠ rejectLine st d2 := by
  intro heq
  have h1 : (rejectLine st d1).cerr = (rejectLine st d2).cerr := by rw [heq]
  simp only [rejectLine, List.append_cancel_left_eq, List.cons.injEq, and_true] at h1
  exact h h1

theorem accepted_ne_rejectLine (st : ParseState) (e : Int × (Gate × List Int)) (d : Diagnostic) :
    ({ g := st.g ++ [e], lineCount := st.lineCount + 1, correctInput := st.correctInput,
        cerr := st.cerr } : ParseState) ≠ rejectLine st d := by
  intro heq
  have h1 := congrArg (fun x => x.g.length) heq
  simp [rejectLine] at h1

/-- C11. For every line whose gate name and output id are valid, the line
passes validation (it is not rejected with the line diagnostic; the duplicate
check comes after) iff every input token of the line is a valid identifier and
the number of input tokens satisfies the arity rule of the gate: exactly 1 for
NOT, exactly 2 for XOR, at least 2 for AND, NAND, OR and NOR. -/
theorem line_passes_iff_tokens_valid_and_arity (st : ParseState) (line : List Char)
    (curOutSig : Int)
    (hname : correctGateName ((tokens line).headD []) = true)
    (hout : correctSignal ((tokens line).tail.headD []) = some curOutSig) :
    parseLine st line ≠ rejectLine st (Diagnostic.errorInLine (st.lineCount + 1) line) ↔
      ((∀ t ∈ (tokens line).tail.tail, (correctSignal t).isSome = true) ∧
        arityRule (createGate ((tokens line).headD [])) (tokens line).tail.tail.length) := by
  rcases parseLine_valid_head st line curOutSig hname hout with
    ⟨hno, heq⟩ | ⟨hyes, _, heq⟩ | ⟨hyes, _, parents, count, _, heq⟩
  · rw [heq]
    exact ⟨fun h => absurd rfl h, fun h => absurd h hno⟩
  · rw [heq]
    exact ⟨fun _ => hyes, fun _ => rejectLine_ne_of_ne st (by simp)⟩
  · rw [heq]
    exact ⟨fun _ => hyes, fun _ => accepted_ne_rejectLine st _ _⟩

/-- Witness for C11: the line `XOR 5` has a valid gate name and output id and no
input token; it is rejected with the line diagnostic. -/
theorem line_passes_iff_tokens_valid_and_arity_witness :
    correctGateName ((tokens "XOR 5".toList).headD []) = true ∧
    correctSignal ((tokens "XOR 5".toList).tail.headD []) = some 5 ∧
    parseLine initialState "XOR 5".toList =
      rejectLine initialState (Diagnostic.errorInLine 1 "XOR 5".toList) :=
  ⟨by decide, by decide,
    Decidable.not_not.mp (fun hne =>
      absurd ((line_passes_iff_tokens_valid_and_arity initialState "XOR 5".toList 5
        (by decide) (by decide)).mp hne).2 (show ¬ ((0 : Nat) = 2) by decide))⟩

/-! ### Parser: diagnostics, flag and scan -/

/-- A line is either accepted, adding one entry and writing nothing, or
rejected, leaving the graph and writing one diagnostic with its line number. -/
theorem parseLine_outcome (st : ParseState) (line : List Char) :
    (∃ e, parseLine st line =
        { g := st.g ++ [e], lineCount := st.lineCount + 1, correctInput := st.correctInput,
          cerr := st.cerr }) ∨
    (∃ d, parseLine st line = rejectLine st d ∧ diagnosticLine d = st.lineCount + 1) := by
  unfold parseLine
  simp only
  split
  · exact Or.inr ⟨_, rfl, rfl⟩
  · split
    · exact Or.inr ⟨_, rfl, rfl⟩
    · split
      · exact Or.inr ⟨_, rfl, rfl⟩
      · split
        · exact Or.inr ⟨_, rfl, rfl⟩
        · split
          · exact Or.inr ⟨_, rfl, rfl⟩
          · exact Or.inl ⟨_, rfl⟩

theorem lineAccepted_true_iff (st : ParseState) (line : List Char) :
    lineAccepted st line = true ↔
      ∃ e, parseLine st line =
        { g := st.g ++ [e], lineCount := st.lineCount + 1, correctInput := st.correctInput,
          cerr := st.cerr } := by
  unfold lineAccepted
  rw [decide_eq_true_eq]
  rcases parseLine_outcome st line with ⟨e, he⟩ | ⟨d, hd, _⟩
  · rw [he]
    exact ⟨fun _ => ⟨e, rfl⟩, fun _ => by simp⟩
  · rw [hd]
    constructor
    · intro h
      simp [rejectLine] at h
    · rintro ⟨e, he⟩
      exact absurd he.symm (accepted_ne_rejectLine st e d)

theorem lineAccepted_false_iff (st : ParseState) (line : List Char) :
    lineAccepted st line = false ↔
      ∃ d, parseLine st line = rejectLine st d ∧ diagnosticLine d = st.lineCount + 1 := by
  constructor
  · intro h
    rcases parseLine_outcome st line with ⟨e, he⟩ | hr
    · have := (lineAccepted_true_iff st line).mpr ⟨e, he⟩
      rw [h] at this
      cases this
    · exact hr
  · rintro ⟨d, hd, _⟩
    cases hacc : lineAccepted st line with
    | false => rfl
    | true =>
      obtain ⟨e, he⟩ := (lineAccepted_true_iff st line).mp hacc
      rw [hd] at he
      exact absurd he.symm (accepted_ne_rejectLine st e d)

/-- What the scan of a list of lines does to a state whose line counter is
`idx - 1`. -/
theorem foldl_parseLine_trace :
    ∀ (lines : List (List Char)) (st : ParseState) (idx : Nat), idx = st.lineCount + 1 →
      (lines.foldl parseLine st).cerr.map diagnosticLine =
          st.cerr.map diagnosticLine ++ rejectedIndices idx st lines ∧
        (lines.foldl parseLine st).lineCount = st.lineCount + lines.length ∧
        (lines.foldl parseLine st).correctInput =
          (st.correctInput && (rejectedIndices idx st lines).isEmpty) ∧
        (lines.foldl parseLine st).g.length + (rejectedIndices idx st lines).length =
          st.g.length + lines.length := by
  intro lines
  induction lines with
  | nil =>
    intro st idx _
    simp [rejectedIndices]
  | cons line rest ih =>
    intro st idx hidx
    rw [List.foldl_cons]
    cases hacc : lineAccepted st line with
    | true =>
      obtain ⟨e, he⟩ := (lineAccepted_true_iff st line).mp hacc
      obtain ⟨h1, h2, h3, h4⟩ := ih (parseLine st line) (idx + 1) (by rw [he]; simp only []; omega)
      simp only [rejectedIndices, hacc, if_true]
      rw [h1, h2, h3, he]
      refine ⟨rfl, ?_, rfl, ?_⟩
      · simp only [List.length_cons]
        omega
      · rw [he] at h4
        simp only [List.length_append, List.length_cons, List.length_nil] at h4 ⊢
        omega
    | false =>
      obtain ⟨d, hd, hline⟩ := (lineAccepted_false_iff st line).mp hacc
      obtain ⟨h1, h2, h3, h4⟩ := ih (parseLine st line) (idx + 1) (by rw [hd, rejectLine]; simp only []; omega)
      simp only [rejectedIndices, hacc, Bool.false_eq_true, if_false]
      rw [h1, h2, h3, hd]
      refine ⟨?_, ?_, ?_, ?_⟩
      · simp only [rejectLine, List.map_append, List.map_cons, List.map_nil, hline, ← hidx,
          List.append_assoc, List.singleton_append]
      · simp only [rejectLine, List.length_cons]
        omega
      · simp [rejectLine]
      · rw [hd] at h4
        simp only [rejectLine, List.length_cons] at h4 ⊢
        omega

theorem rejectedIndices_bounds :
    ∀ (lines : List (List Char)) (st : ParseState) (idx : Nat),
      ∀ x ∈ rejectedIndices idx st lines, idx ≤ x ∧ x < idx + lines.length := by
  intro lines
  induction lines with
  | nil => intro st idx x hx; simp [rejectedIndices] at hx
  | cons line rest ih =>
    intro st idx x hx
    unfold rejectedIndices at hx
    simp only [List.length_cons]
    split at hx
    · have := ih _ _ x hx
      omega
    · rcases List.mem_cons.mp hx with rfl | hx
      · omega
      · have := ih _ _ x hx
        omega

theorem rejectedIndices_sorted :
    ∀ (lines : List (List Char)) (st : ParseState) (idx : Nat),
      List.Sorted (fun a b => a < b) (rejectedIndices idx st lines) := by
  intro lines
  induction lines with
  | nil => intro st idx; simp [rejectedIndices]
  | cons line rest ih =>
    intro st idx
    unfold rejectedIndices
    split
    · exact ih _ _
    · refine List.sorted_cons.mpr ⟨?_, ih _ _⟩
      intro x hx
      have := (rejectedIndices_bounds rest _ _ x hx).1
      omega

/-- C12. For every input text, `parseInput` writes exactly one diagnostic for
each rejected line and none for an accepted line, and each diagnostic carries
the 1-based index of its line: the line numbers of the diagnostics, in the
order written, are the indices of the rejected lines, in ascending order, so
there are as many diagnostics as rejected lines. -/
theorem diagnostics_are_rejected_lines (text : List Char) :
    (parseInput text).cerr.map diagnosticLine =
      rejectedIndices 1 initialState (getlines text) ∧
    (parseInput text).cerr.length = (rejectedIndices 1 initialState (getlines text)).length ∧
    List.Sorted (fun a b => a < b) ((parseInput text).cerr.map diagnosticLine) ∧
    (∀ x ∈ (parseInput text).cerr.map diagnosticLine, 1 ≤ x ∧ x ≤ (getlines text).length) ∧
    (∀ st line, lineAccepted st line = true → (parseLine st line).cerr = st.cerr) ∧
    (∀ st line, lineAccepted st line = false →
      ∃ d, (parseLine st line).cerr = st.cerr ++ [d] ∧ diagnosticLine d = st.lineCount + 1) := by
  have h := (foldl_parseLine_trace (getlines text) initialState 1 rfl).1
  have hmap : (parseInput text).cerr.map diagnosticLine =
      rejectedIndices 1 initialState (getlines text) := by
    simpa [parseInput, initialState] using h
  refine ⟨hmap, ?_, ?_, ?_, ?_, ?_⟩
  · rw [← hmap, List.length_map]
  · rw [hmap]
    exact rejectedIndices_sorted _ _ _
  · rw [hmap]
    intro x hx
    have := rejectedIndices_bounds _ _ _ x hx
    omega
  · intro st line hacc
    obtain ⟨e, he⟩ := (lineAccepted_true_iff st line).mp hacc
    rw [he]
  · intro st line hacc
    obtain ⟨d, hd, hline⟩ := (lineAccepted_false_iff st line).mp hacc
    exact ⟨d, by rw [hd]; rfl, hline⟩

theorem parseLine_grows (st : ParseState) (line : List Char) :
    ∃ tg tc, (parseLine st line).g = st.g ++ tg ∧ (parseLine st line).cerr = st.cerr ++ tc := by
  rcases parseLine_outcome st line with ⟨e, he⟩ | ⟨d, hd, _⟩
  · exact ⟨[e], [], by rw [he], by rw [he]; simp⟩
  · exact ⟨[], [d], by rw [hd]; simp [rejectLine], by rw [hd]; rfl⟩

theorem foldl_parseLine_grows :
    ∀ (lines : List (List Char)) (st : ParseState),
      ∃ tg tc, (lines.foldl parseLine st).g = st.g ++ tg ∧
        (lines.foldl parseLine st).cerr = st.cerr ++ tc := by
  intro lines
  induction lines with
  | nil => intro st; exact ⟨[], [], by simp, by simp⟩
  | cons line rest ih =>
    intro st
    obtain ⟨tg1, tc1, h1, h2⟩ := parseLine_grows st line
    obtain ⟨tg2, tc2, h3, h4⟩ := ih (parseLine st line)
    refine ⟨tg1 ++ tg2, tc1 ++ tc2, ?_, ?_⟩
    · rw [List.foldl_cons, h3, h1, List.append_assoc]
    · rw [List.foldl_cons, h4, h2, List.append_assoc]

/-- C13. For every input text, the flag returned by `parseInput` is `false` iff
at least one line was rejected, and a rejected line does not stop the scan:
every line is read (the line counter ends at the number of lines, and each line
gave either an entry of the graph or a diagnostic), and a line that comes after
any lines, rejected or not, is inserted into the graph when it is accepted and
diagnosed with its own index when it is rejected. -/
theorem flag_false_iff_some_line_rejected (text : List Char) :
    ((parseInput text).correctInput = false ↔
      rejectedIndices 1 initialState (getlines text) ≠ []) ∧
    (parseInput text).lineCount = (getlines text).length ∧
    (parseInput text).g.length + (parseInput text).cerr.length = (getlines text).length ∧
    (∀ pre line post, getlines text = pre ++ line :: post →
      (lineAccepted (pre.foldl parseLine initialState) line = true →
        ∃ e, (parseLine (pre.foldl parseLine initialState) line).g =
            (pre.foldl parseLine initialState).g ++ [e] ∧
          e ∈ (parseInput text).g) ∧
      (lineAccepted (pre.foldl parseLine initialState) line = false →
        ∃ d ∈ (parseInput text).cerr, diagnosticLine d = pre.length + 1)) := by
  obtain ⟨h1, h2, h3, h4⟩ := foldl_parseLine_trace (getlines text) initialState 1 rfl
  have hlen : (parseInput text).cerr.length =
      (rejectedIndices 1 initialState (getlines text)).length := by
    have := congrArg List.length h1
    simpa [parseInput, initialState] using this
  refine ⟨?_, ?_, ?_, ?_⟩
  · have h3b : (parseInput text).correctInput =
        (rejectedIndices 1 initialState (getlines text)).isEmpty := by
      simpa [parseInput, initialState] using h3
    rw [h3b]
    cases rejectedIndices 1 initialState (getlines text) <;> simp
  · simpa [parseInput, initialState] using h2
  · rw [hlen]
    simpa [parseInput, initialState] using h4
  · intro pre line post hsplit
    have hfin : parseInput text =
        post.foldl parseLine (parseLine (pre.foldl parseLine initialState) line) := by
      unfold parseInput
      rw [hsplit, List.foldl_append, List.foldl_cons]
      rfl
    obtain ⟨tg, tc, hg, hc⟩ := foldl_parseLine_grows post
      (parseLine (pre.foldl parseLine initialState) line)
    constructor
    · intro hacc
      obtain ⟨e, he⟩ := (lineAccepted_true_iff _ line).mp hacc
      refine ⟨e, by rw [he], ?_⟩
      rw [hfin, hg, he]
      simp
    · intro hacc
      obtain ⟨d, hd, hline⟩ := (lineAccepted_false_iff _ line).mp hacc
      refine ⟨d, ?_, ?_⟩
      · rw [hfin, hc, hd]
        simp [rejectLine]
      · rw [hline, (foldl_parseLine_trace pre initialState 1 rfl).2.1]
        simp [initialState]

theorem lookup_append_of_some {g t : graph} {s : Int} {e : Gate × List Int}
    (h : g.lookup s = some e) : (g ++ t).lookup s = some e := by
  induction g with
  | nil => simp [List.lookup] at h
  | cons x rest ih =>
    obtain ⟨k, v⟩ := x
    by_cases hk : s = k
    · subst hk
      simp only [List.lookup, beq_self_eq_true, List.cons_append] at h ⊢
      exact h
    · have hb : (s == k) = false := by simpa using hk
      simp only [List.lookup, hb, List.cons_append] at h ⊢
      exact ih h

/-- C14. When a line that passes validation names an output id that is already
a key of the graph, the line is rejected with the diagnostic naming that id,
the input is marked invalid and the graph is left unchanged; whatever lines
follow, the entry of that id stays the gate kind and input set of the earlier
definition. -/
theorem duplicate_output_rejected (st : ParseState) (line : List Char) (curOutSig : Int)
    (hname : correctGateName ((tokens line).headD []) = true)
    (hout : correctSignal ((tokens line).tail.headD []) = some curOutSig)
    (hvalid : (∀ t ∈ (tokens line).tail.tail, (correctSignal t).isSome = true) ∧
      arityRule (createGate ((tokens line).headD [])) (tokens line).tail.tail.length)
    (hdup : graphContains st.g curOutSig = true) :
    parseLine st line =
      rejectLine st (Diagnostic.multipleOutputs (st.lineCount + 1) curOutSig) ∧
    (parseLine st line).g = st.g ∧
    (parseLine st line).correctInput = false ∧
    (parseLine st line).cerr =
      st.cerr ++ [Diagnostic.multipleOutputs (st.lineCount + 1) curOutSig] ∧
    (∀ (rest : List (List Char)) (entry : Gate × List Int),
      st.g.lookup curOutSig = some entry →
        (rest.foldl parseLine (parseLine st line)).g.lookup curOutSig = some entry ∧
        ((rest.foldl parseLine (parseLine st line)).correctInput = false)) := by
  rcases parseLine_valid_head st line curOutSig hname hout with
    ⟨hno, _⟩ | ⟨_, _, heq⟩ | ⟨_, hfree, _⟩
  · exact absurd hvalid hno
  · refine ⟨heq, by rw [heq]; rfl, by rw [heq]; rfl, by rw [heq]; rfl, ?_⟩
    intro rest entry hentry
    obtain ⟨tg, _, hg, _⟩ := foldl_parseLine_grows rest (parseLine st line)
    constructor
    · rw [hg, heq]
      exact lookup_append_of_some hentry
    · have h3 := (foldl_parseLine_trace rest (parseLine st line)
        ((parseLine st line).lineCount + 1) rfl).2.2.1
      rw [h3, heq]
      rfl
  · rw [hdup] at hfree
    cases hfree

/-- Witness for C14: `AND 3 1 2` followed by `OR 3 1 2` leaves signal 3 as the
AND gate over the inputs 1 and 2, with one diagnostic naming signal 3. -/
theorem duplicate_output_rejected_witness :
    parseLine (parseInput "AND 3 1 2".toList) "OR 3 1 2".toList =
      rejectLine (parseInput "AND 3 1 2".toList) (Diagnostic.multipleOutputs 2 3) ∧
    (parseInput "AND 3 1 2\nOR 3 1 2".toList).g = [(3, (Gate.AND, [2, 1]))] ∧
    (parseInput "AND 3 1 2\nOR 3 1 2".toList).cerr = [Diagnostic.multipleOutputs 2 3] ∧
    (parseInput "AND 3 1 2\nOR 3 1 2".toList).correctInput = false :=
  ⟨(duplicate_output_rejected (parseInput "AND 3 1 2".toList) "OR 3 1 2".toList 3
      (by decide) (by decide)
      ⟨by decide, show (2 : Nat) ≤ 2 by decide⟩ (by decide)).1,
    by decide, by decide, by decide⟩

/-! ### Program -/

theorem hasCycle_decides (g : graph) (fuel : Nat) (hfuel : g.length < fuel) :
    (HasDependencyCycle g → hasCycle g fuel = some true) ∧
    (¬ HasDependencyCycle g → hasCycle g fuel = some false) := by
  obtain ⟨b, hb, htrue, _⟩ := hasCycleLoop_spec g fuel hfuel g (fun _ h => h) []
    (fun v hv => by cases hv)
  have hb2 : hasCycle g fuel = some b := hb
  cases b with
  | true => exact ⟨fun _ => hb2, fun h => absurd (htrue rfl) h⟩
  | false => exact ⟨fun h => absurd h (acyclic_of_hasCycle g fuel hfuel hb2), fun _ => hb2⟩

theorem correctInput_iff_no_rejected (text : List Char) :
    (parseInput text).correctInput = true ↔
      rejectedIndices 1 initialState (getlines text) = [] := by
  have h3 := (foldl_parseLine_trace (getlines text) initialState 1 rfl).2.2.1
  have h3b : (parseInput text).correctInput =
      (rejectedIndices 1 initialState (getlines text)).isEmpty := by
    simpa [parseInput, initialState] using h3
  rw [h3b]
  cases rejectedIndices 1 initialState (getlines text) <;> simp

/-- C15. For every input text (with fuel above the number of gates): when some
line was rejected, or when the graph has a cycle, `main` returns the status 1
and writes no row to standard output; when every line was accepted and the
graph is acyclic (and `2 ^ k` fits the counter), it writes the truth table and
returns 0. So whenever `main` returns, the status is 0 iff every line was
accepted and the graph is acyclic, and a non-zero status comes with an empty
standard output. -/
theorem main_status_zero_iff_accepted_and_acyclic (text : List Char) (fuel : Nat)
    (hfuel : (parseInput text).g.length < fuel) :
    (rejectedIndices 1 initialState (getlines text) ≠ [] →
      main text fuel = some { status := 1, stdout := [], cerr := (parseInput text).cerr, cycleError := false }) ∧
    (rejectedIndices 1 initialState (getlines text) = [] → ¬ Acyclic (parseInput text).g →
      main text fuel = some { status := 1, stdout := [], cerr := (parseInput text).cerr, cycleError := true }) ∧
    (rejectedIndices 1 initialState (getlines text) = [] → Acyclic (parseInput text).g →
      (findInputSignals (parseInput text).g).length < 64 →
      ∃ rows, printTruthTable (parseInput text).g fuel = some rows ∧
        rows.length = 2 ^ (findInputSignals (parseInput text).g).length ∧
        main text fuel = some { status := 0, stdout := rows, cerr := (parseInput text).cerr, cycleError := false }) ∧
    (∀ r, main text fuel = some r →
      (r.status = 0 ↔
        rejectedIndices 1 initialState (getlines text) = [] ∧ Acyclic (parseInput text).g) ∧
      (r.status ≠ 0 → r.stdout = [])) := by
  have hci := correctInput_iff_no_rejected text
  have hcyc := hasCycle_decides (parseInput text).g fuel hfuel
  have hbad : rejectedIndices 1 initialState (getlines text) ≠ [] →
      main text fuel = some { status := 1, stdout := [], cerr := (parseInput text).cerr, cycleError := false } := by
    intro hrej
    have hf : (parseInput text).correctInput = false := by
      cases h : (parseInput text).correctInput with
      | false => rfl
      | true => exact absurd (hci.mp h) hrej
    simp [main, hf]
  have hloop : rejectedIndices 1 initialState (getlines text) = [] →
      ¬ Acyclic (parseInput text).g →
      main text fuel = some { status := 1, stdout := [], cerr := (parseInput text).cerr, cycleError := true } := by
    intro hrej hna
    have hc : HasDependencyCycle (parseInput text).g := Classical.not_not.mp hna
    simp [main, hci.mpr hrej, hcyc.1 hc]
  refine ⟨hbad, hloop, ?_, ?_⟩
  · intro hrej hac hk
    have hrows := printTruthTable_spec (parseInput text).g hac
      (arity_of_entryArity (parseInput_entryArity text)) (parseInput_nodupKeys text) fuel hfuel hk
    refine ⟨_, hrows, by simp, ?_⟩
    simp [main, hci.mpr hrej, hcyc.2 hac, hrows]
  · intro r hr
    by_cases hrej : rejectedIndices 1 initialState (getlines text) = []
    · by_cases hac : Acyclic (parseInput text).g
      · have h2 := hcyc.2 hac
        simp only [main, hci.mpr hrej, Bool.not_true, Bool.false_eq_true, if_false, h2] at hr
        cases hp : printTruthTable (parseInput text).g fuel with
        | none => simp [hp] at hr
        | some rows =>
          simp only [hp, Option.some.injEq] at hr
          subst hr
          exact ⟨⟨fun _ => ⟨hrej, hac⟩, fun _ => rfl⟩, fun h => absurd rfl h⟩
      · have := hloop hrej hac
        rw [this] at hr
        cases hr
        exact ⟨⟨fun h => by simp at h, fun h => absurd h.2 hac⟩, fun _ => rfl⟩
    · have := hbad hrej
      rw [this] at hr
      cases hr
      exact ⟨⟨fun h => by simp at h, fun h => absurd h.1 hrej⟩, fun _ => rfl⟩

/-- Witness for C15: three runs. `AND 3 1 2` returns 0 with four rows; `XOR 5`
and the feedback loop `NOT 1 1` return 1 with no row. -/
theorem main_status_zero_iff_accepted_and_acyclic_witness :
    main "AND 3 1 2".toList 2 =
      some { status := 0, stdout := ["000".toList, "010".toList, "100".toList, "111".toList], cerr := [], cycleError := false } ∧
    main "XOR 5".toList 2 =
      some { status := 1, stdout := [], cerr := [Diagnostic.errorInLine 1 "XOR 5".toList], cycleError := false } ∧
    main "NOT 1 1".toList 2 =
      some { status := 1, stdout := [], cerr := [], cycleError := true } :=
  ⟨by decide,
    ((main_status_zero_iff_accepted_and_acyclic "XOR 5".toList 2 (by decide)).1
      (by decide)).trans (by decide),
    by decide⟩

/-! ### Order of the characters of a row -/

/-- C16. Within every printed row the characters are in strictly ascending
order of the signal ids they belong to: `printValuation` writes, for the keys
of the valuation sorted strictly ascending, the value of each key, so the
`j`-th character is the value of the `j`-th smallest id; and every row of the
table is such a printed valuation. -/
theorem printed_row_ascending (m : Valuation) (hm : NodupKeys m) :
    (∃ ks : List Int, List.Sorted (fun a b => a < b) ks ∧ ks.Perm (m.map Prod.fst) ∧
      printValuation m = some (ks.map (fun s => boolChar (valueOf m s))) ∧
      (∀ s ∈ ks, m.lookup s = some (valueOf m s)) ∧
      ∀ j (hj : j < ks.length),
        (ks.map (fun s => boolChar (valueOf m s)))[j]? =
          some (boolChar (valueOf m (ks.get ⟨j, hj⟩)))) ∧
    (∀ (g : graph) (fuel : Nat) (keys : List Int) (bits : List Bool) (row : List Char),
      evalRow g fuel keys bits = some row →
        ∃ (m2 : Valuation) (ks : List Int),
          populateValuation g fuel (getNonInputSignals g) (bindInputs keys bits []) = some m2 ∧
          List.Sorted (fun a b => a < b) ks ∧ ks.Perm (m2.map Prod.fst) ∧
          row = ks.map (fun s => boolChar (valueOf m2 s))) := by
  have hsorted : ∀ m1 : Valuation, NodupKeys m1 →
      List.Sorted (fun a b => a < b) ((m1.map Prod.fst).insertionSort (fun a b => a ≤ b)) := by
    intro m1 h1
    apply List.Sorted.lt_of_le (List.sorted_insertionSort _ _)
    exact (List.perm_insertionSort _ _).nodup_iff.mpr h1
  constructor
  · refine ⟨(m.map Prod.fst).insertionSort (fun a b => a ≤ b), hsorted m hm,
      List.perm_insertionSort _ _, printValuation_eq_map m, ?_, ?_⟩
    · intro s hs
      have hmem : s ∈ m.map Prod.fst := (List.perm_insertionSort _ _).mem_iff.mp hs
      obtain ⟨b, hb⟩ := Option.isSome_iff_exists.mp ((lookup_isSome_iff_mem_keys m s).mpr hmem)
      simp [valueOf, hb]
    · intro j hj
      rw [List.getElem?_map, List.getElem?_eq_getElem hj]
      rfl
  · intro g fuel keys bits row hrow
    unfold evalRow at hrow
    cases hp : populateValuation g fuel (getNonInputSignals g) (bindInputs keys bits []) with
    | none => simp [hp] at hrow
    | some m2 =>
      simp only [hp] at hrow
      rw [printValuation_eq_map] at hrow
      refine ⟨m2, _, rfl, hsorted m2 ?_, List.perm_insertionSort _ _, (Option.some.inj hrow).symm⟩
      exact populateValuation_nodupKeys g fuel _ _ _ hp
        (bindInputs_nodupKeys _ _ _ List.nodup_nil)

/-- Witness for C16: the valuation `3 ↦ 1, 1 ↦ 0, 2 ↦ 1` is printed as `011`. -/
theorem printed_row_ascending_witness :
    NodupKeys [(3, true), (1, false), (2, true)] ∧
    printValuation [(3, true), (1, false), (2, true)] = some "011".toList ∧
    ∃ ks : List Int, List.Sorted (fun a b => a < b) ks ∧
      ks.Perm (List.map Prod.fst [((3 : Int), true), (1, false), (2, true)]) ∧
      printValuation [(3, true), (1, false), (2, true)] =
        some (ks.map (fun s => boolChar (valueOf [(3, true), (1, false), (2, true)] s))) :=
  ⟨show List.Nodup (List.map Prod.fst [((3 : Int), true), (1, false), (2, true)]) by decide,
    by decide,
    (printed_row_ascending [(3, true), (1, false), (2, true)]
      (show List.Nodup (List.map Prod.fst [((3 : Int), true), (1, false), (2, true)])
        by decide)).1.imp
      (fun _ h => ⟨h.1, h.2.1, h.2.2.1⟩)⟩

/-! ### Gate functions -/

/-- C17. For every gate kind and every input vector of the kind's arity,
`valuateSignalBasedOnParentsAndGate` returns the reference function: NOT is the
negation of the single input, XOR is true iff the two inputs differ, AND is
true iff all inputs are true, NAND is the negation of AND, OR is true iff at
least one input is true, NOR is the negation of OR. -/
theorem valuate_is_reference_function :
    (∀ a : Bool, valuateSignalBasedOnParentsAndGate [a] Gate.NOT = some (!a)) ∧
    (∀ a b : Bool,
      valuateSignalBasedOnParentsAndGate [a, b] Gate.XOR = some (decide (a ≠ b))) ∧
    (∀ vals : List Bool, vals ≠ [] →
      valuateSignalBasedOnParentsAndGate vals Gate.AND =
        some (decide (∀ v ∈ vals, v = true))) ∧
    (∀ vals : List Bool, vals ≠ [] →
      valuateSignalBasedOnParentsAndGate vals Gate.NAND =
        some (!decide (∀ v ∈ vals, v = true))) ∧
    (∀ vals : List Bool, vals ≠ [] →
      valuateSignalBasedOnParentsAndGate vals Gate.OR =
        some (decide (∃ v ∈ vals, v = true))) ∧
    (∀ vals : List Bool, vals ≠ [] →
      valuateSignalBasedOnParentsAndGate vals Gate.NOR =
        some (!decide (∃ v ∈ vals, v = true))) ∧
    (∀ (kind : Gate) (vals : List Bool), arityOK kind vals.length →
      valuateSignalBasedOnParentsAndGate vals kind = some (gateReference kind vals)) := by
  have hall : ∀ vals : List Bool,
      gateAND vals = decide (∀ v ∈ vals, v = true) := by
    intro vals
    rw [gateAND_eq_all, Bool.eq_iff_iff, List.all_eq_true, decide_eq_true_eq]
  have hany : ∀ vals : List Bool,
      gateOR vals = decide (∃ v ∈ vals, v = true) := by
    intro vals
    rw [gateOR_eq_any, Bool.eq_iff_iff, List.any_eq_true, decide_eq_true_eq]
  refine ⟨fun a => rfl, ?_, ?_, ?_, ?_, ?_, valuate_eq_gateReference⟩
  · intro a b
    cases a <;> cases b <;> rfl
  · intro vals _
    simp only [valuateSignalBasedOnParentsAndGate, hall]
  · intro vals _
    simp only [valuateSignalBasedOnParentsAndGate, hall]
  · intro vals _
    simp only [valuateSignalBasedOnParentsAndGate, hany]
  · intro vals _
    simp only [valuateSignalBasedOnParentsAndGate, hany]

/-- C20. For the gate kinds AND, OR, NAND and NOR the value returned by
`valuateSignalBasedOnParentsAndGate` is the same for every permutation of the
input vector. -/
theorem valuate_permutation_invariant (kind : Gate) (vals vals2 : List Bool)
    (hperm : vals.Perm vals2)
    (hkind : kind = Gate.AND ∨ kind = Gate.OR ∨ kind = Gate.NAND ∨ kind = Gate.NOR) :
    valuateSignalBasedOnParentsAndGate vals kind =
      valuateSignalBasedOnParentsAndGate vals2 kind := by
  have hall : gateAND vals = gateAND vals2 := by
    rw [gateAND_eq_all, gateAND_eq_all, Bool.eq_iff_iff, List.all_eq_true, List.all_eq_true]
    exact ⟨fun h x hx => h x (hperm.mem_iff.mpr hx), fun h x hx => h x (hperm.mem_iff.mp hx)⟩
  have hany : gateOR vals = gateOR vals2 := by
    rw [gateOR_eq_any, gateOR_eq_any, Bool.eq_iff_iff, List.any_eq_true, List.any_eq_true]
    exact ⟨fun ⟨x, hx, h⟩ => ⟨x, hperm.mem_iff.mp hx, h⟩,
      fun ⟨x, hx, h⟩ => ⟨x, hperm.mem_iff.mpr hx, h⟩⟩
  rcases hkind with rfl | rfl | rfl | rfl
  · simp only [valuateSignalBasedOnParentsAndGate, hall]
  · simp only [valuateSignalBasedOnParentsAndGate, hany]
  · simp only [valuateSignalBasedOnParentsAndGate, hall]
  · simp only [valuateSignalBasedOnParentsAndGate, hany]

/-- Witness for C20: the NAND of `1, 0, 1` and of `0, 1, 1`. -/
theorem valuate_permutation_invariant_witness :
    valuateSignalBasedOnParentsAndGate [true, false, true] Gate.NAND =
        valuateSignalBasedOnParentsAndGate [false, true, true] Gate.NAND ∧
    valuateSignalBasedOnParentsAndGate [true, false, true] Gate.NAND = some true :=
  ⟨valuate_permutation_invariant Gate.NAND [true, false, true] [false, true, true]
      (by decide) (by decide),
    by decide⟩

/-! ### Algebraic relations between gates -/

theorem solved_valueOf {g : graph} {m : Valuation} {s : Int} {kind : Gate} {ps : List Int}
    (h : Solved g m s) (hl : g.lookup s = some (kind, ps)) :
    valueOf m s = gateReference kind (ps.map (valueOf m)) := by
  obtain ⟨vals, h1, h2⟩ := h (kind, ps) hl
  rw [← lookupAll_eq_map_valueOf h1]
  simp [valueOf, h2]

theorem all_eq_of_same_members {ps ps2 : List Int} (f : Int → Bool)
    (h : ∀ p, p ∈ ps ↔ p ∈ ps2) :
    (ps.map f).all (fun a => a) = (ps2.map f).all (fun a => a) := by
  rw [Bool.eq_iff_iff, List.all_eq_true, List.all_eq_true]
  simp only [List.mem_map, forall_exists_index, and_imp, forall_apply_eq_imp_iff₂]
  exact ⟨fun hh p hp => hh p ((h p).mpr hp), fun hh p hp => hh p ((h p).mp hp)⟩

theorem any_eq_of_same_members {ps ps2 : List Int} (f : Int → Bool)
    (h : ∀ p, p ∈ ps ↔ p ∈ ps2) :
    (ps.map f).any (fun a => a) = (ps2.map f).any (fun a => a) := by
  rw [Bool.eq_iff_iff, List.any_eq_true, List.any_eq_true]
  simp only [List.mem_map, exists_exists_and_eq_and]
  exact ⟨fun ⟨p, hp, hv⟩ => ⟨p, (h p).mp hp, hv⟩, fun ⟨p, hp, hv⟩ => ⟨p, (h p).mpr hp, hv⟩⟩

/-- C18. In every acyclic circuit built by the parser and under every
assignment: a NAND gate over the inputs `a`, `b` has the same value as a NOT
gate fed by an AND gate over `a`, `b`, and a NOR gate over `a`, `b` has the
same value as a NOT gate fed by an OR gate over `a`, `b`. The row written
lists these values, so the two columns carry the same character. -/
theorem nand_nor_equal_negated_and_or (text : List Char) (fuel : Nat) (bits : List Bool)
    (hac : Acyclic (parseInput text).g)
    (hfuel : (parseInput text).g.length < fuel)
    (hlen : bits.length = (findInputSignals (parseInput text).g).length) :
    evalRow (parseInput text).g fuel (sortedInputs (parseInput text).g) bits =
      some ((rowSignals (parseInput text).g).map
        (fun s => boolChar (valueOf (bitsValuation (parseInput text).g fuel bits) s))) ∧
    (∀ (a b x y z : Int) (ps ps2 : List Int),
      (∀ p, p ∈ ps ↔ p = a ∨ p = b) → (∀ p, p ∈ ps2 ↔ p = a ∨ p = b) →
      (parseInput text).g.lookup x = some (Gate.NAND, ps) →
      (parseInput text).g.lookup y = some (Gate.AND, ps2) →
      (parseInput text).g.lookup z = some (Gate.NOT, [y]) →
      valueOf (bitsValuation (parseInput text).g fuel bits) x =
        valueOf (bitsValuation (parseInput text).g fuel bits) z) ∧
    (∀ (a b x y z : Int) (ps ps2 : List Int),
      (∀ p, p ∈ ps ↔ p = a ∨ p = b) → (∀ p, p ∈ ps2 ↔ p = a ∨ p = b) →
      (parseInput text).g.lookup x = some (Gate.NOR, ps) →
      (parseInput text).g.lookup y = some (Gate.OR, ps2) →
      (parseInput text).g.lookup z = some (Gate.NOT, [y]) →
      valueOf (bitsValuation (parseInput text).g fuel bits) x =
        valueOf (bitsValuation (parseInput text).g fuel bits) z) := by
  obtain ⟨_, _, _, hsolved, _, hrow⟩ := evalRow_spec (parseInput text).g hac
    (arity_of_entryArity (parseInput_entryArity text)) (parseInput_nodupKeys text) fuel hfuel
    bits hlen
  have hkey : ∀ {s : Int} {e : Gate × List Int}, (parseInput text).g.lookup s = some e →
      graphContains (parseInput text).g s = true := by
    intro s e h
    simp [graphContains, h]
  refine ⟨hrow, ?_, ?_⟩
  · intro a b x y z ps ps2 hps hps2 hx hy hz
    rw [solved_valueOf (hsolved x (hkey hx)) hx, solved_valueOf (hsolved z (hkey hz)) hz]
    simp only [List.map_cons, List.map_nil]
    rw [solved_valueOf (hsolved y (hkey hy)) hy]
    simp only [gateReference]
    rw [all_eq_of_same_members _ (fun p => (hps p).trans (hps2 p).symm)]
  · intro a b x y z ps ps2 hps hps2 hx hy hz
    rw [solved_valueOf (hsolved x (hkey hx)) hx, solved_valueOf (hsolved z (hkey hz)) hz]
    simp only [List.map_cons, List.map_nil]
    rw [solved_valueOf (hsolved y (hkey hy)) hy]
    simp only [gateReference]
    rw [any_eq_of_same_members _ (fun p => (hps p).trans (hps2 p).symm)]

/-- Witness for C18: in the circuit `NAND 3 1 2`, `AND 4 2 1`, `NOT 5 4` under
the assignment `1 ↦ 1`, `2 ↦ 0`, the signals 3 and 5 have the same value. -/
theorem nand_nor_equal_negated_and_or_witness :
    valueOf (bitsValuation (parseInput "NAND 3 1 2\nAND 4 2 1\nNOT 5 4".toList).g 4
        [true, false]) 3 =
      valueOf (bitsValuation (parseInput "NAND 3 1 2\nAND 4 2 1\nNOT 5 4".toList).g 4
        [true, false]) 5 ∧
    evalRow (parseInput "NAND 3 1 2\nAND 4 2 1\nNOT 5 4".toList).g 4
        (sortedInputs (parseInput "NAND 3 1 2\nAND 4 2 1\nNOT 5 4".toList).g) [true, false] =
      some "10101".toList :=
  ⟨(nand_nor_equal_negated_and_or "NAND 3 1 2\nAND 4 2 1\nNOT 5 4".toList 4 [true, false]
      (acyclic_of_hasCycle _ 4 (by decide) (by decide)) (by decide) (by decide)).2.1
      1 2 3 4 5 [2, 1] [1, 2]
      (fun p => by simp [or_comm]) (fun p => by simp) (by decide) (by decide) (by decide),
    by decide⟩

theorem acyclic_of_decreasing {g : graph}
    (h : ∀ s e p, g.lookup s = some e → p ∈ e.2 → p < s) : Acyclic g := by
  have hlt : ∀ s t, Relation.TransGen (Edge g) s t → t < s := by
    intro s t hst
    induction hst with
    | single hs =>
      obtain ⟨e, he, hp⟩ := hs
      exact h _ e _ he hp
    | tail _ hs ih =>
      obtain ⟨e, he, hp⟩ := hs
      exact lt_trans (h _ e _ he hp) ih
  rintro ⟨s, hcyc⟩
  exact lt_irrefl s (hlt s s hcyc)

theorem chain_lookup {a b c s : Int} {e : Gate × List Int} (hbc : b ≠ c)
    (h : List.lookup s [(b, (Gate.NOT, [a])), (c, (Gate.NOT, [b]))] = some e) :
    (s = b ∧ e = (Gate.NOT, [a])) ∨ (s = c ∧ e = (Gate.NOT, [b])) := by
  by_cases hsb : s = b
  · subst hsb
    simp [List.lookup] at h
    exact Or.inl ⟨rfl, h.symm⟩
  · have hb : (s == b) = false := by simpa using hsb
    by_cases hsc : s = c
    · subst hsc
      simp [List.lookup, hb] at h
      exact Or.inr ⟨rfl, h.symm⟩
    · have hc : (s == c) = false := by simpa using hsc
      simp [List.lookup, hb, hc] at h

theorem chain_findInputSignals {a b c : Int} (hab : a < b) (hbc : b < c) :
    findInputSignals [(b, (Gate.NOT, [a])), (c, (Gate.NOT, [b]))] = [a] := by
  have h1 : a ≠ b := ne_of_lt hab
  have h2 : a ≠ c := ne_of_lt (lt_trans hab hbc)
  have h3 : c ≠ b := ne_of_gt hbc
  simp [findInputSignals, setInsert, h1, h2, h3]

theorem chain_rowSignals {a b c : Int} (hab : a < b) (hbc : b < c) :
    rowSignals [(b, (Gate.NOT, [a])), (c, (Gate.NOT, [b]))] = [a, b, c] := by
  unfold rowSignals
  rw [chain_findInputSignals hab hbc]
  simp [graphKeys, List.insertionSort, List.orderedInsert, le_of_lt hab, le_of_lt hbc]

theorem chain_row (a b c : Int) (fuel : Nat) (v : Bool) (hab : a < b) (hbc : b < c)
    (hfuel : 2 < fuel) :
    evalRow [(b, (Gate.NOT, [a])), (c, (Gate.NOT, [b]))] fuel
        (sortedInputs [(b, (Gate.NOT, [a])), (c, (Gate.NOT, [b]))]) [v] =
      some [boolChar v, boolChar (!v), boolChar v] ∧
    valueOf (bitsAssignment [(b, (Gate.NOT, [a])), (c, (Gate.NOT, [b]))] [v]) a = v ∧
    valueOf (bitsValuation [(b, (Gate.NOT, [a])), (c, (Gate.NOT, [b]))] fuel [v]) c = v := by
  have hne : b ≠ c := ne_of_lt hbc
  have hfind := chain_findInputSignals hab hbc
  have hacyc : Acyclic [(b, (Gate.NOT, [a])), (c, (Gate.NOT, [b]))] := by
    apply acyclic_of_decreasing
    intro s e p he hp
    rcases chain_lookup hne he with ⟨rfl, rfl⟩ | ⟨rfl, rfl⟩
    · rw [List.mem_singleton.mp hp]; exact hab
    · rw [List.mem_singleton.mp hp]; exact hbc
  have harity : Arity [(b, (Gate.NOT, [a])), (c, (Gate.NOT, [b]))] := by
    intro s e he
    rcases chain_lookup hne he with ⟨_, rfl⟩ | ⟨_, rfl⟩ <;> simp [arityOK]
  obtain ⟨_, hext, _, hsolved, _, hrow⟩ := evalRow_spec
    [(b, (Gate.NOT, [a])), (c, (Gate.NOT, [b]))] hacyc harity (by simp [graphKeys, hne]) fuel
    (by simpa using hfuel) [v] (by rw [hfind]; rfl)
  have hassign : bitsAssignment [(b, (Gate.NOT, [a])), (c, (Gate.NOT, [b]))] [v] = [(a, v)] := by
    simp [bitsAssignment, sortedInputs, hfind, bindInputs, mapInsert, List.lookup]
  have hva : valueOf (bitsValuation [(b, (Gate.NOT, [a])), (c, (Gate.NOT, [b]))] fuel [v]) a =
      v := by
    have := hext a v (by rw [hassign]; simp [List.lookup])
    simp [valueOf, this]
  have hlb : List.lookup b [(b, (Gate.NOT, [a])), (c, (Gate.NOT, [b]))] =
      some (Gate.NOT, [a]) := by simp [List.lookup]
  have hlc : List.lookup c [(b, (Gate.NOT, [a])), (c, (Gate.NOT, [b]))] =
      some (Gate.NOT, [b]) := by
    have : (c == b) = false := by simpa using hne.symm
    simp [List.lookup, this]
  have hvb : valueOf (bitsValuation [(b, (Gate.NOT, [a])), (c, (Gate.NOT, [b]))] fuel [v]) b =
      !v := by
    rw [solved_valueOf (hsolved b (by simp [graphContains, hlb])) hlb]
    simp [gateReference, hva]
  have hvc : valueOf (bitsValuation [(b, (Gate.NOT, [a])), (c, (Gate.NOT, [b]))] fuel [v]) c =
      v := by
    rw [solved_valueOf (hsolved c (by simp [graphContains, hlc])) hlc]
    simp [gateReference, hvb]
  refine ⟨?_, by rw [hassign]; simp [valueOf, List.lookup], hvc⟩
  rw [hrow, chain_rowSignals hab hbc]
  simp [hva, hvb, hvc]

/-- C19. For every circuit made of two chained NOT gates, `NOT b a` and
`NOT c b` with `a < b < c`, and every assignment `v` of the primary input `a`:
the value computed for `c` is `v`, the row written is `v`, the negation of `v`,
`v`, so its final column reproduces the input, and the table is `010`, `101`. -/
theorem double_negation_reproduces_input (a b c : Int) (fuel : Nat) (hab : a < b)
    (hbc : b < c) (hfuel : 2 < fuel) :
    (∀ v : Bool,
      evalRow [(b, (Gate.NOT, [a])), (c, (Gate.NOT, [b]))] fuel
          (sortedInputs [(b, (Gate.NOT, [a])), (c, (Gate.NOT, [b]))]) [v] =
        some [boolChar v, boolChar (!v), boolChar v] ∧
      valueOf (bitsAssignment [(b, (Gate.NOT, [a])), (c, (Gate.NOT, [b]))] [v]) a = v ∧
      valueOf (bitsValuation [(b, (Gate.NOT, [a])), (c, (Gate.NOT, [b]))] fuel [v]) c = v) ∧
    findInputSignals [(b, (Gate.NOT, [a])), (c, (Gate.NOT, [b]))] = [a] ∧
    rowSignals [(b, (Gate.NOT, [a])), (c, (Gate.NOT, [b]))] = [a, b, c] ∧
    printTruthTable [(b, (Gate.NOT, [a])), (c, (Gate.NOT, [b]))] fuel =
      some ["010".toList, "101".toList] := by
  have hfind := chain_findInputSignals hab hbc
  refine ⟨fun v => chain_row a b c fuel v hab hbc hfuel, hfind, chain_rowSignals hab hbc, ?_⟩
  rw [printTruthTable_eq_rowsSpec _ fuel (by rw [hfind]; simp), hfind]
  have h0 := (chain_row a b c fuel false hab hbc hfuel).1
  have h1 := (chain_row a b c fuel true hab hbc hfuel).1
  have e0 : bigEndianBits 1 0 = [false] := by decide
  have e1 : bigEndianBits 1 1 = [true] := by decide
  simp only [List.length_singleton, pow_one, rowsSpec, Nat.zero_add, e0, e1, h0, h1]
  decide

/-- Witness for C19: the input `NOT 2 1`, `NOT 3 2`. -/
theorem double_negation_reproduces_input_witness :
    (parseInput "NOT 2 1\nNOT 3 2".toList).g = [(2, (Gate.NOT, [1])), (3, (Gate.NOT, [2]))] ∧
    printTruthTable [(2, (Gate.NOT, [1])), (3, (Gate.NOT, [2]))] 3 =
      some ["010".toList, "101".toList] :=
  ⟨by decide, (double_negation_reproduces_input 1 2 3 3 (by decide) (by decide) (by decide)).2.2.2⟩

/-! ### Table of a circuit without primary inputs -/

theorem printTruthTable_no_inputs (g : graph) (fuel : Nat) (hk : findInputSignals g = []) :
    printTruthTable g fuel = Option.map (fun row => [row]) (evalRow g fuel [] []) := by
  unfold printTruthTable
  simp only [hk, List.length_nil, pow_zero, List.insertionSort, List.replicate]
  have htb : toBinary 0 0 [] = some [] := by decide
  unfold printRows evalRow
  rw [htb]
  simp only
  cases populateValuation g fuel (getNonInputSignals g) (bindInputs [] [] []) with
  | none => rfl
  | some valuation =>
    simp only
    cases printValuation valuation with
    | none => rfl
    | some row => simp [printRows]

/-- C21. For every graph with no primary inputs, the loop of `printTruthTable`
runs once: the table is the single row evaluated for the empty assignment. When
the graph passes the cycle check (and has admissible arities and distinct keys,
with fuel above the number of gates), that row is written, so exactly one row
is produced. -/
theorem no_inputs_one_row (g : graph) (fuel : Nat) (hk : findInputSignals g = []) :
    printTruthTable g fuel = Option.map (fun row => [row]) (evalRow g fuel [] []) ∧
    (g.length < fuel → Arity g → (graphKeys g).Nodup → hasCycle g fuel = some false →
      ∃ row, printTruthTable g fuel = some [row]) := by
  refine ⟨printTruthTable_no_inputs g fuel hk, ?_⟩
  intro hfuel har hnd hcheck
  have h := printTruthTable_spec g (acyclic_of_hasCycle g fuel hfuel hcheck) har hnd fuel hfuel
    (by rw [hk]; simp)
  rw [hk] at h
  exact ⟨_, h⟩

/-- Witness for C21: the empty circuit, and a circuit of one gate without
inputs, each give one row. -/
theorem no_inputs_one_row_witness :
    printTruthTable [] 1 = some [[]] ∧
    printTruthTable [(1, (Gate.AND, []))] 2 = some ["1".toList] :=
  ⟨((no_inputs_one_row [] 1 (by decide)).1).trans (by decide),
    ((no_inputs_one_row [(1, (Gate.AND, []))] 2 (by decide)).1).trans (by decide)⟩

/-! ### Stored input sets -/

theorem readParents_nodup (curGate : Gate) :
    ∀ (toks : List (List Char)) (parents : List Int) (count : Nat), parents.Nodup →
      (readParents curGate toks parents count).2.1.Nodup := by
  intro toks
  induction toks with
  | nil => intro parents count h; exact h
  | cons tok rest ih =>
    intro parents count h
    unfold readParents
    cases hc : correctSignal tok with
    | none => exact h
    | some v =>
      simp only
      split
      · exact nodup_setInsert h
      · exact ih _ _ (nodup_setInsert h)

theorem correctSignal_inRange {t : List Char} {v : Int} (h : correctSignal t = some v) :
    InRange v := by
  unfold correctSignal at h
  split at h
  · simp only at h
    split at h
    · rename_i hr
      cases h
      exact ⟨hr.1, hr.2⟩
    · cases h
  · cases h

theorem readParents_inRange (curGate : Gate) :
    ∀ (toks : List (List Char)) (parents : List Int) (count : Nat),
      (∀ p ∈ parents, InRange p) →
      ∀ p ∈ (readParents curGate toks parents count).2.1, InRange p := by
  intro toks
  induction toks with
  | nil => intro parents count h; exact h
  | cons tok rest ih =>
    intro parents count h
    unfold readParents
    cases hc : correctSignal tok with
    | none => exact h
    | some v =>
      have hins : ∀ p ∈ setInsert v parents, InRange p := by
        intro p hp
        rcases mem_setInsert.mp hp with rfl | hp
        · exact correctSignal_inRange hc
        · exact h p hp
      simp only
      split
      · exact hins
      · exact ih _ _ hins

/-- Invariant of every entry of the graph built by the parser. -/
theorem parseInput_entries (text : List Char) :
    ∀ e ∈ (parseInput text).g,
      arityOK e.2.1 e.2.2.length ∧ e.2.2.Nodup ∧ InRange e.1 ∧ ∀ p ∈ e.2.2, InRange p := by
  apply foldl_parseLine_inv (fun st => ∀ e ∈ st.g,
    arityOK e.2.1 e.2.2.length ∧ e.2.2.Nodup ∧ InRange e.1 ∧ ∀ p ∈ e.2.2, InRange p)
  · intro st line h
    rcases parseLine_graph st line with hg | ⟨curOutSig, parents, count, hg, hout, hread, hnum, _⟩
    · rw [hg]; exact h
    · rw [hg]
      intro e he
      rcases List.mem_append.mp he with he | he
      · exact h e he
      · rw [List.mem_singleton.mp he]
        have hlen := readParents_length (createGate ((tokens line).headD []))
          (tokens line).tail.tail [] 0 (le_refl _) (fun h => h)
        have hnd := readParents_nodup (createGate ((tokens line).headD []))
          (tokens line).tail.tail [] 0 List.nodup_nil
        have hrg := readParents_inRange (createGate ((tokens line).headD []))
          (tokens line).tail.tail [] 0 (fun p hp => by cases hp)
        rw [hread] at hlen hnd hrg
        exact ⟨arityOK_of_count hnum hlen.1 hlen.2, hnd, correctSignal_inRange hout, hrg⟩
  · intro e he
    cases he

/-- C22 (amended). For every record the parser stores in the graph, the stored
input set has no repeated id and satisfies: a NOT gate has exactly one input
id, a XOR gate has one or two, and every AND, NAND, OR and NOR gate has one or
more (the tokens of the line number two or more; an id given twice is stored
once). -/
theorem stored_input_set_arity (text : List Char) (e : Int × (Gate × List Int))
    (he : e ∈ (parseInput text).g) :
    e.2.2.Nodup ∧
    (e.2.1 = Gate.NOT → e.2.2.length = 1) ∧
    (e.2.1 = Gate.XOR → e.2.2.length = 1 ∨ e.2.2.length = 2) ∧
    (e.2.1 ≠ Gate.NOT → e.2.1 ≠ Gate.XOR → 1 ≤ e.2.2.length) := by
  obtain ⟨har, hnd, _, _⟩ := parseInput_entries text e he
  refine ⟨hnd, ?_, ?_, ?_⟩
  · intro hk
    rw [hk] at har
    exact har
  · intro hk
    rw [hk] at har
    exact har
  · intro h1 h2
    cases hk : e.2.1 with
    | NOT => exact absurd hk h1
    | XOR => exact absurd hk h2
    | AND => rw [hk] at har; exact har
    | NAND => rw [hk] at har; exact har
    | OR => rw [hk] at har; exact har
    | NOR => rw [hk] at har; exact har

/-- Witness for C22 (amended): the record stored for the line `XOR 3 1 1`. -/
theorem stored_input_set_arity_witness :
    ((3 : Int), (Gate.XOR, [(1 : Int)])) ∈ (parseInput "XOR 3 1 1".toList).g ∧
    ([(1 : Int)].length = 1 ∨ [(1 : Int)].length = 2) :=
  ⟨by decide,
    (stored_input_set_arity "XOR 3 1 1".toList (3, (Gate.XOR, [1])) (by decide)).2.2.1 rfl⟩

/-- Counterexample to C22 as stated: the line `XOR 3 1 1` is accepted and
stored with the one-element input set of id 1, and `AND 3 1 1` likewise. -/
theorem stored_input_set_may_be_smaller :
    (parseInput "XOR 3 1 1".toList).g = [(3, (Gate.XOR, [1]))] ∧
    (parseInput "XOR 3 1 1".toList).correctInput = true ∧
    (∃ e ∈ (parseInput "XOR 3 1 1".toList).g, e.2.1 = Gate.XOR ∧ e.2.2.length ≠ 2) ∧
    (parseInput "AND 3 1 1".toList).g = [(3, (Gate.AND, [1]))] ∧
    (∃ e ∈ (parseInput "AND 3 1 1".toList).g, e.2.1 = Gate.AND ∧ ¬ (2 ≤ e.2.2.length)) :=
  ⟨by decide, by decide, ⟨(3, (Gate.XOR, [1])), by decide, by decide, by decide⟩, by decide,
    ⟨(3, (Gate.AND, [1])), by decide, by decide, by decide⟩⟩

/-! ### Memoised entries are kept -/

theorem valuateParents_extends (eval : Int → Valuation → Option (Bool × Valuation))
    (hev : ∀ p m r, eval p m = some r → Extends m r.2) :
    ∀ (ps : List Int) (m : Valuation) (r : List Bool × Valuation),
      valuateParents eval ps m = some r → Extends m r.2 := by
  intro ps
  induction ps with
  | nil =>
    intro m r h
    simp [valuateParents] at h
    subst h
    exact extends_refl m
  | cons p rest ih =>
    intro m r h
    unfold valuateParents at h
    cases h1 : eval p m with
    | none => simp [h1] at h
    | some r1 =>
      obtain ⟨b, m1⟩ := r1
      simp only [h1] at h
      cases h2 : valuateParents eval rest m1 with
      | none => simp [h2] at h
      | some r2 =>
        obtain ⟨bs, m2⟩ := r2
        simp only [h2, Option.some.injEq] at h
        subst h
        exact extends_trans (hev p m (b, m1) h1) (ih m1 (bs, m2) h2)

theorem dfsWithValuation_extends (g : graph) :
    ∀ (fuel : Nat) (cur : Int) (m : Valuation) (r : Bool × Valuation),
      dfsWithValuation g fuel cur m = some r → Extends m r.2 := by
  intro fuel
  induction fuel with
  | zero => intro cur m r h; simp [dfsWithValuation] at h
  | succ fuel ih =>
    intro cur m r h
    unfold dfsWithValuation at h
    cases h0 : m.lookup cur with
    | some b =>
      simp only [h0, Option.some.injEq] at h
      subst h
      exact extends_refl m
    | none =>
      simp only [h0] at h
      cases h1 : g.lookup cur with
      | none => simp [h1] at h
      | some entry =>
        simp only [h1] at h
        cases h2 : valuateParents (dfsWithValuation g fuel) entry.2 m with
        | none => simp [h2] at h
        | some r2 =>
          obtain ⟨bs, m1⟩ := r2
          simp only [h2] at h
          cases h3 : valuateSignalBasedOnParentsAndGate bs entry.1 with
          | none => simp [h3] at h
          | some v =>
            simp only [h3, Option.some.injEq] at h
            subst h
            exact extends_trans
              (valuateParents_extends _ (fun p m r => ih p m r) entry.2 m (bs, m1) h2)
              (extends_mapInsert cur v m1)

theorem populateValuation_extends (g : graph) (fuel : Nat) :
    ∀ (signals : List Int) (m m2 : Valuation),
      populateValuation g fuel signals m = some m2 → Extends m m2 := by
  intro signals
  induction signals with
  | nil =>
    intro m m2 h
    simp [populateValuation] at h
    subst h
    exact extends_refl m
  | cons s rest ih =>
    intro m m2 h
    unfold populateValuation at h
    cases h1 : dfsWithValuation g fuel s m with
    | none => simp [h1] at h
    | some r =>
      obtain ⟨b, m1⟩ := r
      simp only [h1] at h
      exact extends_trans (dfsWithValuation_extends g fuel s m (b, m1) h1) (ih m1 m2 h)

/-- C23. For every graph and valuation, `dfsWithValuation` called on a signal
that has an entry in the valuation returns the stored value and the valuation
unchanged, whatever the graph is; every call that returns keeps the entries of
the valuation it was given, and so does `populateValuation`: every primary input
still holds the value the assignment gave it. -/
theorem memoised_value_returned_and_kept :
    (∀ (g : graph) (fuel : Nat) (s : Int) (m : Valuation) (b : Bool),
      m.lookup s = some b → dfsWithValuation g (fuel + 1) s m = some (b, m)) ∧
    (∀ (g g2 : graph) (fuel : Nat) (s : Int) (m : Valuation),
      (m.lookup s).isSome = true →
        dfsWithValuation g (fuel + 1) s m = dfsWithValuation g2 (fuel + 1) s m) ∧
    (∀ (g : graph) (fuel : Nat) (s : Int) (m : Valuation) (r : Bool × Valuation),
      dfsWithValuation g fuel s m = some r →
        ∀ x b, m.lookup x = some b → r.2.lookup x = some b) ∧
    (∀ (g : graph) (fuel : Nat) (signals : List Int) (assignment m2 : Valuation),
      populateValuation g fuel signals assignment = some m2 →
        ∀ x b, assignment.lookup x = some b → m2.lookup x = some b) := by
  refine ⟨?_, ?_, ?_, ?_⟩
  · intro g fuel s m b h
    simp [dfsWithValuation, h]
  · intro g g2 fuel s m h
    obtain ⟨b, hb⟩ := Option.isSome_iff_exists.mp h
    simp [dfsWithValuation, hb]
  · intro g fuel s m r h
    exact dfsWithValuation_extends g fuel s m r h
  · intro g fuel signals assignment m2 h
    exact populateValuation_extends g fuel signals assignment m2 h

/-! ### XOR of one signal with itself -/

/-- C26. A XOR gate declared with two identical input ids is stored with the
one-element input set; `gateXOR` on one value is `false`, and in every acyclic
circuit built by the parser that contains a XOR gate with the input set of the
single id `a`, the value computed for the gate is `false` under every
assignment, which is the value of `the two inputs differ`. -/
theorem xor_same_input_is_false (text : List Char) (fuel : Nat) (bits : List Bool)
    (c a : Int)
    (hac : Acyclic (parseInput text).g)
    (hfuel : (parseInput text).g.length < fuel)
    (hlen : bits.length = (findInputSignals (parseInput text).g).length)
    (hc : (parseInput text).g.lookup c = some (Gate.XOR, [a])) :
    valueOf (bitsValuation (parseInput text).g fuel bits) c = false ∧
    (bitsValuation (parseInput text).g fuel bits).lookup c = some false ∧
    (∀ v : Bool, gateXOR [v] = some false) ∧
    (∀ v : Bool, valuateSignalBasedOnParentsAndGate [v] Gate.XOR = some (decide (v ≠ v))) ∧
    (∀ (tok : List Char) (id : Int), correctSignal tok = some id →
      readParents Gate.XOR [tok, tok] [] 0 = (true, [id], 2)) := by
  obtain ⟨_, _, _, hsolved, _, _⟩ := evalRow_spec (parseInput text).g hac
    (arity_of_entryArity (parseInput_entryArity text)) (parseInput_nodupKeys text) fuel hfuel
    bits hlen
  have hs := hsolved c (by simp [graphContains, hc])
  obtain ⟨vals, hv1, hv2⟩ := hs (Gate.XOR, [a]) hc
  have hvlen := lookupAll_length hv1
  have hfalse : gateReference Gate.XOR vals = false := by
    match vals, hvlen with
    | [v], _ => cases v <;> rfl
  rw [hfalse] at hv2
  refine ⟨by simp [valueOf, hv2], hv2, ?_, ?_, ?_⟩
  · intro v; rfl
  · intro v; cases v <;> rfl
  · intro tok id htok
    simp [readParents, htok, setInsert]

/-- Witness for C26: the input `XOR 3 1 1` is stored with the input set of the
single id 1, and signal 3 is `false` when input 1 is `true`. -/
theorem xor_same_input_is_false_witness :
    (parseInput "XOR 3 1 1".toList).g = [(3, (Gate.XOR, [1]))] ∧
    valueOf (bitsValuation (parseInput "XOR 3 1 1".toList).g 2 [true]) 3 = false ∧
    printTruthTable (parseInput "XOR 3 1 1".toList).g 2 = some ["00".toList, "10".toList] :=
  ⟨by decide,
    (xor_same_input_is_false "XOR 3 1 1".toList 2 [true] 3 1
      (acyclic_of_hasCycle _ 2 (by decide) (by decide)) (by decide) (by decide)
      (by decide)).1,
    by decide⟩

/-! ### Invariants of the parsed graph -/

theorem parseLine_keys (st : ParseState) (line : List Char) :
    graphKeys (parseLine st line).g =
      graphKeys st.g ++
        (if lineAccepted st line then (correctSignal ((tokens line).tail.headD [])).toList
          else []) := by
  cases hacc : lineAccepted st line with
  | false =>
    obtain ⟨d, hd, _⟩ := (lineAccepted_false_iff st line).mp hacc
    rw [hd]
    simp [rejectLine]
  | true =>
    rcases parseLine_graph st line with hg | ⟨curOutSig, parents, count, hg, hout, _, _, _⟩
    · exfalso
      unfold lineAccepted at hacc
      rw [hg] at hacc
      simp at hacc
    · rw [hg, hout]
      simp [graphKeys]

theorem foldl_parseLine_keys :
    ∀ (lines : List (List Char)) (st : ParseState),
      graphKeys (lines.foldl parseLine st).g = graphKeys st.g ++ acceptedOutputs st lines := by
  intro lines
  induction lines with
  | nil => intro st; simp [acceptedOutputs]
  | cons line rest ih =>
    intro st
    rw [List.foldl_cons, ih, parseLine_keys, acceptedOutputs, List.append_assoc]

/-- C30. Every graph returned by `parseInput`, for every input text, satisfies:
each key and each input id lies in `[1, 999999999]`; every gate has a non-empty
input set; a NOT gate has exactly one input id; a XOR gate has one or two; and
the keys of the graph are exactly the output ids of the accepted lines, each
once. -/
theorem parsed_graph_invariants (text : List Char) :
    (∀ e ∈ (parseInput text).g,
      (1 ≤ e.1 ∧ e.1 ≤ 999999999) ∧
      (∀ p ∈ e.2.2, 1 ≤ p ∧ p ≤ 999999999) ∧
      e.2.2 ≠ [] ∧
      (e.2.1 = Gate.NOT → e.2.2.length = 1) ∧
      (e.2.1 = Gate.XOR → e.2.2.length = 1 ∨ e.2.2.length = 2)) ∧
    graphKeys (parseInput text).g = acceptedOutputs initialState (getlines text) ∧
    (graphKeys (parseInput text).g).Nodup := by
  refine ⟨?_, ?_, parseInput_nodupKeys text⟩
  · intro e he
    obtain ⟨har, _, hkey, hps⟩ := parseInput_entries text e he
    refine ⟨hkey, hps, ?_, ?_, ?_⟩
    · intro hnil
      rw [hnil] at har
      cases hk : e.2.1 <;> rw [hk] at har <;> simp [arityOK] at har
    · intro hk
      rw [hk] at har
      exact har
    · intro hk
      rw [hk] at har
      exact har
  · have h := foldl_parseLine_keys (getlines text) initialState
    simpa [parseInput, initialState, graphKeys] using h

/-! ### Termination of the cycle detector -/

theorem dfsParentsLoop_terminates
    (visit : Int → List Int → List Int → Option (Bool × List Int × List Int)) (A : List Int)
    (hvisit : ∀ p V, ∃ r, visit p A V = some r ∧ (r.1 = false → r.2.1 = A)) :
    ∀ ps V, ∃ r, dfsParentsLoop visit ps A V = some r ∧ (r.1 = false → r.2.1 = A) := by
  intro ps
  induction ps with
  | nil => intro V; exact ⟨_, rfl, fun _ => rfl⟩
  | cons p rest ih =>
    intro V
    by_cases hp : p ∈ V
    · obtain ⟨r, hr, hA⟩ := ih V
      exact ⟨r, by simp [dfsParentsLoop, hp, hr], hA⟩
    · obtain ⟨⟨b, A1, V1⟩, hr1, hA1⟩ := hvisit p V
      cases b with
      | true =>
        exact ⟨(true, A1, V1), by simp [dfsParentsLoop, hp, hr1], fun h => by cases h⟩
      | false =>
        have hA : A1 = A := hA1 rfl
        subst hA
        obtain ⟨r, hr, hA⟩ := ih V1
        exact ⟨r, by simp [dfsParentsLoop, hp, hr1, hr], hA⟩

theorem dfsWithActiveNodes_terminates (g : graph) :
    ∀ fuel cur A V, slack g A < fuel →
      ∃ r, dfsWithActiveNodes g fuel cur A V = some r ∧ (r.1 = false → r.2.1 = A) := by
  intro fuel
  induction fuel with
  | zero => intro _ _ _ h; omega
  | succ fuel ih =>
    intro cur A V hfuel
    unfold dfsWithActiveNodes
    cases hl : g.lookup cur with
    | none => exact ⟨_, rfl, fun _ => rfl⟩
    | some entry =>
      have hkey : graphContains g cur = true := by simp [graphContains, hl]
      by_cases hact : cur ∈ A
      · exact ⟨(true, A, V), by simp [hact], fun h => by cases h⟩
      · simp only [hact, if_false]
        have hlt := slack_insert_lt hkey hact
        obtain ⟨⟨b, A1, V1⟩, hr, hA⟩ := dfsParentsLoop_terminates (dfsWithActiveNodes g fuel)
          (setInsert cur A) (fun p V2 => ih p (setInsert cur A) V2 (by omega)) entry.2 V
        cases b with
        | true => exact ⟨(true, A1, V1), by simp [hr], fun h => by cases h⟩
        | false =>
          have hA1 : A1 = setInsert cur A := hA rfl
          subst hA1
          exact ⟨(false, setErase cur (setInsert cur A), setInsert cur V1), by simp [hr],
            fun _ => setErase_insert hact⟩

theorem hasCycleLoop_terminates (g : graph) (fuel : Nat) (hfuel : g.length < fuel) :
    ∀ nodes V, ∃ b, hasCycleLoop g fuel nodes [] V = some b := by
  have hslack : slack g [] < fuel := by simpa [slack, graphKeys] using hfuel
  intro nodes
  induction nodes with
  | nil => intro V; exact ⟨false, rfl⟩
  | cons n rest ih =>
    intro V
    obtain ⟨⟨b, A1, V1⟩, hr, hA⟩ := dfsWithActiveNodes_terminates g fuel n.1 [] V hslack
    cases b with
    | true => exact ⟨true, by simp [hasCycleLoop, hr]⟩
    | false =>
      have hA1 : A1 = [] := hA rfl
      subst hA1
      obtain ⟨b, hb⟩ := ih V1
      exact ⟨b, by simp [hasCycleLoop, hr, hb]⟩

theorem slack2_insert_lt {g : graph} {A V V2 : List Int} {cur : Int}
    (hk : graphContains g cur = true) (hA : cur ∉ A) (hV : cur ∉ V) (hsub : V ⊆ V2) :
    slack2 g (setInsert cur A) V2 < slack2 g A V := by
  unfold slack2
  apply filter_length_lt ((graphContains_iff_mem_keys g cur).mp hk)
  · simpa using ⟨hA, hV⟩
  · simp [setInsert, hA]
  · intro y hy
    simp only [setInsert, hA, if_false, decide_eq_true_eq, List.mem_cons, not_or] at hy ⊢
    exact ⟨hy.1.2, fun h => hy.2 (hsub h)⟩

/-- C28. For every graph, cyclic or not, `dfsWithActiveNodes` returns on every
node and for every active and visited set, once the fuel exceeds the number of
keys outside the active set, and `hasCycle` returns with fuel above the number
of gates. A call that goes past the early returns runs its recursive calls with
the current node added to the active set, the loop skips visited parents, and
adding a key that was neither active nor visited strictly decreases the number
of keys outside active and visited. -/
theorem cycle_detector_terminates (g : graph) :
    (∀ fuel cur A V, slack g A < fuel → (dfsWithActiveNodes g fuel cur A V).isSome = true) ∧
    (∀ fuel, g.length < fuel → (hasCycle g fuel).isSome = true) ∧
    (∀ fuel cur A V entry, g.lookup cur = some entry → cur ∉ A →
      dfsWithActiveNodes g (fuel + 1) cur A V =
        match dfsParentsLoop (dfsWithActiveNodes g fuel) entry.2 (setInsert cur A) V with
        | none => none
        | some (true, a, v) => some (true, a, v)
        | some (false, a, v) => some (false, setErase cur a, setInsert cur v)) ∧
    (∀ (visit : Int → List Int → List Int → Option (Bool × List Int × List Int))
        (p : Int) (ps A V : List Int), p ∈ V →
      dfsParentsLoop visit (p :: ps) A V = dfsParentsLoop visit ps A V) ∧
    (∀ (cur : Int) (A V V2 : List Int), graphContains g cur = true → cur ∉ A → cur ∉ V →
      V ⊆ V2 → slack2 g (setInsert cur A) V2 < slack2 g A V) ∧
    (∀ A, slack g A ≤ g.length) := by
  refine ⟨?_, ?_, ?_, ?_, ?_, ?_⟩
  · intro fuel cur A V h
    obtain ⟨r, hr, _⟩ := dfsWithActiveNodes_terminates g fuel cur A V h
    rw [hr]
    rfl
  · intro fuel h
    obtain ⟨b, hb⟩ := hasCycleLoop_terminates g fuel h g []
    unfold hasCycle
    rw [hb]
    rfl
  · intro fuel cur A V entry hl hact
    simp [dfsWithActiveNodes, hl, hact]
  · intro visit p ps A V hp
    simp [dfsParentsLoop, hp]
  · intro cur A V V2 hk hA hV hsub
    exact slack2_insert_lt hk hA hV hsub
  · intro A
    unfold slack
    calc ((graphKeys g).filter (fun k => decide (k ∉ A))).length
        ≤ (graphKeys g).length := List.length_filter_le _ _
      _ = g.length := by simp [graphKeys]

/-! ### Termination and safety of the evaluator -/

theorem valuateParents_eq_result (eval : Int → Valuation → Option (Bool × Valuation))
    (evalT : Int → Valuation → Outcome (Bool × Valuation))
    (h : ∀ p m, eval p m = outcomeResult (evalT p m)) :
    ∀ (ps : List Int) (m : Valuation),
      valuateParents eval ps m = outcomeResult (valuateParentsT evalT ps m) := by
  intro ps
  induction ps with
  | nil => intro m; rfl
  | cons p rest ih =>
    intro m
    unfold valuateParents valuateParentsT
    rw [h p m]
    cases evalT p m with
    | throws => rfl
    | outOfFuel => rfl
    | done r =>
      obtain ⟨b, m1⟩ := r
      simp only [outcomeResult]
      rw [ih m1]
      cases valuateParentsT evalT rest m1 with
      | throws => rfl
      | outOfFuel => rfl
      | done r2 => rfl

/-- The evaluator with outcomes computes what `dfsWithValuation` computes. -/
theorem dfsWithValuation_eq_result (g : graph) :
    ∀ (fuel : Nat) (cur : Int) (m : Valuation),
      dfsWithValuation g fuel cur m = outcomeResult (dfsWithValuationT g fuel cur m) := by
  intro fuel
  induction fuel with
  | zero => intro cur m; rfl
  | succ fuel ih =>
    intro cur m
    unfold dfsWithValuation dfsWithValuationT
    cases m.lookup cur with
    | some b => rfl
    | none =>
      simp only
      cases g.lookup cur with
      | none => rfl
      | some entry =>
        simp only
        rw [valuateParents_eq_result _ _ ih]
        cases valuateParentsT (dfsWithValuationT g fuel) entry.2 m with
        | throws => rfl
        | outOfFuel => rfl
        | done r =>
          obtain ⟨bs, m1⟩ := r
          simp only [outcomeResult]
          cases valuateSignalBasedOnParentsAndGate bs entry.1 with
          | none => rfl
          | some v => rfl

theorem dfsWithValuationT_extends (g : graph) {fuel : Nat} {cur : Int} {m : Valuation}
    {r : Bool × Valuation} (h : dfsWithValuationT g fuel cur m = Outcome.done r) :
    Extends m r.2 := by
  apply dfsWithValuation_extends g fuel cur m r
  rw [dfsWithValuation_eq_result, h]
  rfl

theorem valuateParentsT_fuel (evalT : Int → Valuation → Outcome (Bool × Valuation)) :
    ∀ (ps : List Int) (m : Valuation), (∀ p ∈ ps, ∀ m1, evalT p m1 ≠ Outcome.outOfFuel) →
      valuateParentsT evalT ps m ≠ Outcome.outOfFuel := by
  intro ps
  induction ps with
  | nil => intro m _ h; cases h
  | cons p rest ih =>
    intro m hev
    unfold valuateParentsT
    have h1 := hev p (List.mem_cons_self _ _) m
    cases hp : evalT p m with
    | throws => simp
    | outOfFuel => exact absurd hp h1
    | done r =>
      obtain ⟨b, m1⟩ := r
      simp only
      have h2 := ih m1 (fun q hq => hev q (List.mem_cons_of_mem _ hq))
      cases hr : valuateParentsT evalT rest m1 with
      | throws => simp
      | outOfFuel => exact absurd hr h2
      | done r2 => simp

/-- On an acyclic graph the evaluator does not run out of fuel, whatever the
valuation: the recursion is no deeper than the number of keys. -/
theorem dfsWithValuationT_terminates (g : graph) (hac : Acyclic g) :
    ∀ (fuel : Nat) (cur : Int) (m : Valuation) (P : List Int), slack g P < fuel →
      (∀ a ∈ P, Relation.TransGen (Edge g) a cur) →
      dfsWithValuationT g fuel cur m ≠ Outcome.outOfFuel := by
  intro fuel
  induction fuel with
  | zero => intro _ _ _ h; omega
  | succ fuel ih =>
    intro cur m P hfuel hreach
    unfold dfsWithValuationT
    cases hm : m.lookup cur with
    | some b => simp
    | none =>
      simp only
      cases hl : g.lookup cur with
      | none => simp
      | some entry =>
        simp only
        have hkey : graphContains g cur = true := by simp [graphContains, hl]
        have hP : cur ∉ P := fun h => hac ⟨cur, hreach cur h⟩
        have hlt := slack_insert_lt hkey hP
        have hloop := valuateParentsT_fuel (dfsWithValuationT g fuel) entry.2 m
          (fun p hp m1 => ih p m1 (setInsert cur P) (by omega)
            (fun a ha => by
              have hedge : Edge g cur p := ⟨entry, hl, hp⟩
              rcases mem_setInsert.mp ha with rfl | ha
              · exact Relation.TransGen.single hedge
              · exact Relation.TransGen.tail (hreach a ha) hedge))
        cases hr : valuateParentsT (dfsWithValuationT g fuel) entry.2 m with
        | throws => simp
        | outOfFuel => exact absurd hr hloop
        | done r =>
          obtain ⟨bs, m1⟩ := r
          simp only
          cases valuateSignalBasedOnParentsAndGate bs entry.1 <;> simp

theorem valuateParentsT_done_avoids (K : Int → Prop)
    (evalT : Int → Valuation → Outcome (Bool × Valuation))
    (hev : ∀ p m r, (∀ x, K x → m.lookup x = none) → evalT p m = Outcome.done r →
      ¬ K p ∧ ∀ x, K x → r.2.lookup x = none) :
    ∀ (ps : List Int) (m : Valuation) (r : List Bool × Valuation),
      (∀ x, K x → m.lookup x = none) → valuateParentsT evalT ps m = Outcome.done r →
      (∀ p ∈ ps, ¬ K p) ∧ ∀ x, K x → r.2.lookup x = none := by
  intro ps
  induction ps with
  | nil =>
    intro m r hm h
    simp only [valuateParentsT, Outcome.done.injEq] at h
    subst h
    exact ⟨fun p hp => (by cases hp), hm⟩
  | cons p rest ih =>
    intro m r hm h
    unfold valuateParentsT at h
    cases hp : evalT p m with
    | throws => simp [hp] at h
    | outOfFuel => simp [hp] at h
    | done r1 =>
      obtain ⟨b, m1⟩ := r1
      simp only [hp] at h
      obtain ⟨hk1, hm1⟩ := hev p m (b, m1) hm hp
      cases hr : valuateParentsT evalT rest m1 with
      | throws => simp [hr] at h
      | outOfFuel => simp [hr] at h
      | done r2 =>
        obtain ⟨bs, m2⟩ := r2
        simp only [hr, Outcome.done.injEq] at h
        subst h
        obtain ⟨hk2, hm2⟩ := ih m1 (bs, m2) hm1 hr
        refine ⟨?_, hm2⟩
        intro q hq
        rcases List.mem_cons.mp hq with rfl | hq
        · exact hk1
        · exact hk2 q hq

/-- When every signal of a set `K` has a parent in `K` and none of them is
bound, no call of the evaluator that returns binds a signal of `K`; so a call
on a signal of `K` does not return. -/
theorem dfsWithValuationT_done_avoids (g : graph) (K : Int → Prop)
    (hK : ∀ x, K x → ∃ p, K p ∧ Edge g x p) :
    ∀ (fuel : Nat) (cur : Int) (m : Valuation) (r : Bool × Valuation),
      (∀ x, K x → m.lookup x = none) → dfsWithValuationT g fuel cur m = Outcome.done r →
      ¬ K cur ∧ ∀ x, K x → r.2.lookup x = none := by
  intro fuel
  induction fuel with
  | zero => intro cur m r _ h; simp [dfsWithValuationT] at h
  | succ fuel ih =>
    intro cur m r hm h
    unfold dfsWithValuationT at h
    cases h0 : m.lookup cur with
    | some b =>
      simp only [h0, Outcome.done.injEq] at h
      subst h
      refine ⟨fun hk => ?_, hm⟩
      rw [hm cur hk] at h0
      cases h0
    | none =>
      simp only [h0] at h
      cases h1 : g.lookup cur with
      | none => simp [h1] at h
      | some entry =>
        simp only [h1] at h
        cases h2 : valuateParentsT (dfsWithValuationT g fuel) entry.2 m with
        | throws => simp [h2] at h
        | outOfFuel => simp [h2] at h
        | done r2 =>
          obtain ⟨bs, m1⟩ := r2
          simp only [h2] at h
          obtain ⟨hps, hm1⟩ := valuateParentsT_done_avoids K (dfsWithValuationT g fuel)
            (fun p m r => ih p m r) entry.2 m (bs, m1) hm h2
          have hcur : ¬ K cur := by
            intro hk
            obtain ⟨p, hkp, e, he, hp⟩ := hK cur hk
            rw [h1] at he
            cases he
            exact hps p hp hkp
          cases h3 : valuateSignalBasedOnParentsAndGate bs entry.1 with
          | none => simp [h3] at h
          | some v =>
            simp only [h3, Outcome.done.injEq] at h
            subst h
            refine ⟨hcur, ?_⟩
            intro x hx
            have hne : x ≠ cur := fun hxc => hcur (hxc ▸ hx)
            simp only
            rw [lookup_mapInsert_ne hne]
            exact hm1 x hx

theorem valuateParentsT_no_throw (g : graph)
    (evalT : Int → Valuation → Outcome (Bool × Valuation))
    (hev : ∀ p m, InputsBound g m →
      (graphContains g p = true ∨ (m.lookup p).isSome = true) → evalT p m ≠ Outcome.throws)
    (hext : ∀ p m r, evalT p m = Outcome.done r → Extends m r.2) :
    ∀ (ps : List Int) (m : Valuation), InputsBound g m →
      (∀ p ∈ ps, graphContains g p = true ∨ (m.lookup p).isSome = true) →
      valuateParentsT evalT ps m ≠ Outcome.throws ∧
      ∀ r, valuateParentsT evalT ps m = Outcome.done r →
        r.1.length = ps.length ∧ Extends m r.2 := by
  intro ps
  induction ps with
  | nil =>
    intro m _ _
    refine ⟨fun h => (by cases h), ?_⟩
    intro r h
    simp only [valuateParentsT, Outcome.done.injEq] at h
    subst h
    exact ⟨rfl, extends_refl m⟩
  | cons p rest ih =>
    intro m hib hps
    unfold valuateParentsT
    have h1 := hev p m hib (hps p (List.mem_cons_self _ _))
    cases hp : evalT p m with
    | throws => exact absurd hp h1
    | outOfFuel => exact ⟨fun h => (by cases h), fun r h => (by cases h)⟩
    | done r1 =>
      obtain ⟨b, m1⟩ := r1
      have hx1 : Extends m m1 := hext p m (b, m1) hp
      have hrest : ∀ q ∈ rest, graphContains g q = true ∨ (m1.lookup q).isSome = true := by
        intro q hq
        rcases hps q (List.mem_cons_of_mem _ hq) with h | h
        · exact Or.inl h
        · right
          obtain ⟨v, hv⟩ := Option.isSome_iff_exists.mp h
          rw [hx1 q v hv]
          rfl
      obtain ⟨h2, h3⟩ := ih m1 (inputsBound_extends hx1 hib) hrest
      simp only
      cases hr : valuateParentsT evalT rest m1 with
      | throws => exact absurd hr h2
      | outOfFuel => exact ⟨fun h => (by cases h), fun r h => (by cases h)⟩
      | done r2 =>
        obtain ⟨bs, m2⟩ := r2
        obtain ⟨hlen, hx2⟩ := h3 (bs, m2) hr
        refine ⟨fun h => (by cases h), ?_⟩
        intro r h
        simp only [Outcome.done.injEq] at h
        subst h
        exact ⟨by simp only [List.length_cons]; rw [hlen], extends_trans hx1 hx2⟩

/-- With admissible arities, and every input of every gate a key or bound, no
call of the evaluator on a key or a bound signal reaches a failing access. -/
theorem dfsWithValuationT_no_throw (g : graph) (har : Arity g) :
    ∀ (fuel : Nat) (cur : Int) (m : Valuation), InputsBound g m →
      (graphContains g cur = true ∨ (m.lookup cur).isSome = true) →
      dfsWithValuationT g fuel cur m ≠ Outcome.throws := by
  intro fuel
  induction fuel with
  | zero => intro cur m _ _ h; cases h
  | succ fuel ih =>
    intro cur m hib hcur
    unfold dfsWithValuationT
    cases hm : m.lookup cur with
    | some b => simp
    | none =>
      simp only
      have hkey : graphContains g cur = true := by
        rcases hcur with h | h
        · exact h
        · simp [hm] at h
      obtain ⟨entry, hl⟩ := Option.isSome_iff_exists.mp hkey
      rw [hl]
      simp only
      obtain ⟨h1, h2⟩ := valuateParentsT_no_throw g (dfsWithValuationT g fuel) ih
        (fun p m r h => dfsWithValuationT_extends g h) entry.2 m hib
        (fun p hp => hib cur entry p hl hp)
      cases hr : valuateParentsT (dfsWithValuationT g fuel) entry.2 m with
      | throws => exact absurd hr h1
      | outOfFuel => simp
      | done r =>
        obtain ⟨bs, m1⟩ := r
        obtain ⟨hlen, _⟩ := h2 (bs, m1) hr
        simp only
        have hlen2 : bs.length = entry.2.length := hlen
        rw [valuate_eq_gateReference entry.1 bs (by rw [hlen2]; exact har cur entry hl)]
        simp

theorem cycle_component_closed (g : graph) (s : Int)
    (hcyc : Relation.TransGen (Edge g) s s) :
    ∀ x, (Relation.TransGen (Edge g) s x ∧ Relation.TransGen (Edge g) x s) →
      ∃ p, (Relation.TransGen (Edge g) s p ∧ Relation.TransGen (Edge g) p s) ∧ Edge g x p := by
  rintro x ⟨hsx, hxs⟩
  obtain ⟨p, hxp, hps⟩ := Relation.TransGen.head'_iff.mp hxs
  refine ⟨p, ⟨Relation.TransGen.tail hsx hxp, ?_⟩, hxp⟩
  rcases Relation.reflTransGen_iff_eq_or_transGen.mp hps with h | h
  · rw [← h]
    exact hcyc
  · exact h

theorem dfsWithValuationT_cycle_not_done (g : graph) (s : Int) (m : Valuation)
    (hcyc : Relation.TransGen (Edge g) s s)
    (hun : ∀ x, Relation.TransGen (Edge g) s x → Relation.TransGen (Edge g) x s →
      m.lookup x = none) :
    ∀ fuel r, dfsWithValuationT g fuel s m ≠ Outcome.done r := by
  intro fuel r h
  have := (dfsWithValuationT_done_avoids g
    (fun x => Relation.TransGen (Edge g) s x ∧ Relation.TransGen (Edge g) x s)
    (cycle_component_closed g s hcyc) fuel s m r (fun x hx => hun x hx.1 hx.2) h).1
  exact this ⟨hcyc, hcyc⟩

theorem dfsWithValuationT_cycle_outOfFuel (g : graph) (s : Int) (m : Valuation)
    (har : Arity g) (hib : InputsBound g m)
    (hcyc : Relation.TransGen (Edge g) s s)
    (hun : ∀ x, Relation.TransGen (Edge g) s x → Relation.TransGen (Edge g) x s →
      m.lookup x = none) :
    ∀ fuel, dfsWithValuationT g fuel s m = Outcome.outOfFuel := by
  intro fuel
  have h1 := dfsWithValuationT_cycle_not_done g s m hcyc hun fuel
  have h2 := dfsWithValuationT_no_throw g har fuel s m hib (Or.inl (transGen_isKey hcyc))
  cases h : dfsWithValuationT g fuel s m with
  | done r => exact absurd h (h1 r)
  | throws => exact absurd h h2
  | outOfFuel => rfl

/-- C27. For every acyclic graph, every valuation and every signal,
`dfsWithValuation` terminates: with fuel above the number of gates the call
does not run out of fuel (it returns, or stops at a failing access). The
no-cycle precondition is necessary: on a signal of a cycle whose signals are
not in the valuation the call never returns a result, and when no access can
fail (admissible arities, every input a key or bound) it runs out of every
fuel, as on the gate `NOT 1 1`. -/
theorem evaluator_terminates_when_acyclic :
    (∀ (g : graph) (fuel : Nat) (s : Int) (m : Valuation), Acyclic g → g.length < fuel →
      dfsWithValuationT g fuel s m ≠ Outcome.outOfFuel) ∧
    (∀ (g : graph) (fuel : Nat) (s : Int) (m : Valuation),
      dfsWithValuation g fuel s m = outcomeResult (dfsWithValuationT g fuel s m)) ∧
    (∀ (g : graph) (s : Int) (m : Valuation), Relation.TransGen (Edge g) s s →
      (∀ x, Relation.TransGen (Edge g) s x → Relation.TransGen (Edge g) x s →
        m.lookup x = none) →
      ∀ fuel r, dfsWithValuationT g fuel s m ≠ Outcome.done r) ∧
    (∀ (g : graph) (s : Int) (m : Valuation), Arity g → InputsBound g m →
      Relation.TransGen (Edge g) s s →
      (∀ x, Relation.TransGen (Edge g) s x → Relation.TransGen (Edge g) x s →
        m.lookup x = none) →
      ∀ fuel, dfsWithValuationT g fuel s m = Outcome.outOfFuel) ∧
    (∀ fuel, dfsWithValuationT [(1, (Gate.NOT, [1]))] fuel 1 [] = Outcome.outOfFuel) := by
  refine ⟨?_, dfsWithValuation_eq_result, dfsWithValuationT_cycle_not_done,
    dfsWithValuationT_cycle_outOfFuel, ?_⟩
  · intro g fuel s m hac hfuel
    exact dfsWithValuationT_terminates g hac fuel s m []
      (by simpa [slack, graphKeys] using hfuel) (fun a ha => by cases ha)
  · have hl : List.lookup (1 : Int) [((1 : Int), (Gate.NOT, [(1 : Int)]))] =
        some (Gate.NOT, [1]) := by decide
    apply dfsWithValuationT_cycle_outOfFuel
    · intro s entry he
      obtain ⟨_, rfl⟩ := lookup_single he
      rfl
    · intro s entry p he hp
      obtain ⟨_, rfl⟩ := lookup_single he
      rw [List.mem_singleton.mp hp]
      exact Or.inl (by decide)
    · exact Relation.TransGen.single ⟨_, hl, List.mem_singleton_self _⟩
    · intro x _ _
      rfl

/-- C29. For every acyclic graph produced by `parseInput`, every valuation
that binds all primary inputs and every key of the graph, the evaluation of the
key returns a result: it reaches no failing access and does not run out of
fuel. Every input of every gate is a key or bound, so `g.at()` is only called
on keys; a NOT gate has at least one input, and a XOR gate has one input or at
least two. -/
theorem evaluation_reaches_no_failing_access (text : List Char) (fuel : Nat) (m : Valuation)
    (s : Int)
    (hac : Acyclic (parseInput text).g)
    (hfuel : (parseInput text).g.length < fuel)
    (hbind : ∀ x, x ∈ findInputSignals (parseInput text).g → (m.lookup x).isSome = true)
    (hs : graphContains (parseInput text).g s = true) :
    (∃ r, dfsWithValuationT (parseInput text).g fuel s m = Outcome.done r ∧
      dfsWithValuation (parseInput text).g fuel s m = some r) ∧
    (∀ cur entry p, (parseInput text).g.lookup cur = some entry → p ∈ entry.2 →
      graphContains (parseInput text).g p = true ∨ (m.lookup p).isSome = true) ∧
    (∀ e ∈ (parseInput text).g, e.2.1 = Gate.NOT → 1 ≤ e.2.2.length) ∧
    (∀ e ∈ (parseInput text).g, e.2.1 = Gate.XOR → e.2.2.length = 1 ∨ 2 ≤ e.2.2.length) := by
  have har := arity_of_entryArity (parseInput_entryArity text)
  have hib : InputsBound (parseInput text).g m := inputsBound_of_assignment hbind
  have h1 := dfsWithValuationT_terminates (parseInput text).g hac fuel s m []
    (by simpa [slack, graphKeys] using hfuel) (fun a ha => by cases ha)
  have h2 := dfsWithValuationT_no_throw (parseInput text).g har fuel s m hib (Or.inl hs)
  refine ⟨?_, hib, ?_, ?_⟩
  · cases h : dfsWithValuationT (parseInput text).g fuel s m with
    | done r =>
      refine ⟨r, rfl, ?_⟩
      rw [dfsWithValuation_eq_result, h]
      rfl
    | throws => exact absurd h h2
    | outOfFuel => exact absurd h h1
  · intro e he hk
    have := parseInput_entryArity text e he
    rw [hk] at this
    exact le_of_eq (Eq.symm this)
  · intro e he hk
    have := parseInput_entryArity text e he
    rw [hk] at this
    rcases this with h | h
    · exact Or.inl h
    · exact Or.inr (le_of_eq h.symm)

/-- Witness for C29: in the circuit `AND 3 1 2`, `NOT 4 3` with both inputs bound
to `true`, the evaluation of signal 4 returns `false`. -/
theorem evaluation_reaches_no_failing_access_witness :
    ∃ r, dfsWithValuationT (parseInput "AND 3 1 2\nNOT 4 3".toList).g 3 4
        [(1, true), (2, true)] = Outcome.done r ∧
      dfsWithValuation (parseInput "AND 3 1 2\nNOT 4 3".toList).g 3 4
        [(1, true), (2, true)] = some r :=
  (evaluation_reaches_no_failing_access "AND 3 1 2\nNOT 4 3".toList 3 [(1, true), (2, true)] 4
    (acyclic_of_hasCycle _ 3 (by decide) (by decide)) (by decide)
    (fun x hx => by
      rw [show findInputSignals (parseInput "AND 3 1 2\nNOT 4 3".toList).g = [1, 2]
        from by decide] at hx
      simp only [List.mem_cons, List.mem_singleton, List.not_mem_nil, or_false] at hx
      rcases hx with rfl | rfl <;> decide)
    (by decide)).1

/-! ### Functions against their own description -/

theorem chain_to_loop_reach (x : Int)
    (h : Relation.TransGen (Edge [(1, (Gate.NOT, [2])), (2, (Gate.NOT, [2]))]) 1 x) :
    x = 2 := by
  have hedge : ∀ a b : Int, Edge [(1, (Gate.NOT, [2])), (2, (Gate.NOT, [2]))] a b → b = 2 := by
    rintro a b ⟨e, he, hb⟩
    by_cases h1 : a = 1
    · subst h1
      simp [List.lookup] at he
      subst he
      simpa using hb
    · have e1 : (a == 1) = false := by simpa using h1
      by_cases h2 : a = 2
      · subst h2
        simp [List.lookup] at he
        subst he
        simpa using hb
      · have e2 : (a == 2) = false := by simpa using h2
        simp [List.lookup, e1, e2] at he
  induction h with
  | single h1 => exact hedge _ _ h1
  | tail _ h2 _ => exact hedge _ _ h2

theorem dfsParentsLoop_false_active
    (visit : Int → List Int → List Int → Option (Bool × List Int × List Int)) (A : List Int)
    (hA : ∀ p V r, visit p A V = some r → r.1 = false → r.2.1 = A) :
    ∀ ps V r, dfsParentsLoop visit ps A V = some r → r.1 = false → r.2.1 = A := by
  intro ps
  induction ps with
  | nil =>
    intro V r h _
    simp only [dfsParentsLoop, Option.some.injEq] at h
    subst h
    rfl
  | cons p rest ih =>
    intro V r h hf
    unfold dfsParentsLoop at h
    by_cases hp : p ∈ V
    · simp only [hp, if_true] at h
      exact ih V r h hf
    · simp only [hp, if_false] at h
      cases hr : visit p A V with
      | none => simp [hr] at h
      | some r1 =>
        obtain ⟨b, A1, V1⟩ := r1
        cases b with
        | true =>
          simp only [hr, Option.some.injEq] at h
          subst h
          cases hf
        | false =>
          have hA1 : A1 = A := hA p V _ hr rfl
          subst hA1
          simp only [hr] at h
          exact ih V1 r h hf

theorem dfsWithActiveNodes_false_active (g : graph) :
    ∀ fuel cur A V r, dfsWithActiveNodes g fuel cur A V = some r → r.1 = false →
      r.2.1 = A := by
  intro fuel
  induction fuel with
  | zero => intro cur A V r h; simp [dfsWithActiveNodes] at h
  | succ fuel ih =>
    intro cur A V r h hf
    unfold dfsWithActiveNodes at h
    cases hl : g.lookup cur with
    | none =>
      simp only [hl, Option.some.injEq] at h
      subst h
      rfl
    | some entry =>
      simp only [hl] at h
      by_cases hact : cur ∈ A
      · simp only [hact, if_true, Option.some.injEq] at h
        subst h
        cases hf
      · simp only [hact, if_false] at h
        cases hr : dfsParentsLoop (dfsWithActiveNodes g fuel) entry.2 (setInsert cur A) V with
        | none => simp [hr] at h
        | some r2 =>
          obtain ⟨b, A1, V1⟩ := r2
          cases b with
          | true =>
            simp only [hr, Option.some.injEq] at h
            subst h
            cases hf
          | false =>
            have hA1 := dfsParentsLoop_false_active (dfsWithActiveNodes g fuel)
              (setInsert cur A) (fun p V2 r3 => ih p _ V2 r3) entry.2 V _ hr rfl
            simp only at hA1
            subst hA1
            simp only [hr, Option.some.injEq] at h
            subst h
            exact setErase_insert hact

theorem dfsParentsLoop_true_reach (g : graph)
    (visit : Int → List Int → List Int → Option (Bool × List Int × List Int)) (A : List Int)
    (hA : ∀ p V r, visit p A V = some r → r.1 = false → r.2.1 = A) :
    ∀ ps V a v,
      (∀ p ∈ ps, ∀ V2 a2 v2, visit p A V2 = some (true, a2, v2) →
        ∃ s, Relation.ReflTransGen (Edge g) p s ∧ Relation.TransGen (Edge g) s s) →
      dfsParentsLoop visit ps A V = some (true, a, v) →
      ∃ p ∈ ps, ∃ s, Relation.ReflTransGen (Edge g) p s ∧ Relation.TransGen (Edge g) s s := by
  intro ps
  induction ps with
  | nil => intro V a v _ h; simp [dfsParentsLoop] at h
  | cons p rest ih =>
    intro V a v hvisit h
    have hrest : ∀ q ∈ rest, ∀ V2 a2 v2, visit q A V2 = some (true, a2, v2) →
        ∃ s, Relation.ReflTransGen (Edge g) q s ∧ Relation.TransGen (Edge g) s s :=
      fun q hq => hvisit q (List.mem_cons_of_mem _ hq)
    unfold dfsParentsLoop at h
    by_cases hp : p ∈ V
    · simp only [hp, if_true] at h
      obtain ⟨q, hq, hs⟩ := ih V a v hrest h
      exact ⟨q, List.mem_cons_of_mem _ hq, hs⟩
    · simp only [hp, if_false] at h
      cases hr : visit p A V with
      | none => simp [hr] at h
      | some r =>
        obtain ⟨b, A1, V1⟩ := r
        cases b with
        | true =>
          exact ⟨p, List.mem_cons_self _ _, hvisit p (List.mem_cons_self _ _) V A1 V1 hr⟩
        | false =>
          have hA1 : A1 = A := hA p V _ hr rfl
          subst hA1
          simp only [hr] at h
          obtain ⟨q, hq, hs⟩ := ih V1 a v hrest h
          exact ⟨q, List.mem_cons_of_mem _ hq, hs⟩

/-- A search that returns `true` has met a cycle that its start node reaches. -/
theorem dfsWithActiveNodes_true_reach (g : graph) :
    ∀ fuel cur A V a v, (∀ x ∈ A, Relation.TransGen (Edge g) x cur) →
      dfsWithActiveNodes g fuel cur A V = some (true, a, v) →
      ∃ s, Relation.ReflTransGen (Edge g) cur s ∧ Relation.TransGen (Edge g) s s := by
  intro fuel
  induction fuel with
  | zero => intro cur A V a v _ h; simp [dfsWithActiveNodes] at h
  | succ fuel ih =>
    intro cur A V a v hreach h
    unfold dfsWithActiveNodes at h
    cases hl : g.lookup cur with
    | none => simp [hl] at h
    | some entry =>
      simp only [hl] at h
      by_cases hact : cur ∈ A
      · exact ⟨cur, Relation.ReflTransGen.refl, hreach cur hact⟩
      · simp only [hact, if_false] at h
        cases hr : dfsParentsLoop (dfsWithActiveNodes g fuel) entry.2 (setInsert cur A) V with
        | none => simp [hr] at h
        | some r2 =>
          obtain ⟨b, A1, V1⟩ := r2
          cases b with
          | false => simp [hr] at h
          | true =>
            obtain ⟨p, hp, s, hps, hcyc⟩ := dfsParentsLoop_true_reach g
              (dfsWithActiveNodes g fuel) (setInsert cur A)
              (fun p V2 r3 => dfsWithActiveNodes_false_active g fuel p _ V2 r3) entry.2 V A1 V1
              (fun q hq V2 a2 v2 hv => ih q (setInsert cur A) V2 a2 v2
                (fun x hx => by
                  have hedge : Edge g cur q := ⟨entry, hl, hq⟩
                  rcases mem_setInsert.mp hx with rfl | hx
                  · exact Relation.TransGen.single hedge
                  · exact Relation.TransGen.tail (hreach x hx) hedge) hv)
              hr
            exact ⟨s, Relation.ReflTransGen.head ⟨entry, hl, hp⟩ hps, hcyc⟩

/-- What the search from a node with empty sets decides: whether the node
reaches a cycle. -/
theorem dfsWithActiveNodes_iff_reaches_cycle (g : graph) (fuel : Nat) (c : Int)
    (hfuel : g.length < fuel) :
    (∃ a v, dfsWithActiveNodes g fuel c [] [] = some (true, a, v)) ↔
      ∃ s, Relation.ReflTransGen (Edge g) c s ∧ Relation.TransGen (Edge g) s s := by
  constructor
  · rintro ⟨a, v, h⟩
    exact dfsWithActiveNodes_true_reach g fuel c [] [] a v (fun x hx => by cases hx) h
  · rintro ⟨s, hcs, hcyc⟩
    obtain ⟨⟨b, A1, V1⟩, hr, hpost⟩ := dfsWithActiveNodes_spec g fuel c [] []
      (by simpa [slack, graphKeys] using hfuel) (fun x hx => by cases hx)
      (fun x hx => by cases hx)
    cases b with
    | true => exact ⟨A1, V1, hr⟩
    | false =>
      exfalso
      obtain ⟨_, hsafe, _, hmem⟩ := hpost.2 rfl
      have hckey : graphContains g c = true := by
        rcases Relation.reflTransGen_iff_eq_or_transGen.mp hcs with h | h
        · rw [← h]; exact transGen_isKey hcyc
        · exact transGen_isKey h
      have hc : c ∈ V1 := hmem c (List.mem_singleton_self _) hckey
      exact (hsafe s (safe_reach hsafe hc hcs (transGen_isKey hcyc))).1 hcyc

/-- C24, the code at the failing input: in the graph of `NOT 1 2`, `NOT 2 2` the
search started at node 1 with empty active and visited sets returns `true`,
although node 1 lies on no cycle (the only cycle is the loop at node 2, which
node 1 merely reaches). In general the search from a node with empty sets
returns `true` iff the node reaches a cycle. -/
theorem dfs_true_for_node_off_cycle :
    (parseInput "NOT 1 2\nNOT 2 2".toList).g = [(1, (Gate.NOT, [2])), (2, (Gate.NOT, [2]))] ∧
    dfsWithActiveNodes [(1, (Gate.NOT, [2])), (2, (Gate.NOT, [2]))] 3 1 [] [] =
      some (true, [2, 1], []) ∧
    ¬ Relation.TransGen (Edge [(1, (Gate.NOT, [2])), (2, (Gate.NOT, [2]))]) 1 1 ∧
    Relation.TransGen (Edge [(1, (Gate.NOT, [2])), (2, (Gate.NOT, [2]))]) 2 2 ∧
    (∀ (g : graph) (fuel : Nat) (c : Int), g.length < fuel →
      ((∃ a v, dfsWithActiveNodes g fuel c [] [] = some (true, a, v)) ↔
        ∃ s, Relation.ReflTransGen (Edge g) c s ∧ Relation.TransGen (Edge g) s s)) := by
  refine ⟨by decide, by decide, ?_, ?_, dfsWithActiveNodes_iff_reaches_cycle⟩
  · intro h
    have := chain_to_loop_reach 1 h
    omega
  · exact Relation.TransGen.single ⟨(Gate.NOT, [2]), by decide, by decide⟩

/-- C25, the code at the failing input: `toBinary(1, 2, bitset)` on a bitset that
holds `1, 1` leaves `1, 1`, while the 2-bit big-endian representation of 1 is
`0, 1`: the position above the top bit of `n` keeps its prior content. -/
theorem toBinary_keeps_prior_high_bits :
    toBinary 1 2 [true, true] = some [true, true] ∧
    bigEndianBits 2 1 = [false, true] ∧
    toBinary 1 2 [true, true] ≠ some (bigEndianBits 2 1) ∧
    toBinary 1 2 [false, false] = some (bigEndianBits 2 1) := by
  decide

/-! ### Primary inputs of an acyclic circuit -/

theorem acyclic_nil : Acyclic [] := by
  rintro ⟨s, h⟩
  have hk := transGen_isKey h
  simp [graphContains, List.lookup] at hk

/-- When no parent is a primary input, every key of the graph has a parent
that is again a key. -/
theorem key_has_key_parent (g : graph) (hne : ∀ e ∈ g, e.2.2 ≠ [])
    (hk : findInputSignals g = []) :
    ∀ s ∈ graphKeys g, ∃ p ∈ graphKeys g, Edge g s p := by
  intro s hs
  have hc := (graphContains_iff_mem_keys g s).mpr hs
  unfold graphContains at hc
  obtain ⟨entry, hl⟩ := Option.isSome_iff_exists.mp hc
  have hmem : (s, entry) ∈ g := lookup_some_mem hl
  obtain ⟨p, hp⟩ := List.exists_mem_of_ne_nil _ (hne _ hmem)
  refine ⟨p, ?_, entry, hl, hp⟩
  by_contra hnk
  have hin : p ∈ findInputSignals g := (mem_findInputSignals g p).mpr ⟨⟨_, hmem, hp⟩, hnk⟩
  rw [hk] at hin
  cases hin

/-- An acyclic graph with gates, each with a non-empty input set, has a
primary input: a key from which no further key is reached has a parent that is
not a key. -/
theorem findInputSignals_ne_nil (g : graph) (hac : Acyclic g)
    (hne : ∀ e ∈ g, e.2.2 ≠ []) (hg : g ≠ []) : findInputSignals g ≠ [] := by
  intro hk
  have hstep := key_has_key_parent g hne hk
  let r : {x : Int // x ∈ graphKeys g} → {x : Int // x ∈ graphKeys g} → Prop :=
    fun a b => Relation.TransGen (Edge g) b.1 a.1
  haveI : IsTrans {x : Int // x ∈ graphKeys g} r :=
    ⟨fun a b c hab hbc => Relation.TransGen.trans hbc hab⟩
  haveI : IsIrrefl {x : Int // x ∈ graphKeys g} r := ⟨fun a h => hac ⟨a.1, h⟩⟩
  have hwf : WellFounded r := Finite.wellFounded_of_trans_of_irrefl r
  obtain ⟨k0, hk0⟩ : ∃ k, k ∈ graphKeys g := by
    cases g with
    | nil => exact absurd rfl hg
    | cons e rest => exact ⟨e.1, by simp [graphKeys]⟩
  obtain ⟨m, _, hmin⟩ := hwf.has_min Set.univ ⟨⟨k0, hk0⟩, trivial⟩
  obtain ⟨p, hp, hedge⟩ := hstep m.1 m.2
  exact hmin ⟨p, hp⟩ trivial (Relation.TransGen.single hedge)

theorem printTruthTable_nil (fuel : Nat) : printTruthTable [] fuel = some [[]] := by
  rw [printTruthTable_no_inputs [] fuel rfl]
  rfl

/-- C31. For every acyclic graph in which every gate has a non-empty input set
(which holds for every graph the parser builds), the set of primary inputs is
empty iff the graph is empty. So a non-empty such circuit has `k ≥ 1` primary
inputs and `2 ^ k ≥ 2`, and its table (for admissible arities, distinct keys,
`k < 64` and fuel above the number of gates) has `2 ^ k ≥ 2` rows; and when
`k = 0` the table is the single empty line, that of the empty circuit. -/
theorem primary_inputs_empty_iff_graph_empty (g : graph) (hac : Acyclic g)
    (hne : ∀ e ∈ g, e.2.2 ≠ []) :
    (findInputSignals g = [] ↔ g = []) ∧
    (g ≠ [] → 1 ≤ (findInputSignals g).length ∧ 2 ≤ 2 ^ (findInputSignals g).length) ∧
    (g ≠ [] → Arity g → (graphKeys g).Nodup → (findInputSignals g).length < 64 →
      ∀ fuel, g.length < fuel →
        ∃ rows, printTruthTable g fuel = some rows ∧
          rows.length = 2 ^ (findInputSignals g).length ∧ 2 ≤ rows.length) ∧
    (findInputSignals g = [] → g = [] ∧ ∀ fuel, printTruthTable g fuel = some [[]]) ∧
    (∀ text : List Char, ∀ e ∈ (parseInput text).g, e.2.2 ≠ []) := by
  have hiff : findInputSignals g = [] ↔ g = [] := by
    constructor
    · intro hk
      by_contra hg
      exact findInputSignals_ne_nil g hac hne hg hk
    · intro hg
      subst hg
      rfl
  have hpos : g ≠ [] → 1 ≤ (findInputSignals g).length := by
    intro hg
    exact List.length_pos.mpr (findInputSignals_ne_nil g hac hne hg)
  have hpow : g ≠ [] → 2 ≤ 2 ^ (findInputSignals g).length := by
    intro hg
    calc 2 = 2 ^ 1 := rfl
      _ ≤ 2 ^ (findInputSignals g).length := Nat.pow_le_pow_right (by decide) (hpos hg)
  refine ⟨hiff, fun hg => ⟨hpos hg, hpow hg⟩, ?_, ?_, ?_⟩
  · intro hg har hnd hk fuel hfuel
    refine ⟨_, printTruthTable_spec g hac har hnd fuel hfuel hk, ?_, ?_⟩
    · simp
    · simpa using hpow hg
  · intro hk
    have hg := hiff.mp hk
    subst hg
    exact ⟨rfl, printTruthTable_nil⟩
  · intro text e he
    have har := (parseInput_entries text e he).1
    intro hnil
    rw [hnil] at har
    cases hkind : e.2.1 <;> rw [hkind] at har <;> simp [arityOK] at har

/-- Witness for C31: the circuit `AND 3 1 2`, `NOT 4 3` is acyclic with non-empty
input sets, has two primary inputs and four rows; the empty circuit has none
and its table is one empty line. -/
theorem primary_inputs_empty_iff_graph_empty_witness :
    ((parseInput "AND 3 1 2\nNOT 4 3".toList).g ≠ [] ∧
      findInputSignals (parseInput "AND 3 1 2\nNOT 4 3".toList).g = [1, 2] ∧
      ∃ rows, printTruthTable (parseInput "AND 3 1 2\nNOT 4 3".toList).g 3 = some rows ∧
        rows.length = 4 ∧ 2 ≤ rows.length) ∧
    ((parseInput []).g = [] ∧ findInputSignals (parseInput []).g = [] ∧
      printTruthTable (parseInput []).g 1 = some [[]]) := by
  have h1 := primary_inputs_empty_iff_graph_empty (parseInput "AND 3 1 2\nNOT 4 3".toList).g
    (acyclic_of_hasCycle _ 3 (by decide) (by decide)) (by decide)
  have h2 := primary_inputs_empty_iff_graph_empty (parseInput []).g acyclic_nil
    (by decide)
  refine ⟨⟨by decide, by decide, ?_⟩, ?_⟩
  · obtain ⟨rows, hrows, hlen, htwo⟩ := h1.2.2.1 (by decide)
      (arity_of_entryArity (parseInput_entryArity _)) (parseInput_nodupKeys _) (by decide) 3
      (by decide)
    refine ⟨rows, hrows, ?_, htwo⟩
    rw [hlen]
    rw [show findInputSignals (parseInput "AND 3 1 2\nNOT 4 3".toList).g = [1, 2] from by decide]
    rfl
  · have h3 := h2.2.2.2.1 (by decide)
    exact ⟨h3.1, by decide, h3.2 1⟩

end Nysa
